import Mathlib

set_option linter.unusedSectionVars false

/-!
# Parabolic morphology: a shallow embedding of the ITKParabolicMorphology kernels

The line kernels of `itkParabolicMorphUtils.h`, the per-voxel combiner of
`itkMorphSDTHelperImageFilter.h` and the pipeline of
`itkMorphologicalSignedDistanceTransformImageFilter.hxx`, over an arbitrary linearly ordered
field (exact arithmetic).  Buffers are functions from indices to values; a read or write outside
the index range of a buffer makes the run fail (`none`).
-/

namespace itk

variable {α : Type} [LinearOrderedField α]

/-! ## `NumericTraits<int>` -/

/-- The value of `NumericTraits<int>::NonpositiveMin()` for a 32 bit `int`. -/
def intNonpositiveMin : ℤ := -2147483648

/-- The value of `NumericTraits<int>::max()` for a 32 bit `int`. -/
def intMax : ℤ := 2147483647

/-! ## The intersection algorithm, `DoLineIntAlg` -/

/-- The scratch state of `DoLineIntAlg`: the index `k` of the rightmost parabola of the envelope,
the precomputed values `F`, the locations `v` of the parabolas of the envelope and the
boundaries `z` between them. -/
structure EnvState (α : Type) where
  k : ℕ
  F : ℕ → α
  v : ℕ → ℕ
  z : ℕ → α

/-- The intersection abscissa `s` computed in the pop loop, for the new parabola `q` and the
parabola stored at `v[k]`. -/
def intersection (doDilate : Bool) (F : ℕ → α) (v : ℕ → ℕ) (q k : ℕ) : α :=
  if doDilate then (F q - F (v k)) / (2 * ((v k : α) - (q : α)))
  else (F q - F (v k)) / (2 * ((q : α) - (v k : α)))

/-- The loop `do { k--; s = ...; } while (s <= z[k]);`.  The last argument is the value of `k`
on entry of the loop body, before the decrement; when it is `0` the decrement leaves the index
range of `v` and `z` and the run fails.  The result is the final `k` and `s`. -/
def popLoop (doDilate : Bool) (F : ℕ → α) (v : ℕ → ℕ) (z : ℕ → α) (q : ℕ) : ℕ → Option (ℕ × α)
  | 0 => none
  | k + 1 =>
    let s := intersection doDilate F v q k
    if s ≤ z k then popLoop doDilate F v z q k else some (k, s)

/-- The value stored in `F[q]` by the main loop. -/
def precompute (doDilate : Bool) (LineBuf : List α) (magnitude : α) (q : ℕ) : α :=
  if doDilate then LineBuf.getD q 0 / magnitude - (q : α) * (q : α)
  else LineBuf.getD q 0 / magnitude + (q : α) * (q : α)

/-- One iteration of the main loop `for (q = 1; q < N; q++)` of `DoLineIntAlg`. -/
def mainStep (doDilate : Bool) (LineBuf : List α) (magnitude : α) (q : ℕ) (st : EnvState α) :
    Option (EnvState α) :=
  let F := Function.update st.F q (precompute doDilate LineBuf magnitude q)
  match popLoop doDilate F st.v st.z q (st.k + 1) with
  | none => none
  | some (k, s) =>
    some { k := k + 1
           F := F
           v := Function.update st.v (k + 1) q
           z := Function.update (Function.update st.z (k + 1) s) (k + 1 + 1) (intMax : α) }

/-- The main loop of `DoLineIntAlg`: `n` iterations starting at `q`. -/
def mainLoop (doDilate : Bool) (LineBuf : List α) (magnitude : α) :
    ℕ → ℕ → EnvState α → Option (EnvState α)
  | 0, _, st => some st
  | n + 1, q, st =>
    match mainStep doDilate LineBuf magnitude q st with
    | none => none
    | some st' => mainLoop doDilate LineBuf magnitude n (q + 1) st'

/-- The loop `while (z[k + 1] < q) k++;` of the reconstruction.  `z` has `N + 1` entries, so the
read of `z[k + 1]` is inside the buffer as long as `k < N`; the first argument counts the reads
that remain inside the buffer, `N - k`. -/
def advance (z : ℕ → α) (q : ℕ) : ℕ → ℕ → Option ℕ
  | 0, _ => none
  | fuel + 1, k => if z (k + 1) < (q : α) then advance z q fuel (k + 1) else some k

/-- The value written to `LineBuf[q]` by the reconstruction, read from the parabola at `v[k]`. -/
def emit (doDilate : Bool) (magnitude : α) (F : ℕ → α) (v : ℕ → ℕ) (q k : ℕ) : α :=
  if doDilate then (F (v k) - (q : α) * ((q : α) - 2 * (v k : α))) * magnitude
  else ((q : α) * ((q : α) - 2 * (v k : α)) + F (v k)) * magnitude

/-- The reconstruction loop `for (q = 0; q < N; q++)` of `DoLineIntAlg`: `n` iterations starting
at `q` with the running index `k`.  `F` and `v` have `N` entries. -/
def reconstruct (doDilate : Bool) (magnitude : α) (N : ℕ) (F : ℕ → α) (v : ℕ → ℕ) (z : ℕ → α) :
    ℕ → ℕ → ℕ → Option (List α)
  | 0, _, _ => some []
  | n + 1, q, k =>
    match advance z q (N - k) k with
    | none => none
    | some k' =>
      if v k' < N then
        match reconstruct doDilate magnitude N F v z n (q + 1) k' with
        | none => none
        | some rest => some (emit doDilate magnitude F v q k' :: rest)
      else none

/-- The function `DoLineIntAlg<..., doDilate>(LineBuf, F, v, z, magnitude)` in exact arithmetic:
`RealType` is an ordered field.  The result is the content of `LineBuf` on return, or `none`
when the run leaves the index range of a buffer.  The run with every operation rounded to
`double` is `DoLineIntAlgFl roundDouble`. -/
def DoLineIntAlg (doDilate : Bool) (LineBuf : List α) (F : ℕ → α) (v : ℕ → ℕ) (z : ℕ → α)
    (magnitude : α) : Option (List α) :=
  match LineBuf with
  | [] => none
  | x :: _ =>
    let N := LineBuf.length
    let st0 : EnvState α :=
      { k := 0
        F := Function.update F 0 (x / magnitude)
        v := Function.update v 0 0
        z := Function.update (Function.update z 0 (intNonpositiveMin : α)) 1 (intMax : α) }
    match mainLoop doDilate LineBuf magnitude (N - 1) 1 st0 with
    | none => none
    | some st => reconstruct doDilate magnitude N st.F st.v st.z N 0 0

/-! ## The contact point algorithm, `DoLineCP` -/

/-- The two constants of `NumericTraits<TInputPixel>` that `DoLineCP` reads. -/
structure PixelTraits (α : Type) where
  NonpositiveMin : α
  max : α

/-- An inner loop of `DoLineCP`, `for (krange = koffset; ...; krange += dir)`: `n` iterations from
the offset `krange` with the state `(BaseVal, newcontact)`; `dir` is `1` in the first sweep and
`-1` in the second.  A read of `buf[pos + krange]` outside the buffer makes the run fail. -/
def cpInner (doDilate : Bool) (buf : List α) (magnitude : α) (pos : ℕ) (dir : ℤ) :
    ℕ → ℤ → α × ℤ → Option (α × ℤ)
  | 0, _, acc => some acc
  | n + 1, krange, (BaseVal, newcontact) =>
    if 0 ≤ (pos : ℤ) + krange ∧ (pos : ℤ) + krange < (buf.length : ℤ) then
      let T := buf.getD ((pos : ℤ) + krange).toNat 0 - magnitude * (krange : α) * (krange : α)
      if (if doDilate then T ≥ BaseVal else T ≤ BaseVal) then
        cpInner doDilate buf magnitude pos dir n (krange + dir) (T, krange)
      else cpInner doDilate buf magnitude pos dir n (krange + dir) (BaseVal, newcontact)
    else none

/-- The first sweep of `DoLineCP` (negative half of the parabola): `n` positions from `pos`
upwards; the result holds the values written to `tmpLineBuf[pos], tmpLineBuf[pos + 1], ...`. -/
def cpSweep1 (doDilate : Bool) (extreme : α) (LineBuf : List α) (magnitude : α) :
    ℕ → ℕ → ℤ → ℤ → Option (List α)
  | 0, _, _, _ => some []
  | n + 1, pos, koffset, newcontact =>
    match cpInner doDilate LineBuf magnitude pos 1 (1 - koffset).toNat koffset
        (extreme, newcontact) with
    | none => none
    | some (BaseVal, newcontact') =>
      match cpSweep1 doDilate extreme LineBuf magnitude n (pos + 1) (newcontact' - 1)
          newcontact' with
      | none => none
      | some rest => some (BaseVal :: rest)

/-- The second sweep of `DoLineCP` (positive half of the parabola): the positions
`pos, pos - 1, ..., 0`, the first argument being `pos + 1`; the result holds the values written
to `LineBuf[0], ..., LineBuf[pos]`. -/
def cpSweep2 (doDilate : Bool) (extreme : α) (tmpLineBuf : List α) (magnitude : α) :
    ℕ → ℤ → ℤ → Option (List α)
  | 0, _, _ => some []
  | pos + 1, koffset, newcontact =>
    match cpInner doDilate tmpLineBuf magnitude pos (-1) (koffset + 1).toNat koffset
        (extreme, newcontact) with
    | none => none
    | some (BaseVal, newcontact') =>
      match cpSweep2 doDilate extreme tmpLineBuf magnitude pos (newcontact' + 1)
          newcontact' with
      | none => none
      | some front => some (front ++ [BaseVal])

/-- The function `DoLineCP<..., TInputPixel, doDilate>(LineBuf, tmpLineBuf, magnitude)`.  The
first sweep writes every entry of `tmpLineBuf` before the second sweep reads it, so the content
of `tmpLineBuf` on entry is not an argument.  The result is the content of `LineBuf` on return,
or `none` when a read leaves a buffer. -/
def DoLineCP (doDilate : Bool) (traits : PixelTraits α) (LineBuf : List α) (magnitude : α) :
    Option (List α) :=
  let extreme := if doDilate then traits.NonpositiveMin else traits.max
  match cpSweep1 doDilate extreme LineBuf magnitude LineBuf.length 0 0 0 with
  | none => none
  | some tmpLineBuf => cpSweep2 doDilate extreme tmpLineBuf magnitude LineBuf.length 0 0

/-! ## `doOneDimension`, for one line -/

/-- The value `NOCHOICE` of `enum ParabolicAlgorithm`. -/
def NOCHOICE : ℤ := 0

/-- The value `CONTACTPOINT` of `enum ParabolicAlgorithm`. -/
def CONTACTPOINT : ℤ := 1

/-- The value `INTERSECTION` of `enum ParabolicAlgorithm`. -/
def INTERSECTION : ℤ := 2

/-- The value of `ParabolicAlgorithmChoice` after the block `if (ParabolicAlgorithmChoice ==
NOCHOICE)` of `doOneDimension`, which decides from the scale. -/
def algorithmChoice (ParabolicAlgorithmChoice : ℤ) (Sigma : α) : ℤ :=
  if ParabolicAlgorithmChoice = NOCHOICE then
    (if 2 * Sigma < 0.2 then CONTACTPOINT else INTERSECTION)
  else ParabolicAlgorithmChoice

/-- What `doOneDimension<..., doDilate>` does with one line of the image, between the read of
`LineBuf` and the write of the result (before the cast to the output pixel type): the choice of
the algorithm, the magnitude and the call of the kernel.  The scratch buffers `Fbuf`, `Vbuf`
and `Zbuf` are allocated by `doOneDimension`; their content on entry of the kernel is taken to
be `0`. -/
def doOneDimensionLine (doDilate : Bool) (traits : PixelTraits α) (m_UseImageSpacing : Bool)
    (image_scale Sigma : α) (ParabolicAlgorithmChoice : ℤ) (LineBuf : List α) :
    Option (List α) :=
  let iscale : α := if m_UseImageSpacing then image_scale else 1
  if algorithmChoice ParabolicAlgorithmChoice Sigma = CONTACTPOINT then
    let magnitudeSign : α := if doDilate then 1 else -1
    let magnitudeCP : α := (magnitudeSign * iscale * iscale) / (2 * Sigma)
    DoLineCP doDilate traits LineBuf magnitudeCP
  else
    let magnitudeInt : α := (iscale * iscale) / (2 * Sigma)
    DoLineIntAlg doDilate LineBuf (fun _ => 0) (fun _ => 0) (fun _ => 0) magnitudeInt

/-! ## Images and `doOneDimension` -/

/-- The index of a voxel of an image of dimension `D`. -/
abbrev Index (D : ℕ) := Fin D → ℕ

/-- The content of an image buffer during a filter run: the value of a voxel is `none` when a
kernel run that wrote it has left the index range of its buffers. -/
abbrev Pixels (D : ℕ) (α : Type) := Index D → Option α

/-- The read of the first `n` voxels of the line through `p` along `direction` into `LineBuf`
(the loop `while (!inputIterator.IsAtEndOfLine())`). -/
def readLine {D : ℕ} (input : Pixels D α) (direction : Fin D) (p : Index D) :
    ℕ → Option (List α)
  | 0 => some []
  | n + 1 =>
    match readLine input direction p n, input (Function.update p direction n) with
    | some l, some x => some (l ++ [x])
    | _, _ => none

/-- The function `doOneDimension<..., doDilate>`: every line of the region along `direction` is
read from `input`, transformed by the kernel and written, through the cast to the output pixel
type, to the output; the result is the content of the output at the voxel `p`.  The region
starts at index 0 and has `LineLength` voxels along `direction`. -/
def doOneDimension {D : ℕ} (doDilate : Bool) (traits : PixelTraits α) (cast : α → α)
    (input : Pixels D α) (LineLength : ℕ) (direction : Fin D) (m_UseImageSpacing : Bool)
    (image_scale Sigma : α) (ParabolicAlgorithmChoice : ℤ) : Pixels D α :=
  fun p =>
    match readLine input direction p LineLength with
    | none => none
    | some LineBuf =>
      match doOneDimensionLine doDilate traits m_UseImageSpacing image_scale Sigma
          ParabolicAlgorithmChoice LineBuf with
      | none => none
      | some out => (out[p direction]?).map cast

/-- Modelled from the spec: the separable erosion or dilation filter of section 4.2
(`SeparableParabolic`, the filters `m_Erode` and `m_Dilate` of the distance transform), whose
sources are not part of the repository files at hand.  For each axis in order, if the scale of
the axis is positive the lines along the axis go through `doOneDimension`, else the pass copies
(axis 0) or does nothing (other axes). -/
def SeparableParabolic {D : ℕ} (doDilate : Bool) (traits : PixelTraits α) (cast : α → α)
    (size : Fin D → ℕ) (spacing scale : Fin D → α) (useSpacing : Bool) (algorithm : ℤ)
    (input : Index D → α) : Pixels D α :=
  (List.finRange D).foldl
    (fun img d =>
      if 0 < scale d then
        doOneDimension doDilate traits cast img (size d) d useSpacing (spacing d) (scale d)
          algorithm
      else img)
    (fun p => some (input p))

/-! ## The signed distance transform -/

/-- The value `MaxDist` computed by `GenerateData` from the size `sz` of the requested region and
the spacing `sp` of the image. -/
def MaxDist {D : ℕ} (sz : Fin D → ℕ) (sp : Fin D → α) (UseImageSpacing : Bool) : α :=
  if UseImageSpacing then
    ((List.finRange D).map (fun k => ((sz k : α) * sp k) * ((sz k : α) * sp k))).sum
  else ((List.finRange D).map (fun k => (sz k : α) * (sz k : α))).sum

/-- The pixel function of `itk::BinaryThresholdImageFilter` (ITK library): `InsideValue` for the
values of the band `[LowerThreshold, UpperThreshold]`, `OutsideValue` for the others. -/
def BinaryThreshold (LowerThreshold UpperThreshold InsideValue OutsideValue x : α) : α :=
  if LowerThreshold ≤ x ∧ x ≤ UpperThreshold then InsideValue else OutsideValue

/-- The threshold step of `GenerateData`: `m_Thresh` with the thresholds and the fill values
that `GenerateData` sets, applied to the voxel value `x`. -/
def thresholdStep (InsideIsPositive : Bool) (MaxDist m_OutsideValue x : α) : α :=
  if InsideIsPositive then BinaryThreshold m_OutsideValue m_OutsideValue (-MaxDist) MaxDist x
  else BinaryThreshold m_OutsideValue m_OutsideValue MaxDist (-MaxDist) x

/-- The functor `Function::MorphSDTHelper::operator()`, with `m_Val` the stored constant.  The
square root of a negative number is not a real number (`std::sqrt` returns NaN): `none`. -/
noncomputable def MorphSDTHelper (m_Val A B C : ℝ) : Option ℝ :=
  if C > 0 then
    (if 0 ≤ A + m_Val then some (Real.sqrt (A + m_Val)) else none)
  else
    (if 0 ≤ m_Val - B then some (-Real.sqrt (m_Val - B)) else none)

/-- The pipeline of `MorphologicalSignedDistanceTransformImageFilter::GenerateData`: threshold,
erosion and dilation with scale 0.5 on every axis, combiner.  The result is the output at the
voxel `p`.  The pixels are real numbers and the arithmetic is exact, so the casts between the
pixel types are the identity; of the pixel type only the range `traits` is kept. -/
noncomputable def GenerateData {D : ℕ} (traits : PixelTraits ℝ) (sz : Fin D → ℕ)
    (sp : Fin D → ℝ) (m_OutsideValue : ℝ) (InsideIsPositive UseImageSpacing : Bool)
    (m_ParabolicAlgorithm : ℤ) (input : Index D → ℝ) : Pixels D ℝ :=
  let thresh : Index D → ℝ :=
    fun p => thresholdStep InsideIsPositive (MaxDist sz sp UseImageSpacing) m_OutsideValue
      (input p)
  let erode := SeparableParabolic false traits id sz sp (fun _ => 0.5) UseImageSpacing
    m_ParabolicAlgorithm thresh
  let dilate := SeparableParabolic true traits id sz sp (fun _ => 0.5) UseImageSpacing
    m_ParabolicAlgorithm thresh
  fun p =>
    match erode p, dilate p with
    | some A, some B => MorphSDTHelper (MaxDist sz sp UseImageSpacing) A B (thresh p)
    | _, _ => none

/-! ## Specification of the one-dimensional transforms -/

/-- The minimum of `f 0, ..., f n`. -/
def minUpTo (f : ℕ → α) : ℕ → α
  | 0 => f 0
  | n + 1 => min (minUpTo f n) (f (n + 1))

/-- The maximum of `f 0, ..., f n`. -/
def maxUpTo (f : ℕ → α) : ℕ → α
  | 0 => f 0
  | n + 1 => max (maxUpTo f n) (f (n + 1))

/-- The erosion of the specification, `L'[p] = min_q (L[q] + m (p - q)^2)`, with `q` over the
indices of the line. -/
def parabolicErosion (L : List α) (m : α) (p : ℕ) : α :=
  minUpTo (fun q => L.getD q 0 + m * ((p : α) - (q : α)) ^ 2) (L.length - 1)

/-- The dilation of the specification, `L'[p] = max_q (L[q] - m (p - q)^2)`, with `q` over the
indices of the line. -/
def parabolicDilation (L : List α) (m : α) (p : ℕ) : α :=
  maxUpTo (fun q => L.getD q 0 - m * ((p : α) - (q : α)) ^ 2) (L.length - 1)

/-- The eroded line of the specification. -/
def erodedLine (L : List α) (m : α) : List α :=
  (List.range L.length).map (parabolicErosion L m)

/-- The dilated line of the specification. -/
def dilatedLine (L : List α) (m : α) : List α :=
  (List.range L.length).map (parabolicDilation L m)

/-- The line that the specification prescribes for `doOneDimension` with scale `Sigma` and
spacing `iscale`: the dilation or the erosion with the curvature `iscale^2 / (2 Sigma)`. -/
def specLine (doDilate : Bool) (iscale Sigma : α) (L : List α) : List α :=
  if doDilate then dilatedLine L ((iscale * iscale) / (2 * Sigma))
  else erodedLine L ((iscale * iscale) / (2 * Sigma))

/-! ## Invariant of the main loop of `DoLineIntAlg` -/

/-- The line `x ↦ F[j] - 2 j x`; the parabola at `j` is this line plus `x^2`. -/
def envLine (F : ℕ → α) (j : ℕ) (x : α) : α := F j - 2 * (j : α) * x

/-- The envelope invariant of the main loop in erosion mode, before the iteration `q`: the
parabolas `0, ..., q - 1` have been inserted. -/
structure EnvInv (L : List α) (m : α) (q : ℕ) (st : EnvState α) : Prop where
  k_lt : st.k < q
  v_lt : ∀ i, i ≤ st.k → st.v i < q
  v_zero : st.v 0 = 0
  v_top : st.v st.k + 1 = q
  v_strict : ∀ i, i < st.k → st.v i < st.v (i + 1)
  F_eq : ∀ j, j < q → st.F j = precompute false L m j
  z_zero : st.z 0 = (intNonpositiveMin : α)
  z_top : st.z (st.k + 1) = (intMax : α)
  z_strict : ∀ i, i < st.k → st.z i < st.z (i + 1)
  env : ∀ i, i ≤ st.k → ∀ x : α, (i = 0 ∨ st.z i ≤ x) → (i = st.k ∨ x ≤ st.z (i + 1)) →
    ∀ j, j < q → envLine (precompute false L m) (st.v i) x ≤ envLine (precompute false L m) j x

/-- The relation between the state `st` of an erosion run on a line and the state `st'` of a
dilation run on the negated line, before the iteration `q`. -/
structure DualRel (q : ℕ) (st st' : EnvState α) : Prop where
  k_eq : st'.k = st.k
  v_eq : st'.v = st.v
  z_eq : st'.z = st.z
  F_neg : ∀ j, j < q → st'.F j = -st.F j
  v_lt : ∀ i, i ≤ st.k → st.v i < q

/-- The line with every value negated. -/
def negLine (L : List α) : List α := L.map (fun x => -x)

/-! ## Quantities of the contact point algorithm -/

/-- The value `T` of the inner loops of `DoLineCP` at the offset `krange`. -/
def cpT (buf : List α) (magnitude : α) (pos : ℕ) (krange : ℤ) : α :=
  buf.getD ((pos : ℤ) + krange).toNat 0 - magnitude * (krange : α) * (krange : α)

/-- The value at position `p` of the parabola of curvature `m` hanging from `buf[i]`. -/
def cpVal (buf : List α) (m : α) (i p : ℕ) : α :=
  buf.getD i 0 - m * ((p : α) - (i : α)) ^ 2

/-- The maximum at `p` of the parabolas at `i ≤ p`: the outcome of the first sweep. -/
def cpBack (L : List α) (m : α) (p : ℕ) : α :=
  maxUpTo (fun i => cpVal L m i p) p

/-- The maximum at `p` of the parabolas at `p ≤ i < N`: the outcome of the second sweep. -/
def cpFwd (tmp : List α) (m : α) (N p : ℕ) : α :=
  maxUpTo (fun d => cpVal tmp m (p + d) p) (N - 1 - p)

/-! ## Specification of the separable passes -/

/-- The first `n` values of the line of the image `img` through `p` along the axis `d`. -/
def lineOf {D : ℕ} (img : Index D → α) (d : Fin D) (p : Index D) (n : ℕ) : List α :=
  (List.range n).map (fun i => img (Function.update p d i))

/-- The pass of the specification along the axis `d`, of extent `n`, with the curvature `m`:
every line along `d` is replaced by its dilation or erosion. -/
def specPass {D : ℕ} (doDilate : Bool) (n : ℕ) (d : Fin D) (m : α) (img : Index D → α) :
    Index D → α :=
  fun p =>
    if doDilate then parabolicDilation (lineOf img d p n) m (p d)
    else parabolicErosion (lineOf img d p n) m (p d)

/-- The voxels of the region of size `size` that starts at index 0. -/
def InRegion {D : ℕ} (size : Fin D → ℕ) (p : Index D) : Prop := ∀ d, p d < size d

/-- The curvature `s^2 / (2 sigma)` of the axis `d`. -/
def curvature {D : ℕ} (useSpacing : Bool) (spacing scale : Fin D → α) (d : Fin D) : α :=
  ((if useSpacing then spacing d else 1) * (if useSpacing then spacing d else 1)) /
    (2 * scale d)

/-- The passes of the specification along the axes `ds`, in order. -/
def specFold {D : ℕ} (doDilate : Bool) (size : Fin D → ℕ) (m : Fin D → α) (ds : List (Fin D))
    (T : Index D → α) : Index D → α :=
  ds.foldl (fun g d => specPass doDilate (size d) d (m d) g) T

/-- The sum over the axes `ds` of `m_d (p_d - q_d)^2`: the height at `p` of the paraboloid
hanging from `q`, as far as the axes `ds` go. -/
def cost {D : ℕ} (m : Fin D → α) (ds : List (Fin D)) (p q : Index D) : α :=
  (ds.map (fun d => m d * ((p d : α) - (q d : α)) ^ 2)).sum

/-- The squared Euclidean distance `sum_d (w_d (p_d - q_d))^2` between the centres of the
voxels `p` and `q`, with `w_d` the spacing of the axis `d` when `UseImageSpacing` is true and 1
otherwise. -/
def sqDist {D : ℕ} (UseImageSpacing : Bool) (sp : Fin D → α) (p q : Index D) : α :=
  ((List.finRange D).map
    (fun d => ((if UseImageSpacing then sp d else 1) * ((p d : α) - (q d : α))) ^ 2)).sum

/-! ## Concrete images -/

/-- The constants of `NumericTraits<float>`. -/
def floatTraits : PixelTraits ℝ :=
  ⟨-340282346638528859811704183484516925440, 340282346638528859811704183484516925440⟩

/-- The size of a one-dimensional image of two voxels. -/
def stepSize : Fin 1 → ℕ := fun _ => 2

/-- Unit spacing for a one-dimensional image. -/
def stepSpacing : Fin 1 → ℝ := fun _ => 1

/-- The one-dimensional mask `[1, 0]`: voxel 0 is in the object, voxel 1 is outside. -/
def stepInput : Index 1 → ℝ := fun p => if p 0 = 0 then 1 else 0

/-- The size of a two-dimensional image of 2 x 1 voxels. -/
def anisoSize : Fin 2 → ℕ := fun d => if d = 0 then 2 else 1

/-- The spacing `(1, 100000)` of a two-dimensional image. -/
def anisoSpacing : Fin 2 → ℝ := fun d => if d = 0 then 1 else 100000

/-- The 2 x 1 mask with voxel `(0, 0)` in the object and voxel `(1, 0)` outside. -/
def anisoInput : Index 2 → ℝ := fun p => if p 0 = 0 then 1 else 0

/-- The 5 x 5 region of scenario S3. -/
def fiveSize : Fin 2 → ℕ := fun _ => 5

/-- Unit spacing on both axes. -/
def unitSpacing : Fin 2 → ℝ := fun _ => 1

/-- An image of zeros with the single voxel `c` set to `v`. -/
def impulseInput (c : Index 2) (v : ℝ) : Index 2 → ℝ :=
  fun p => if p 0 = c 0 ∧ p 1 = c 1 then v else 0

/-! ## The open/close filter -/

/-- One call of `ParabolicOpenCloseImageFilter<..., DoOpen, ...>::ThreadedGenerateData` on the
whole requested region, for the values of `m_Stage` and `m_CurrentDimension` set by
`GenerateData`: the content of the output image after the call, from the input image and the
content of the output image before the call.  `m_Scale[0]` is read in the branch where
`m_CurrentDimension` is 0. -/
def ParabolicOpenCloseImageFilter.ThreadedGenerateData {D : ℕ} (DoOpen : Bool)
    (traits : PixelTraits α) (cast : α → α) (size : Fin D → ℕ) (spacing m_Scale : Fin D → α)
    (m_UseImageSpacing : Bool) (m_ParabolicAlgorithm : ℤ) (m_Stage : ℕ)
    (m_CurrentDimension : Fin D) (inputImage : Index D → α) (outputImage : Pixels D α) :
    Pixels D α :=
  if m_Stage = 1 then
    if m_CurrentDimension.val = 0 then
      if 0 < m_Scale m_CurrentDimension then
        doOneDimension (!DoOpen) traits cast (fun p => some (inputImage p))
          (size m_CurrentDimension) m_CurrentDimension m_UseImageSpacing
          (spacing m_CurrentDimension) (m_Scale m_CurrentDimension) m_ParabolicAlgorithm
      else fun p => some (cast (inputImage p))
    else
      if 0 < m_Scale m_CurrentDimension then
        doOneDimension (!DoOpen) traits cast outputImage
          (size m_CurrentDimension) m_CurrentDimension m_UseImageSpacing
          (spacing m_CurrentDimension) (m_Scale m_CurrentDimension) m_ParabolicAlgorithm
      else outputImage
  else
    if 0 < m_Scale m_CurrentDimension then
      doOneDimension DoOpen traits cast outputImage
        (size m_CurrentDimension) m_CurrentDimension m_UseImageSpacing
        (spacing m_CurrentDimension) (m_Scale m_CurrentDimension) m_ParabolicAlgorithm
    else outputImage

/-- The function `ParabolicOpenCloseImageFilter<..., DoOpen, ...>::GenerateData`: with
`m_Stage = 1` one call of `ThreadedGenerateData` for each `d = 0, ..., D - 1`, then the same
with `m_Stage = 2`.  `outputImage` is the content of the output buffer after `Allocate()`; the
result is its content on return. -/
def ParabolicOpenCloseImageFilter.GenerateData {D : ℕ} (DoOpen : Bool)
    (traits : PixelTraits α) (cast : α → α) (size : Fin D → ℕ) (spacing m_Scale : Fin D → α)
    (m_UseImageSpacing : Bool) (m_ParabolicAlgorithm : ℤ) (inputImage : Index D → α)
    (outputImage : Pixels D α) : Pixels D α :=
  let stage1 := (List.finRange D).foldl
    (fun out d => ParabolicOpenCloseImageFilter.ThreadedGenerateData DoOpen traits cast size
      spacing m_Scale m_UseImageSpacing m_ParabolicAlgorithm 1 d inputImage out) outputImage
  (List.finRange D).foldl
    (fun out d => ParabolicOpenCloseImageFilter.ThreadedGenerateData DoOpen traits cast size
      spacing m_Scale m_UseImageSpacing m_ParabolicAlgorithm 2 d inputImage out) stage1

/-- A line of three voxels, the size of the region of the examples of the open/close filter. -/
def lineSize : Fin 1 → ℕ := fun _ => 3

/-- The line image `[0, 5, 0]`. -/
def peakInput : Index 1 → ℚ := fun p => if p 0 = 1 then 5 else 0

/-- The opening of the line image `[0, 5, 0]` with scale 1: `[0, 1/2, 0]`. -/
def openedPeak : Index 1 → ℚ := fun p => if p 0 = 1 then 1 / 2 else 0

/-! ## The sharpening filter and the comparison of `DoLineCP` -/

/-- The functor `Function::SharpM::operator()` of the sharpening filter, with one exact pixel
type for the three inputs and the output: `A` is the dilation, `B` the original, `C` the
erosion. -/
def SharpM (A B C : α) : α :=
  let diff1 := A - B
  let diff2 := B - C
  if diff1 < diff2 then A
  else if diff2 < diff1 then C
  else B

/-- The comparison of the inner loops of `DoLineCP`, `doDilate ? (T >= BaseVal) :
(T <= BaseVal)`: the candidate `T` is at least as good as `BaseVal`. -/
def cpBetter (doDilate : Bool) (T BaseVal : α) : Prop :=
  if doDilate then T ≥ BaseVal else T ≤ BaseVal

/-! ## `SplitRequestedRegion` of the open/close filter -/

/-- An `itk::ImageRegion`: the index of the first voxel and the size along every axis. -/
structure ImageRegion (D : ℕ) where
  index : Fin D → ℤ
  size : Fin D → ℕ

/-- The predicate `ImageRegion::IsInside` for an index `x`. -/
def ImageRegion.IsInside {D : ℕ} (r : ImageRegion D) (x : Fin D → ℤ) : Prop :=
  ∀ d, r.index d ≤ x d ∧ x d < r.index d + (r.size d : ℤ)

/-- The loop `while ((requestedRegionSize[splitAxis] == 1) || (splitAxis ==
m_CurrentDimension)) { --splitAxis; if (splitAxis < 0) return 1; }` of `SplitRequestedRegion`,
entered with the value `splitAxis`: the axis at which the loop stops, or `none` when `splitAxis`
goes below 0. -/
def splitAxisLoop {D : ℕ} (requestedRegionSize : Fin D → ℕ) (m_CurrentDimension : Fin D) :
    (splitAxis : ℕ) → splitAxis < D → Option (Fin D)
  | 0, h =>
    if requestedRegionSize ⟨0, h⟩ = 1 ∨ 0 = m_CurrentDimension.val then none
    else some ⟨0, h⟩
  | a + 1, h =>
    if requestedRegionSize ⟨a + 1, h⟩ = 1 ∨ a + 1 = m_CurrentDimension.val then
      splitAxisLoop requestedRegionSize m_CurrentDimension a (Nat.lt_of_succ_lt h)
    else some ⟨a + 1, h⟩

/-- The function `ParabolicOpenCloseImageFilter::SplitRequestedRegion(i, num, splitRegion)` for
an image of dimension `D + 1`, with the requested region of the output as an argument: the
returned number of pieces and the content of `splitRegion` on return.  The quotients and their
ceilings are exact, as the `double` computations are for extents below `2^32`; the products and
sums of `unsigned int` are taken modulo `2^32`, and the difference of the sizes is the one of
natural numbers (for `i = maxThreadIdUsed` the product is below the extent).  With `num = 0` or an extent 0 along the split
axis a quotient is infinite or undefined and its conversion to `unsigned int` has no defined
value: `none`. -/
def ParabolicOpenCloseImageFilter.SplitRequestedRegion {D : ℕ}
    (requestedRegion : ImageRegion (D + 1)) (m_CurrentDimension : Fin (D + 1)) (i num : ℕ) :
    Option (ℕ × ImageRegion (D + 1)) :=
  match splitAxisLoop requestedRegion.size m_CurrentDimension D (Nat.lt_succ_self D) with
  | none => some (1, requestedRegion)
  | some splitAxis =>
    if num = 0 ∨ requestedRegion.size splitAxis = 0 then none
    else
      let range : ℚ := (requestedRegion.size splitAxis : ℚ)
      let valuesPerThread : ℕ := Nat.ceil (range / (num : ℚ))
      let maxThreadIdUsed : ℕ :=
        (Nat.ceil (range / (valuesPerThread : ℚ)) + (2 ^ 32 - 1)) % 2 ^ 32
      let r1 : ImageRegion (D + 1) :=
        if i < maxThreadIdUsed then
          { index := Function.update requestedRegion.index splitAxis
              (requestedRegion.index splitAxis + ((i * valuesPerThread % 2 ^ 32 : ℕ) : ℤ))
            size := Function.update requestedRegion.size splitAxis valuesPerThread }
        else requestedRegion
      let r2 : ImageRegion (D + 1) :=
        if i = maxThreadIdUsed then
          { index := Function.update r1.index splitAxis
              (r1.index splitAxis + ((i * valuesPerThread % 2 ^ 32 : ℕ) : ℤ))
            size := Function.update r1.size splitAxis
              (r1.size splitAxis - i * valuesPerThread % 2 ^ 32) }
        else r1
      some ((maxThreadIdUsed + 1) % 2 ^ 32, r2)

/-- The requested region of 2 x 0 voxels at the origin. -/
def emptyRegion : ImageRegion 2 :=
  { index := fun _ => 0, size := fun d => if d = 0 then 2 else 0 }

/-- The requested region of 10 x 7 voxels at the origin. -/
def tenBySeven : ImageRegion 2 :=
  { index := fun _ => 0, size := fun d => if d = 0 then 10 else 7 }


/-- The extent `ceil(e / num)` of the pieces before the last one. -/
def splitExtent (e num : ℕ) : ℕ := Nat.ceil ((e : ℚ) / (num : ℚ))

/-- The number of pieces `ceil(e / ceil(e / num))`. -/
def splitCount (e num : ℕ) : ℕ := Nat.ceil ((e : ℚ) / (splitExtent e num : ℚ))

/-- The piece `i` of the region `R` split along the axis `a` for `num` workers: it starts
`i * ceil(e / num)` voxels into the region and has the extent `ceil(e / num)`, the last piece
the extent that remains. -/
def splitPiece {D : ℕ} (R : ImageRegion D) (a : Fin D) (num i : ℕ) : ImageRegion D :=
  { index := Function.update R.index a
      (R.index a + ((i * splitExtent (R.size a) num : ℕ) : ℤ))
    size := Function.update R.size a
      (if i + 1 < splitCount (R.size a) num then splitExtent (R.size a) num
        else R.size a - i * splitExtent (R.size a) num) }

/-- The requested region of 10 x 1 voxels at the origin. -/
def tenByOne : ImageRegion 2 :=
  { index := fun _ => 0, size := fun d => if d = 0 then 10 else 1 }

/-! ## The intersection algorithm in `double` arithmetic -/

/-- The number `floor (log2 n)` for `n >= 1`, by halving; the first argument bounds the number
of halvings. -/
def log2Fuel : ℕ → ℕ → ℕ
  | 0, _ => 0
  | fuel + 1, n => if 2 ≤ n then log2Fuel fuel (n / 2) + 1 else 0

/-- The rounding of an exact value to the nearest `double` (IEEE 754 binary64: 53 significant
bits, ties to the even significand), for values within the range of the normal numbers: the
result of a `double` operation is the rounding of its exact result. -/
def roundDouble (x : ℚ) : ℚ :=
  if x = 0 then 0
  else
    let n : ℕ := x.num.natAbs
    let d : ℕ := x.den
    let e0 : ℤ := (log2Fuel n n : ℤ) - (log2Fuel d d : ℤ)
    let below : Bool := if 0 ≤ e0 then decide (n < 2 ^ e0.toNat * d)
      else decide (n * 2 ^ (-e0).toNat < d)
    let e : ℤ := if below then e0 - 1 else e0
    let sh : ℤ := 52 - e
    let N : ℕ := if 0 ≤ sh then n * 2 ^ sh.toNat else n
    let Dn : ℕ := if 0 ≤ sh then d else d * 2 ^ (-sh).toNat
    let qn : ℕ := N / Dn
    let r : ℕ := N % Dn
    let m : ℕ :=
      if 2 * r < Dn then qn
      else if Dn < 2 * r then qn + 1
      else if qn % 2 = 0 then qn else qn + 1
    let a : ℚ := if 0 ≤ sh then (m : ℚ) / 2 ^ sh.toNat else (m : ℚ) * 2 ^ (-sh).toNat
    if 0 < x then a else -a

/-- The intersection abscissa `s` of the pop loop with every operation rounded by `fl`. -/
def intersectionFl (fl : α → α) (doDilate : Bool) (F : ℕ → α) (v : ℕ → ℕ) (q k : ℕ) : α :=
  if doDilate then fl (fl (F q - F (v k)) / fl (2 * fl ((v k : α) - (q : α))))
  else fl (fl (F q - F (v k)) / fl (2 * fl ((q : α) - (v k : α))))

/-- The loop `do { k--; s = ...; } while (s <= z[k]);` with rounded operations; see `popLoop`. -/
def popLoopFl (fl : α → α) (doDilate : Bool) (F : ℕ → α) (v : ℕ → ℕ) (z : ℕ → α) (q : ℕ) :
    ℕ → Option (ℕ × α)
  | 0 => none
  | k + 1 =>
    let s := intersectionFl fl doDilate F v q k
    if s ≤ z k then popLoopFl fl doDilate F v z q k else some (k, s)

/-- The value stored in `F[q]` by the main loop, with rounded operations. -/
def precomputeFl (fl : α → α) (doDilate : Bool) (LineBuf : List α) (magnitude : α) (q : ℕ) :
    α :=
  if doDilate then fl (fl (LineBuf.getD q 0 / magnitude) - fl ((q : α) * (q : α)))
  else fl (fl (LineBuf.getD q 0 / magnitude) + fl ((q : α) * (q : α)))

/-- One iteration of the main loop of `DoLineIntAlg` with rounded operations. -/
def mainStepFl (fl : α → α) (doDilate : Bool) (LineBuf : List α) (magnitude : α) (q : ℕ)
    (st : EnvState α) : Option (EnvState α) :=
  let F := Function.update st.F q (precomputeFl fl doDilate LineBuf magnitude q)
  match popLoopFl fl doDilate F st.v st.z q (st.k + 1) with
  | none => none
  | some (k, s) =>
    some { k := k + 1
           F := F
           v := Function.update st.v (k + 1) q
           z := Function.update (Function.update st.z (k + 1) s) (k + 1 + 1) (intMax : α) }

/-- The main loop of `DoLineIntAlg` with rounded operations: `n` iterations starting at `q`. -/
def mainLoopFl (fl : α → α) (doDilate : Bool) (LineBuf : List α) (magnitude : α) :
    ℕ → ℕ → EnvState α → Option (EnvState α)
  | 0, _, st => some st
  | n + 1, q, st =>
    match mainStepFl fl doDilate LineBuf magnitude q st with
    | none => none
    | some st' => mainLoopFl fl doDilate LineBuf magnitude n (q + 1) st'

/-- The value written to `LineBuf[q]` by the reconstruction, with rounded operations. -/
def emitFl (fl : α → α) (doDilate : Bool) (magnitude : α) (F : ℕ → α) (v : ℕ → ℕ) (q k : ℕ) :
    α :=
  if doDilate then
    fl (fl (F (v k) - fl ((q : α) * fl ((q : α) - 2 * (v k : α)))) * magnitude)
  else fl (fl (fl ((q : α) * fl ((q : α) - 2 * (v k : α))) + F (v k)) * magnitude)

/-- The reconstruction loop of `DoLineIntAlg` with rounded operations; see `reconstruct`. -/
def reconstructFl (fl : α → α) (doDilate : Bool) (magnitude : α) (N : ℕ) (F : ℕ → α)
    (v : ℕ → ℕ) (z : ℕ → α) : ℕ → ℕ → ℕ → Option (List α)
  | 0, _, _ => some []
  | n + 1, q, k =>
    match advance z q (N - k) k with
    | none => none
    | some k' =>
      if v k' < N then
        match reconstructFl fl doDilate magnitude N F v z n (q + 1) k' with
        | none => none
        | some rest => some (emitFl fl doDilate magnitude F v q k' :: rest)
      else none

/-- The function `DoLineIntAlg` with the result of every arithmetic operation on `RealType`
rounded by `fl`: with `fl = roundDouble` the run in `double`, with `fl = id` the run in exact
arithmetic, `DoLineIntAlg`.  The integer product `2 * v[k]` and the conversions of `q` and
`v[k]` to `RealType` are exact. -/
def DoLineIntAlgFl (fl : α → α) (doDilate : Bool) (LineBuf : List α) (F : ℕ → α) (v : ℕ → ℕ)
    (z : ℕ → α) (magnitude : α) : Option (List α) :=
  match LineBuf with
  | [] => none
  | x :: _ =>
    let N := LineBuf.length
    let st0 : EnvState α :=
      { k := 0
        F := Function.update F 0 (fl (x / magnitude))
        v := Function.update v 0 0
        z := Function.update (Function.update z 0 (intNonpositiveMin : α)) 1 (intMax : α) }
    match mainLoopFl fl doDilate LineBuf magnitude (N - 1) 1 st0 with
    | none => none
    | some st => reconstructFl fl doDilate magnitude N st.F st.v st.z N 0 0

/-! ## Lemmas on the intersection algorithm -/

theorem envLine_le_iff (P : ℕ → α) (a q : ℕ) (h : a < q) (x : α) :
    envLine P q x ≤ envLine P a x ↔ (P q - P a) / (2 * ((q : α) - (a : α))) ≤ x := by
  have hlt : (a : α) < (q : α) := Nat.cast_lt.mpr h
  have hpos : (0 : α) < 2 * ((q : α) - (a : α)) := by linarith
  rw [div_le_iff₀ hpos]
  unfold envLine
  constructor <;> intro h' <;> linarith

theorem le_envLine_iff (P : ℕ → α) (a q : ℕ) (h : a < q) (x : α) :
    envLine P a x ≤ envLine P q x ↔ x ≤ (P q - P a) / (2 * ((q : α) - (a : α))) := by
  have hlt : (a : α) < (q : α) := Nat.cast_lt.mpr h
  have hpos : (0 : α) < 2 * ((q : α) - (a : α)) := by linarith
  rw [le_div_iff₀ hpos]
  unfold envLine
  constructor <;> intro h' <;> linarith

theorem z_mono_of_inv {L : List α} {m : α} {q : ℕ} {st : EnvState α} (h : EnvInv L m q st) :
    ∀ d i, i + d ≤ st.k → st.z i ≤ st.z (i + d) := by
  intro d
  induction d with
  | zero => intro i _; exact le_refl _
  | succ d ih =>
    intro i hi
    have h1 := ih i (by omega)
    have h2 := h.z_strict (i + d) (by omega)
    exact le_trans h1 (le_of_lt h2)

theorem popLoop_erode {L : List α} {m : α} {q : ℕ} {st : EnvState α} (hinv : EnvInv L m q st)
    (F' : ℕ → α) (hF' : ∀ j, j ≤ q → F' j = precompute false L m j)
    (hsent : (intNonpositiveMin : α) <
      (precompute false L m q - precompute false L m 0) / (2 * ((q : α) - ((0 : ℕ) : α)))) :
    ∀ c, c ≤ st.k →
      (c < st.k → ∀ x, st.z (c + 1) ≤ x → ∀ j, j < q →
        envLine (precompute false L m) q x ≤ envLine (precompute false L m) j x) →
      ∃ c' s, popLoop false F' st.v st.z q (c + 1) = some (c', s) ∧ c' ≤ c ∧
        s = (precompute false L m q - precompute false L m (st.v c')) /
              (2 * ((q : α) - (st.v c' : α))) ∧
        st.z c' < s ∧
        (c' < st.k → ∀ x, st.z (c' + 1) ≤ x → ∀ j, j < q →
          envLine (precompute false L m) q x ≤ envLine (precompute false L m) j x) := by
  intro c
  induction c with
  | zero =>
    intro _ hD
    have hs : intersection false F' st.v q 0 =
        (precompute false L m q - precompute false L m 0) / (2 * ((q : α) - ((0 : ℕ) : α))) := by
      simp only [intersection, hinv.v_zero, Bool.false_eq_true, if_false]
      rw [hF' q (le_refl _), hF' 0 (Nat.zero_le _)]
    have hlt : st.z 0 < intersection false F' st.v q 0 := by
      rw [hs, hinv.z_zero]; exact hsent
    refine ⟨0, intersection false F' st.v q 0, ?_, le_refl _, ?_, hlt, hD⟩
    · simp only [popLoop]
      rw [if_neg (not_le.mpr hlt)]
    · rw [hs, hinv.v_zero]
  | succ c ih =>
    intro hc hD
    have hvc : st.v (c + 1) < q := hinv.v_lt (c + 1) hc
    have hs : intersection false F' st.v q (c + 1) =
        (precompute false L m q - precompute false L m (st.v (c + 1))) /
          (2 * ((q : α) - (st.v (c + 1) : α))) := by
      simp only [intersection, Bool.false_eq_true, if_false]
      rw [hF' q (le_refl _), hF' _ (le_of_lt hvc)]
    by_cases hle : intersection false F' st.v q (c + 1) ≤ st.z (c + 1)
    · have hD' : c < st.k → ∀ x, st.z (c + 1) ≤ x → ∀ j, j < q →
          envLine (precompute false L m) q x ≤ envLine (precompute false L m) j x := by
        intro _ x hx j hj
        have hqv : envLine (precompute false L m) q x ≤
            envLine (precompute false L m) (st.v (c + 1)) x := by
          rw [envLine_le_iff _ _ _ hvc, ← hs]
          exact le_trans hle hx
        by_cases hcase : c + 1 = st.k ∨ x ≤ st.z (c + 1 + 1)
        · exact le_trans hqv (hinv.env (c + 1) hc x (Or.inr hx) hcase j hj)
        · push_neg at hcase
          exact hD (lt_of_le_of_ne hc hcase.1) x (le_of_lt hcase.2) j hj
      obtain ⟨c', s, hpop, hc', hs', hz, hD''⟩ := ih (by omega) hD'
      refine ⟨c', s, ?_, by omega, hs', hz, hD''⟩
      simp only [popLoop]
      rw [if_pos hle]
      exact hpop
    · refine ⟨c + 1, intersection false F' st.v q (c + 1), ?_, le_refl _, hs, not_le.mp hle, hD⟩
      simp only [popLoop]
      rw [if_neg hle]

theorem mainStep_erode {L : List α} {m : α} {q : ℕ} {st : EnvState α} (hinv : EnvInv L m q st)
    (hsent : (intNonpositiveMin : α) <
      (precompute false L m q - precompute false L m 0) / (2 * ((q : α) - ((0 : ℕ) : α)))) :
    ∃ st', mainStep false L m q st = some st' ∧ EnvInv L m (q + 1) st' := by
  have hF' : ∀ j, j ≤ q →
      Function.update st.F q (precompute false L m q) j = precompute false L m j := by
    intro j hj
    by_cases h : j = q
    · subst h; simp
    · rw [Function.update_noteq h]; exact hinv.F_eq j (by omega)
  obtain ⟨c, s, hpop, hc, hs, hz, hD⟩ :=
    popLoop_erode hinv _ hF' hsent st.k (le_refl _) (fun h => absurd h (lt_irrefl _))
  have hvc : st.v c < q := hinv.v_lt c hc
  have hv' : ∀ i, i ≤ c → Function.update st.v (c + 1) q i = st.v i := by
    intro i hi
    exact Function.update_noteq (by omega) _ _
  have hz' : ∀ i, i ≤ c →
      Function.update (Function.update st.z (c + 1) s) (c + 1 + 1) (intMax : α) i = st.z i := by
    intro i hi
    rw [Function.update_noteq (by omega), Function.update_noteq (by omega)]
  have hzs : Function.update (Function.update st.z (c + 1) s) (c + 1 + 1) (intMax : α) (c + 1)
      = s := by
    rw [Function.update_noteq (by omega), Function.update_same]
  have hs_le : c < st.k → s ≤ st.z (c + 1) := by
    intro h
    have h1 := hD h (st.z (c + 1)) (le_refl _) (st.v c) hvc
    rw [envLine_le_iff _ _ _ hvc] at h1
    rw [hs]; exact h1
  refine ⟨{ k := c + 1
            F := Function.update st.F q (precompute false L m q)
            v := Function.update st.v (c + 1) q
            z := Function.update (Function.update st.z (c + 1) s) (c + 1 + 1) (intMax : α) },
    ?_, ?_⟩
  · simp only [mainStep]
    rw [hpop]
  · constructor
    · show c + 1 < q + 1
      have := hinv.k_lt
      omega
    · intro i hi
      show Function.update st.v (c + 1) q i < q + 1
      by_cases h : i = c + 1
      · subst h; simp
      · rw [Function.update_noteq h]
        have := hinv.v_lt i (by change i ≤ c + 1 at hi; omega)
        omega
    · show Function.update st.v (c + 1) q 0 = 0
      rw [hv' 0 (Nat.zero_le _)]; exact hinv.v_zero
    · show Function.update st.v (c + 1) q (c + 1) + 1 = q + 1
      simp
    · intro i hi
      change i < c + 1 at hi
      show Function.update st.v (c + 1) q i < Function.update st.v (c + 1) q (i + 1)
      rw [hv' i (by omega)]
      by_cases h : i = c
      · subst h; simp; exact hvc
      · rw [hv' (i + 1) (by omega)]
        exact hinv.v_strict i (by omega)
    · intro j hj
      exact hF' j (by omega)
    · show Function.update (Function.update st.z (c + 1) s) (c + 1 + 1) (intMax : α) 0 = _
      rw [hz' 0 (Nat.zero_le _)]; exact hinv.z_zero
    · show Function.update (Function.update st.z (c + 1) s) (c + 1 + 1) (intMax : α) (c + 1 + 1)
        = _
      simp
    · intro i hi
      change i < c + 1 at hi
      show Function.update (Function.update st.z (c + 1) s) (c + 1 + 1) (intMax : α) i <
        Function.update (Function.update st.z (c + 1) s) (c + 1 + 1) (intMax : α) (i + 1)
      rw [hz' i (by omega)]
      by_cases h : i = c
      · subst h; rw [hzs]; exact hz
      · rw [hz' (i + 1) (by omega)]
        exact hinv.z_strict i (by omega)
    · intro i hi x hlo hhi j hj
      change i ≤ c + 1 at hi
      change i = 0 ∨
        Function.update (Function.update st.z (c + 1) s) (c + 1 + 1) (intMax : α) i ≤ x at hlo
      change i = c + 1 ∨
        x ≤ Function.update (Function.update st.z (c + 1) s) (c + 1 + 1) (intMax : α) (i + 1)
        at hhi
      show envLine (precompute false L m) (Function.update st.v (c + 1) q i) x ≤ _
      by_cases hic : i = c + 1
      · subst hic
        rw [Function.update_same]
        rw [hzs] at hlo
        have hsx : s ≤ x := by
          rcases hlo with h | h
          · omega
          · exact h
        by_cases hjq : j = q
        · subst hjq; exact le_refl _
        · have hj' : j < q := by omega
          have hqc : envLine (precompute false L m) q x ≤
              envLine (precompute false L m) (st.v c) x := by
            rw [envLine_le_iff _ _ _ hvc, ← hs]; exact hsx
          by_cases hcase : c = st.k ∨ x ≤ st.z (c + 1)
          · exact le_trans hqc
              (hinv.env c hc x (Or.inr (le_trans (le_of_lt hz) hsx)) hcase j hj')
          · push_neg at hcase
            exact hD (lt_of_le_of_ne hc hcase.1) x (le_of_lt hcase.2) j hj'
      · have hic' : i ≤ c := by omega
        rw [hv' i hic']
        rw [hz' i hic'] at hlo
        have hx_le_s : x ≤ s := by
          rcases hhi with h | h
          · exact absurd h hic
          · by_cases hieq : i = c
            · subst hieq; rw [hzs] at h; exact h
            · rw [hz' (i + 1) (by omega)] at h
              have hmono := z_mono_of_inv hinv (c - (i + 1)) (i + 1) (by omega)
              have h3 : i + 1 + (c - (i + 1)) = c := by omega
              rw [h3] at hmono
              exact le_trans h (le_trans hmono (le_of_lt hz))
        have hold_hi : i = st.k ∨ x ≤ st.z (i + 1) := by
          by_cases hieq : i = c
          · subst hieq
            by_cases hck : i = st.k
            · exact Or.inl hck
            · exact Or.inr (le_trans hx_le_s (hs_le (lt_of_le_of_ne hc hck)))
          · rcases hhi with h | h
            · exact absurd h hic
            · rw [hz' (i + 1) (by omega)] at h
              exact Or.inr h
        have hold := hinv.env i (by omega) x hlo hold_hi
        by_cases hjq : j = q
        · subst hjq
          refine le_trans (hold (st.v c) hvc) ?_
          rw [le_envLine_iff _ _ _ hvc, ← hs]
          exact hx_le_s
        · exact hold j (by omega)

theorem mainLoop_erode {L : List α} {m : α}
    (hsent : ∀ q, 1 ≤ q → q < L.length → (intNonpositiveMin : α) <
      (precompute false L m q - precompute false L m 0) / (2 * ((q : α) - ((0 : ℕ) : α)))) :
    ∀ n q st, 1 ≤ q → q + n = L.length → EnvInv L m q st →
      ∃ st', mainLoop false L m n q st = some st' ∧ EnvInv L m (q + n) st' := by
  intro n
  induction n with
  | zero =>
    intro q st _ _ hinv
    exact ⟨st, rfl, hinv⟩
  | succ n ih =>
    intro q st hq hqn hinv
    obtain ⟨st1, hstep, hinv1⟩ := mainStep_erode hinv (hsent q hq (by omega))
    obtain ⟨st2, hloop, hinv2⟩ := ih (q + 1) st1 (by omega) (by omega) hinv1
    refine ⟨st2, ?_, ?_⟩
    · simp only [mainLoop]
      rw [hstep]
      exact hloop
    · have h3 : q + (n + 1) = q + 1 + n := by omega
      rw [h3]; exact hinv2

theorem minUpTo_le (f : ℕ → α) (n j : ℕ) (hj : j ≤ n) : minUpTo f n ≤ f j := by
  induction n with
  | zero =>
    have : j = 0 := by omega
    subst this; exact le_refl _
  | succ n ih =>
    simp only [minUpTo]
    by_cases h : j = n + 1
    · subst h; exact min_le_right _ _
    · exact le_trans (min_le_left _ _) (ih (by omega))

theorem minUpTo_mem (f : ℕ → α) (n : ℕ) : ∃ j, j ≤ n ∧ minUpTo f n = f j := by
  induction n with
  | zero => exact ⟨0, le_refl _, rfl⟩
  | succ n ih =>
    obtain ⟨j, hj, hjeq⟩ := ih
    simp only [minUpTo]
    rcases le_total (minUpTo f n) (f (n + 1)) with h | h
    · exact ⟨j, by omega, by rw [min_eq_left h, hjeq]⟩
    · exact ⟨n + 1, le_refl _, by rw [min_eq_right h]⟩

theorem minUpTo_eq (f : ℕ → α) (n j : ℕ) (hj : j ≤ n) (hmin : ∀ i, i ≤ n → f j ≤ f i) :
    minUpTo f n = f j := by
  apply le_antisymm (minUpTo_le f n j hj)
  obtain ⟨i, hi, hieq⟩ := minUpTo_mem f n
  rw [hieq]; exact hmin i hi

theorem maxUpTo_eq_neg_minUpTo (f : ℕ → α) (n : ℕ) :
    maxUpTo f n = -minUpTo (fun q => -f q) n := by
  induction n with
  | zero => simp [maxUpTo, minUpTo]
  | succ n ih =>
    simp only [maxUpTo, minUpTo, ih]
    rw [← max_neg_neg, neg_neg]

theorem advance_spec (z : ℕ → α) (q top N : ℕ) (htop : top < N) (hz : ¬ z (top + 1) < (q : α)) :
    ∀ d k, k + d = top → (k = 0 ∨ z k < (q : α)) →
      ∃ k', advance z q (N - k) k = some k' ∧ k ≤ k' ∧ k' ≤ top ∧
        (k' = 0 ∨ z k' < (q : α)) ∧ ¬ z (k' + 1) < (q : α) := by
  intro d
  induction d with
  | zero =>
    intro k hk hlo
    have hk' : k = top := by omega
    subst hk'
    obtain ⟨f, hf⟩ : ∃ f, N - k = f + 1 := ⟨N - k - 1, by omega⟩
    refine ⟨k, ?_, le_refl _, le_refl _, hlo, hz⟩
    rw [hf]
    simp only [advance]
    rw [if_neg hz]
  | succ d ih =>
    intro k hk hlo
    obtain ⟨f, hf⟩ : ∃ f, N - k = f + 1 := ⟨N - k - 1, by omega⟩
    have hf' : f = N - (k + 1) := by omega
    by_cases hlt : z (k + 1) < (q : α)
    · obtain ⟨k', hadv, h1, h2, h3, h4⟩ := ih (k + 1) (by omega) (Or.inr hlt)
      refine ⟨k', ?_, by omega, h2, h3, h4⟩
      rw [hf]
      simp only [advance]
      rw [if_pos hlt, hf']
      exact hadv
    · refine ⟨k, ?_, le_refl _, by omega, hlo, hlt⟩
      rw [hf]
      simp only [advance]
      rw [if_neg hlt]

theorem emit_erode_eq {L : List α} {m : α} (hm : 0 < m) {st : EnvState α}
    (hinv : EnvInv L m L.length st) (q k : ℕ) (hk : k ≤ st.k)
    (hlo : k = 0 ∨ st.z k ≤ (q : α)) (hhi : k = st.k ∨ (q : α) ≤ st.z (k + 1)) :
    emit false m st.F st.v q k = parabolicErosion L m q := by
  have hv : st.v k < L.length := hinv.v_lt k hk
  have hne : m ≠ 0 := ne_of_gt hm
  have key : ∀ j, L.getD j 0 + m * ((q : α) - (j : α)) ^ 2 =
      m * (envLine (precompute false L m) j (q : α) + (q : α) * (q : α)) := by
    intro j
    simp only [envLine, precompute, Bool.false_eq_true, if_false]
    field_simp
    ring
  unfold parabolicErosion
  rw [minUpTo_eq _ (L.length - 1) (st.v k) (by omega)]
  · simp only [emit, Bool.false_eq_true, if_false]
    rw [hinv.F_eq _ hv]
    simp only [precompute, Bool.false_eq_true, if_false]
    field_simp
    ring
  · intro i hi
    show L.getD (st.v k) 0 + m * ((q : α) - (st.v k : α)) ^ 2 ≤
      L.getD i 0 + m * ((q : α) - (i : α)) ^ 2
    rw [key, key]
    have h := hinv.env k hk (q : α) hlo hhi i (by omega)
    exact mul_le_mul_of_nonneg_left (by linarith) (le_of_lt hm)

theorem reconstruct_erode {L : List α} {m : α} (hm : 0 < m) {st : EnvState α}
    (hinv : EnvInv L m L.length st) (hN : L.length ≤ 2 ^ 31) :
    ∀ n q k, q + n = L.length → k ≤ st.k → (k = 0 ∨ st.z k < (q : α)) →
      reconstruct false m L.length st.F st.v st.z n q k =
        some ((List.range' q n).map (parabolicErosion L m)) := by
  intro n
  induction n with
  | zero => intro q k _ _ _; rfl
  | succ n ih =>
    intro q k hq hk hlo
    have hqlt : q < 2 ^ 31 := by omega
    have hztop : ¬ st.z (st.k + 1) < (q : α) := by
      rw [hinv.z_top, not_lt]
      have h1 : (q : ℤ) ≤ intMax := by
        have : (q : ℤ) < 2 ^ 31 := by exact_mod_cast hqlt
        simp only [intMax]; omega
      have h2 : ((q : ℤ) : α) ≤ ((intMax : ℤ) : α) := Int.cast_le.mpr h1
      simpa using h2
    obtain ⟨k', hadv, h1, h2, h3, h4⟩ :=
      advance_spec st.z q st.k L.length hinv.k_lt hztop (st.k - k) k (by omega) hlo
    have hv : st.v k' < L.length := hinv.v_lt k' h2
    have hhi : k' = st.k ∨ (q : α) ≤ st.z (k' + 1) := Or.inr (not_lt.mp h4)
    have hlo' : k' = 0 ∨ st.z k' ≤ (q : α) := h3.imp id le_of_lt
    have hnext : k' = 0 ∨ st.z k' < ((q + 1 : ℕ) : α) := by
      rcases h3 with h | h
      · exact Or.inl h
      · refine Or.inr (lt_trans h ?_)
        exact_mod_cast Nat.lt_succ_self q
    simp only [reconstruct]
    rw [hadv]
    simp only
    rw [if_pos hv, ih (q + 1) k' (by omega) h2 hnext, emit_erode_eq hm hinv q k' h2 hlo' hhi]
    rfl

theorem sentinel_form {L : List α} {m : α} (hm : 0 < m) (q : ℕ) (hq : 1 ≤ q) :
    (precompute false L m q - precompute false L m 0) / (2 * ((q : α) - ((0 : ℕ) : α))) =
      (L.getD q 0 - L.getD 0 0) / (2 * m * (q : α)) + (q : α) / 2 := by
  have hne : m ≠ 0 := ne_of_gt hm
  have hq' : (q : α) ≠ 0 := by
    have : (0 : α) < (q : α) := by exact_mod_cast hq
    exact ne_of_gt this
  simp only [precompute, Bool.false_eq_true, if_false, Nat.cast_zero]
  field_simp
  ring

theorem intNonpositiveMin_cast : ((intNonpositiveMin : ℤ) : α) = -(2 : α) ^ 31 := by
  simp only [intNonpositiveMin]
  push_cast
  norm_num

theorem DoLineIntAlg_erode_cons (x : α) (t : List α) (F : ℕ → α) (v : ℕ → ℕ) (z : ℕ → α)
    (m : α) (hN : (x :: t).length ≤ 2 ^ 31) (hm : 0 < m)
    (hsent : ∀ q, 1 ≤ q → q < (x :: t).length → ((intNonpositiveMin : ℤ) : α) <
      (precompute false (x :: t) m q - precompute false (x :: t) m 0) /
        (2 * ((q : α) - ((0 : ℕ) : α)))) :
    DoLineIntAlg false (x :: t) F v z m = some (erodedLine (x :: t) m) := by
  have hinit : EnvInv (x :: t) m 1
      { k := 0
        F := Function.update F 0 (x / m)
        v := Function.update v 0 0
        z := Function.update (Function.update z 0 ((intNonpositiveMin : ℤ) : α)) 1
          ((intMax : ℤ) : α) } := by
    constructor
    · exact Nat.zero_lt_one
    · intro i hi
      change i ≤ 0 at hi
      have : i = 0 := by omega
      subst this
      simp
    · simp
    · simp
    · intro i hi; exact absurd hi (Nat.not_lt_zero _)
    · intro j hj
      have : j = 0 := by omega
      subst this
      simp [precompute]
    · simp
    · simp
    · intro i hi; exact absurd hi (Nat.not_lt_zero _)
    · intro i hi x' _ _ j hj
      change i ≤ 0 at hi
      have hi0 : i = 0 := by omega
      have hj0 : j = 0 := by omega
      subst hi0; subst hj0
      simp
  obtain ⟨st, hloop, hinv⟩ :=
    mainLoop_erode hsent ((x :: t).length - 1) 1 _ (le_refl _)
      (by simp only [List.length_cons]; omega) hinit
  have hlen : 1 + ((x :: t).length - 1) = (x :: t).length := by
    simp only [List.length_cons]; omega
  rw [hlen] at hinv
  simp only [DoLineIntAlg]
  rw [hloop]
  simp only
  rw [reconstruct_erode hm hinv hN (x :: t).length 0 0 (by simp) (Nat.zero_le _) (Or.inl rfl)]
  simp only [erodedLine, List.range_eq_range']

theorem DoLineIntAlg_erode_spec (L : List α) (F : ℕ → α) (v : ℕ → ℕ) (z : ℕ → α) (m : α)
    (hL : L ≠ []) (hN : L.length ≤ 2 ^ 31) (hm : 0 < m)
    (hsent : ∀ q, 1 ≤ q → q < L.length → ((intNonpositiveMin : ℤ) : α) <
      (precompute false L m q - precompute false L m 0) / (2 * ((q : α) - ((0 : ℕ) : α)))) :
    DoLineIntAlg false L F v z m = some (erodedLine L m) := by
  cases L with
  | nil => exact absurd rfl hL
  | cons x t => exact DoLineIntAlg_erode_cons x t F v z m hN hm hsent

/-- C1. Intersection kernel, erosion mode: for a non-empty line whose indices fit the `int` index
buffer and a magnitude `m > 0`, when every intersection with the parabola at 0 stays above the
`z[0]` sentinel `-2^31`, `DoLineIntAlg<doDilate=false>` returns, whatever the scratch buffers
hold on entry, and leaves `L'[p] = min_q (L[q] + m (p - q)^2)` at every `p`. -/
theorem DoLineIntAlg_erode_correct (L : List α) (F : ℕ → α) (v : ℕ → ℕ) (z : ℕ → α) (m : α)
    (hL : L ≠ []) (hN : L.length ≤ 2 ^ 31) (hm : 0 < m)
    (hsent : ∀ q, 1 ≤ q → q < L.length →
      -(2 : α) ^ 31 < (L.getD q 0 - L.getD 0 0) / (2 * m * (q : α)) + (q : α) / 2) :
    DoLineIntAlg false L F v z m = some (erodedLine L m) := by
  cases L with
  | nil => exact absurd rfl hL
  | cons x t =>
    have hsent' : ∀ q, 1 ≤ q → q < (x :: t).length → ((intNonpositiveMin : ℤ) : α) <
        (precompute false (x :: t) m q - precompute false (x :: t) m 0) /
          (2 * ((q : α) - ((0 : ℕ) : α))) := by
      intro q hq hqN
      rw [sentinel_form hm q hq, intNonpositiveMin_cast]
      exact hsent q hq hqN
    exact DoLineIntAlg_erode_cons x t F v z m hN hm hsent'

/-- C1, at the line `[3, 0, 5]` with magnitude `1/2`. -/
theorem DoLineIntAlg_erode_correct_witness :
    DoLineIntAlg false ([3, 0, 5] : List ℚ) (fun _ => 0) (fun _ => 0) (fun _ => 0) (1 / 2) =
      some (erodedLine ([3, 0, 5] : List ℚ) (1 / 2)) :=
  DoLineIntAlg_erode_correct [3, 0, 5] (fun _ => 0) (fun _ => 0) (fun _ => 0) (1 / 2)
    (by decide) (by decide) (by norm_num)
    (by
      intro q hq hlt
      have hlt' : q < 3 := hlt
      interval_cases q <;> norm_num)

/-! ## Duality of the intersection algorithm -/

theorem getD_negLine (L : List α) (q : ℕ) : (negLine L).getD q 0 = -L.getD q 0 := by
  unfold negLine
  induction L generalizing q with
  | nil => simp
  | cons x t ih =>
    cases q with
    | zero => simp
    | succ q => simpa using ih q

theorem length_negLine (L : List α) : (negLine L).length = L.length := by
  simp [negLine]

theorem negLine_negLine (L : List α) : negLine (negLine L) = L := by
  simp [negLine]

theorem precompute_negLine (L : List α) (m : α) (q : ℕ) :
    precompute true (negLine L) m q = -precompute false L m q := by
  simp only [precompute, getD_negLine, if_true, Bool.false_eq_true, if_false]
  rw [neg_div]
  ring

theorem popLoop_lt (doDilate : Bool) (F : ℕ → α) (v : ℕ → ℕ) (z : ℕ → α) (q : ℕ) :
    ∀ a c s, popLoop doDilate F v z q a = some (c, s) → c < a := by
  intro a
  induction a with
  | zero => intro c s h; simp [popLoop] at h
  | succ a ih =>
    intro c s h
    simp only [popLoop] at h
    by_cases hle : intersection doDilate F v q a ≤ z a
    · rw [if_pos hle] at h
      have := ih c s h
      omega
    · rw [if_neg hle] at h
      simp only [Option.some.injEq, Prod.mk.injEq] at h
      omega

theorem popLoop_dual (F F' : ℕ → α) (v : ℕ → ℕ) (z : ℕ → α) (q top : ℕ)
    (hF : ∀ j, j ≤ q → F' j = -F j) (hv : ∀ i, i ≤ top → v i < q) :
    ∀ a, a ≤ top + 1 → popLoop true F' v z q a = popLoop false F v z q a := by
  intro a
  induction a with
  | zero => intro _; rfl
  | succ a ih =>
    intro ha
    have hva : v a < q := hv a (by omega)
    have hs : intersection true F' v q a = intersection false F v q a := by
      simp only [intersection, if_true, Bool.false_eq_true, if_false]
      rw [hF q (le_refl _), hF (v a) (le_of_lt hva)]
      have h1 : -F q - -F (v a) = -(F q - F (v a)) := by ring
      have h2 : 2 * ((v a : α) - (q : α)) = -(2 * ((q : α) - (v a : α))) := by ring
      rw [h1, h2, neg_div_neg_eq]
    simp only [popLoop]
    rw [hs, ih (by omega)]

theorem mainStep_dual (L : List α) (m : α) (q : ℕ) (st st' : EnvState α)
    (hrel : DualRel q st st') :
    (mainStep false L m q st = none ∧ mainStep true (negLine L) m q st' = none) ∨
    ∃ st1 st1', mainStep false L m q st = some st1 ∧
      mainStep true (negLine L) m q st' = some st1' ∧ DualRel (q + 1) st1 st1' := by
  have hF : ∀ j, j ≤ q → Function.update st'.F q (precompute true (negLine L) m q) j =
      -Function.update st.F q (precompute false L m q) j := by
    intro j hj
    by_cases h : j = q
    · subst h; simp [precompute_negLine]
    · rw [Function.update_noteq h, Function.update_noteq h]
      exact hrel.F_neg j (by omega)
  have hpop := popLoop_dual _ _ st.v st.z q st.k hF hrel.v_lt (st.k + 1) (le_refl _)
  simp only [mainStep]
  rw [hrel.k_eq, hrel.v_eq, hrel.z_eq, hpop]
  cases hres : popLoop false (Function.update st.F q (precompute false L m q)) st.v st.z q
      (st.k + 1) with
  | none => exact Or.inl ⟨rfl, rfl⟩
  | some r =>
    obtain ⟨c, s⟩ := r
    have hc := popLoop_lt _ _ _ _ _ _ _ _ hres
    refine Or.inr ⟨_, _, rfl, rfl, ?_⟩
    constructor
    · rfl
    · rfl
    · rfl
    · intro j hj
      exact hF j (by omega)
    · intro i hi
      change i ≤ c + 1 at hi
      show Function.update st.v (c + 1) q i < q + 1
      by_cases h : i = c + 1
      · subst h; simp
      · rw [Function.update_noteq h]
        have := hrel.v_lt i (by omega)
        omega

theorem mainLoop_dual (L : List α) (m : α) :
    ∀ n q st st', DualRel q st st' →
      (mainLoop false L m n q st = none ∧ mainLoop true (negLine L) m n q st' = none) ∨
      ∃ st1 st1', mainLoop false L m n q st = some st1 ∧
        mainLoop true (negLine L) m n q st' = some st1' ∧ DualRel (q + n) st1 st1' := by
  intro n
  induction n with
  | zero =>
    intro q st st' hrel
    exact Or.inr ⟨st, st', rfl, rfl, hrel⟩
  | succ n ih =>
    intro q st st' hrel
    simp only [mainLoop]
    rcases mainStep_dual L m q st st' hrel with ⟨h1, h2⟩ | ⟨st1, st1', h1, h2, hrel1⟩
    · rw [h1, h2]; exact Or.inl ⟨rfl, rfl⟩
    · rw [h1, h2]
      have h3 : q + (n + 1) = q + 1 + n := by omega
      rw [h3]
      exact ih (q + 1) st1 st1' hrel1

theorem reconstruct_dual (m : α) (N : ℕ) (F F' : ℕ → α) (v : ℕ → ℕ) (z : ℕ → α)
    (hF : ∀ j, j < N → F' j = -F j) :
    ∀ n q k, reconstruct false m N F v z n q k =
      (reconstruct true m N F' v z n q k).map negLine := by
  intro n
  induction n with
  | zero => intro q k; rfl
  | succ n ih =>
    intro q k
    simp only [reconstruct]
    cases advance z q (N - k) k with
    | none => rfl
    | some k' =>
      simp only
      by_cases hv : v k' < N
      · rw [if_pos hv, if_pos hv, ih (q + 1) k']
        cases reconstruct true m N F' v z n (q + 1) k' with
        | none => rfl
        | some rest =>
          simp only [Option.map_some', negLine, List.map_cons, Option.some.injEq,
            List.cons.injEq, and_true]
          simp only [emit, if_true, Bool.false_eq_true, if_false]
          rw [hF _ hv]
          ring
      · rw [if_neg hv, if_neg hv]
        rfl

theorem DoLineIntAlg_dual_cons (x : α) (t : List α) (F F' : ℕ → α) (v : ℕ → ℕ) (z : ℕ → α)
    (m : α) :
    DoLineIntAlg false (x :: t) F v z m =
      (DoLineIntAlg true (negLine (x :: t)) F' v z m).map negLine := by
  have hrel : DualRel 1
      ({ k := 0
         F := Function.update F 0 (x / m)
         v := Function.update v 0 0
         z := Function.update (Function.update z 0 ((intNonpositiveMin : ℤ) : α)) 1
           ((intMax : ℤ) : α) } : EnvState α)
      { k := 0
        F := Function.update F' 0 (-x / m)
        v := Function.update v 0 0
        z := Function.update (Function.update z 0 ((intNonpositiveMin : ℤ) : α)) 1
          ((intMax : ℤ) : α) } := by
    constructor
    · rfl
    · rfl
    · rfl
    · intro j hj
      have : j = 0 := by omega
      subst this
      simp [neg_div]
    · intro i hi
      change i ≤ 0 at hi
      have : i = 0 := by omega
      subst this
      simp
  have hlen : (negLine (x :: t)).length = (x :: t).length := length_negLine _
  have hcons : negLine (x :: t) = -x :: negLine t := rfl
  simp only [DoLineIntAlg, hcons]
  rw [← hcons, hlen]
  rcases mainLoop_dual (x :: t) m ((x :: t).length - 1) 1 _ _ hrel with
    ⟨h1, h2⟩ | ⟨st1, st1', h1, h2, hrel1⟩
  · rw [h1, h2]; rfl
  · rw [h1, h2]
    simp only
    have hq : 1 + ((x :: t).length - 1) = (x :: t).length := by
      simp only [List.length_cons]; omega
    rw [hq] at hrel1
    rw [hrel1.v_eq, hrel1.z_eq]
    exact reconstruct_dual m _ st1.F st1'.F st1.v st1.z hrel1.F_neg _ 0 0

theorem DoLineIntAlg_dual (L : List α) (F F' : ℕ → α) (v : ℕ → ℕ) (z : ℕ → α) (m : α) :
    DoLineIntAlg false L F v z m = (DoLineIntAlg true (negLine L) F' v z m).map negLine := by
  cases L with
  | nil => rfl
  | cons x t => exact DoLineIntAlg_dual_cons x t F F' v z m

/-- C5. Duality of the intersection kernel: running `DoLineIntAlg` in erosion mode on a line
gives, element by element, the negation of running it in dilation mode on the negated line, and
one run leaves the index range of its buffers exactly when the other does (both results are
`none`); this for every line, every magnitude and every content of the scratch buffers. -/
theorem DoLineIntAlg_duality (L : List α) (F F' : ℕ → α) (v : ℕ → ℕ) (z : ℕ → α) (m : α) :
    DoLineIntAlg false L F v z m = (DoLineIntAlg true (negLine L) F' v z m).map negLine := by
  cases L with
  | nil => rfl
  | cons x t => exact DoLineIntAlg_dual_cons x t F F' v z m

/-! ## The contact point algorithm in dilation mode -/

theorem le_maxUpTo (f : ℕ → α) (n j : ℕ) (hj : j ≤ n) : f j ≤ maxUpTo f n := by
  rw [maxUpTo_eq_neg_minUpTo]
  have := minUpTo_le (fun q => -f q) n j hj
  simp only at this
  linarith

theorem maxUpTo_mem (f : ℕ → α) (n : ℕ) : ∃ j, j ≤ n ∧ maxUpTo f n = f j := by
  obtain ⟨j, hj, h⟩ := minUpTo_mem (fun q => -f q) n
  refine ⟨j, hj, ?_⟩
  rw [maxUpTo_eq_neg_minUpTo, h]
  simp

theorem maxUpTo_eq (f : ℕ → α) (n j : ℕ) (hj : j ≤ n) (hmax : ∀ i, i ≤ n → f i ≤ f j) :
    maxUpTo f n = f j := by
  apply le_antisymm _ (le_maxUpTo f n j hj)
  obtain ⟨i, hi, hieq⟩ := maxUpTo_mem f n
  rw [hieq]; exact hmax i hi

theorem maxUpTo_le (f : ℕ → α) (n : ℕ) (y : α) (h : ∀ i, i ≤ n → f i ≤ y) :
    maxUpTo f n ≤ y := by
  obtain ⟨i, hi, hieq⟩ := maxUpTo_mem f n
  rw [hieq]; exact h i hi

theorem cpInner_dilate_spec (buf : List α) (m : α) (pos : ℕ) (dir : ℤ) :
    ∀ n kr B nc,
      (∀ t : ℕ, t < n → 0 ≤ (pos : ℤ) + (kr + (t : ℤ) * dir) ∧
        (pos : ℤ) + (kr + (t : ℤ) * dir) < (buf.length : ℤ)) →
      ∃ B' nc', cpInner true buf m pos dir n kr (B, nc) = some (B', nc') ∧ B ≤ B' ∧
        (∀ t : ℕ, t < n → cpT buf m pos (kr + (t : ℤ) * dir) ≤ B') ∧
        ((B' = B ∧ nc' = nc ∧ ∀ t : ℕ, t < n → cpT buf m pos (kr + (t : ℤ) * dir) < B) ∨
          ∃ t : ℕ, t < n ∧ nc' = kr + (t : ℤ) * dir ∧ B' = cpT buf m pos (kr + (t : ℤ) * dir)) := by
  intro n
  induction n with
  | zero =>
    intro kr B nc _
    refine ⟨B, nc, rfl, le_refl _, ?_, Or.inl ⟨rfl, rfl, ?_⟩⟩
    · intro t ht; exact absurd ht (Nat.not_lt_zero _)
    · intro t ht; exact absurd ht (Nat.not_lt_zero _)
  | succ n ih =>
    intro kr B nc hidx
    have h0 := hidx 0 (Nat.succ_pos _)
    simp only [Nat.cast_zero, zero_mul, add_zero] at h0
    have hshift : ∀ t : ℕ, kr + dir + (t : ℤ) * dir = kr + ((t + 1 : ℕ) : ℤ) * dir := by
      intro t; push_cast; ring
    have hidx' : ∀ t : ℕ, t < n → 0 ≤ (pos : ℤ) + (kr + dir + (t : ℤ) * dir) ∧
        (pos : ℤ) + (kr + dir + (t : ℤ) * dir) < (buf.length : ℤ) := by
      intro t ht
      rw [hshift t]
      exact hidx (t + 1) (by omega)
    have hunf : ∀ B0 nc0, cpInner true buf m pos dir (n + 1) kr (B0, nc0) =
        if cpT buf m pos kr ≥ B0 then cpInner true buf m pos dir n (kr + dir) (cpT buf m pos kr, kr)
        else cpInner true buf m pos dir n (kr + dir) (B0, nc0) := by
      intro B0 nc0
      simp only [cpInner, cpT]
      rw [if_pos h0]
      simp
    rw [hunf]
    by_cases hT : cpT buf m pos kr ≥ B
    · rw [if_pos hT]
      obtain ⟨B', nc', hrun, hle, hall, hdisj⟩ := ih (kr + dir) (cpT buf m pos kr) kr hidx'
      have hTB' : cpT buf m pos kr ≤ B' := hle
      refine ⟨B', nc', hrun, le_trans hT hle, ?_, Or.inr ?_⟩
      · intro t ht
        cases t with
        | zero => simpa using hTB'
        | succ t =>
          rw [← hshift t]
          exact hall t (by omega)
      · rcases hdisj with ⟨h1, h2, _⟩ | ⟨t, ht, h1, h2⟩
        · exact ⟨0, Nat.succ_pos _, by simpa using h2, by simpa using h1⟩
        · refine ⟨t + 1, by omega, ?_, ?_⟩
          · rw [← hshift t]; exact h1
          · rw [← hshift t]; exact h2
    · rw [if_neg hT]
      obtain ⟨B', nc', hrun, hle, hall, hdisj⟩ := ih (kr + dir) B nc hidx'
      have hTlt : cpT buf m pos kr < B := not_le.mp hT
      refine ⟨B', nc', hrun, hle, ?_, ?_⟩
      · intro t ht
        cases t with
        | zero => simpa using le_trans (le_of_lt hTlt) hle
        | succ t =>
          rw [← hshift t]
          exact hall t (by omega)
      · rcases hdisj with ⟨h1, h2, h3⟩ | ⟨t, ht, h1, h2⟩
        · refine Or.inl ⟨h1, h2, ?_⟩
          intro t ht
          cases t with
          | zero => simpa using hTlt
          | succ t =>
            rw [← hshift t]
            exact h3 t (by omega)
        · refine Or.inr ⟨t + 1, by omega, ?_, ?_⟩
          · rw [← hshift t]; exact h1
          · rw [← hshift t]; exact h2

theorem cpT_eq_cpVal (buf : List α) (m : α) (pos i : ℕ) :
    cpT buf m pos ((i : ℤ) - (pos : ℤ)) = cpVal buf m i pos := by
  have h : ((pos : ℤ) + ((i : ℤ) - (pos : ℤ))).toNat = i := by
    have : (pos : ℤ) + ((i : ℤ) - (pos : ℤ)) = (i : ℤ) := by ring
    rw [this]; exact Int.toNat_natCast i
  simp only [cpT, cpVal, h]
  push_cast
  ring

theorem cpVal_self (buf : List α) (m : α) (p : ℕ) : cpVal buf m p p = buf.getD p 0 := by
  simp [cpVal]

theorem cpVal_dom_right (buf : List α) (m : α) (hm : 0 ≤ m) (j a pos p : ℕ) (hja : j ≤ a)
    (hp : pos ≤ p) (h : cpVal buf m j pos ≤ cpVal buf m a pos) :
    cpVal buf m j p ≤ cpVal buf m a p := by
  have h1 : (j : α) ≤ (a : α) := Nat.cast_le.mpr hja
  have h2 : (pos : α) ≤ (p : α) := Nat.cast_le.mpr hp
  have key : 0 ≤ m * (((p : α) - (pos : α)) * ((a : α) - (j : α))) :=
    mul_nonneg hm (mul_nonneg (by linarith) (by linarith))
  unfold cpVal at *
  nlinarith [key, h]

theorem cpVal_dom_left (buf : List α) (m : α) (hm : 0 ≤ m) (j b pos p : ℕ) (hbj : b ≤ j)
    (hp : p ≤ pos) (h : cpVal buf m j pos ≤ cpVal buf m b pos) :
    cpVal buf m j p ≤ cpVal buf m b p := by
  have h1 : (b : α) ≤ (j : α) := Nat.cast_le.mpr hbj
  have h2 : (p : α) ≤ (pos : α) := Nat.cast_le.mpr hp
  have key : 0 ≤ m * (((pos : α) - (p : α)) * ((j : α) - (b : α))) :=
    mul_nonneg hm (mul_nonneg (by linarith) (by linarith))
  unfold cpVal at *
  nlinarith [key, h]

theorem cpSweep1_dilate (L : List α) (m extreme : α) (hm : 0 ≤ m)
    (hext : ∀ i, i < L.length → extreme ≤ L.getD i 0) :
    ∀ n pos a nc, pos + n = L.length → a ≤ pos →
      (∀ j, j < a → ∀ p, pos ≤ p → cpVal L m j p ≤ cpVal L m a p) →
      cpSweep1 true extreme L m n pos ((a : ℤ) - (pos : ℤ)) nc =
        some ((List.range' pos n).map (cpBack L m)) := by
  intro n
  induction n with
  | zero => intros; rfl
  | succ n ih =>
    intro pos a nc hlen ha hdom
    have hcnt : (1 - ((a : ℤ) - (pos : ℤ))).toNat = pos - a + 1 := by omega
    have hidx : ∀ t : ℕ, t < pos - a + 1 →
        0 ≤ (pos : ℤ) + ((a : ℤ) - (pos : ℤ) + (t : ℤ) * 1) ∧
        (pos : ℤ) + ((a : ℤ) - (pos : ℤ) + (t : ℤ) * 1) < (L.length : ℤ) := by
      intro t ht
      constructor <;> omega
    obtain ⟨B', nc', hrun, _, hall, hdisj⟩ :=
      cpInner_dilate_spec L m pos 1 (pos - a + 1) ((a : ℤ) - (pos : ℤ)) extreme nc hidx
    have hTv : ∀ t : ℕ, cpT L m pos ((a : ℤ) - (pos : ℤ) + (t : ℤ) * 1) =
        cpVal L m (a + t) pos := by
      intro t
      rw [← cpT_eq_cpVal]
      congr 1
      push_cast
      ring
    have hsome : ∃ t : ℕ, t < pos - a + 1 ∧ nc' = (a : ℤ) - (pos : ℤ) + (t : ℤ) * 1 ∧
        B' = cpT L m pos ((a : ℤ) - (pos : ℤ) + (t : ℤ) * 1) := by
      rcases hdisj with ⟨_, _, h3⟩ | h
      · exfalso
        have h4 := h3 (pos - a) (by omega)
        rw [hTv, show a + (pos - a) = pos by omega, cpVal_self] at h4
        exact absurd (hext pos (by omega)) (not_le.mpr h4)
      · exact h
    obtain ⟨t, ht, hnc, hB⟩ := hsome
    rw [hTv] at hB
    have hmax : ∀ i, i ≤ pos → cpVal L m i pos ≤ cpVal L m (a + t) pos := by
      intro i hi
      rw [← hB]
      by_cases hia : a ≤ i
      · have h1 := hall (i - a) (by omega)
        rw [hTv, show a + (i - a) = i by omega] at h1
        exact h1
      · have h1 := hdom i (by omega) pos (le_refl _)
        have h2 := hall 0 (by omega)
        rw [hTv, add_zero] at h2
        exact le_trans h1 h2
    have hBack : B' = cpBack L m pos := by
      rw [hB]
      unfold cpBack
      exact (maxUpTo_eq _ pos (a + t) (by omega) hmax).symm
    have hk : nc' - 1 = ((a + t : ℕ) : ℤ) - ((pos + 1 : ℕ) : ℤ) := by
      rw [hnc]; push_cast; ring
    have hdom' : ∀ j, j < a + t → ∀ p, pos + 1 ≤ p → cpVal L m j p ≤ cpVal L m (a + t) p := by
      intro j hj p hp
      exact cpVal_dom_right L m hm j (a + t) pos p (by omega) (by omega) (hmax j (by omega))
    simp only [cpSweep1]
    rw [hcnt, hrun]
    simp only
    rw [hk, ih (pos + 1) (a + t) nc' (by omega) (by omega) hdom', hBack]
    rfl

theorem cpSweep2_dilate (tmp : List α) (m extreme : α) (hm : 0 ≤ m)
    (hext : ∀ i, i < tmp.length → extreme ≤ tmp.getD i 0) :
    ∀ (n b : ℕ) (nc koffset : ℤ), n ≤ b + 1 → b < tmp.length →
      koffset = (b : ℤ) - (n : ℤ) + 1 →
      (∀ j, b < j → j < tmp.length → ∀ p, p + 1 ≤ n → cpVal tmp m j p ≤ cpVal tmp m b p) →
      cpSweep2 true extreme tmp m n koffset nc =
        some ((List.range n).map (cpFwd tmp m tmp.length)) := by
  intro n
  induction n with
  | zero => intros; rfl
  | succ pos ih =>
    intro b nc koffset hb hbN hko hdom
    have hko' : koffset = (b : ℤ) - (pos : ℤ) := by
      rw [hko]; push_cast; ring
    clear hko
    subst hko'
    have hcnt : ((b : ℤ) - (pos : ℤ) + 1).toNat = b - pos + 1 := by omega
    have hidx : ∀ t : ℕ, t < b - pos + 1 →
        0 ≤ (pos : ℤ) + ((b : ℤ) - (pos : ℤ) + (t : ℤ) * (-1)) ∧
        (pos : ℤ) + ((b : ℤ) - (pos : ℤ) + (t : ℤ) * (-1)) < (tmp.length : ℤ) := by
      intro t ht
      constructor <;> omega
    obtain ⟨B', nc', hrun, _, hall, hdisj⟩ :=
      cpInner_dilate_spec tmp m pos (-1) (b - pos + 1) ((b : ℤ) - (pos : ℤ))
        extreme nc hidx
    have hTv : ∀ t : ℕ, t ≤ b - pos →
        cpT tmp m pos ((b : ℤ) - (pos : ℤ) + (t : ℤ) * (-1)) =
          cpVal tmp m (b - t) pos := by
      intro t ht
      rw [← cpT_eq_cpVal]
      congr 1
      omega
    have hsome : ∃ t : ℕ, t < b - pos + 1 ∧
        nc' = (b : ℤ) - (pos : ℤ) + (t : ℤ) * (-1) ∧
        B' = cpT tmp m pos ((b : ℤ) - (pos : ℤ) + (t : ℤ) * (-1)) := by
      rcases hdisj with ⟨_, _, h3⟩ | h
      · exfalso
        have h4 := h3 (b - pos) (by omega)
        rw [hTv _ (le_refl _), show b - (b - pos) = pos by omega, cpVal_self] at h4
        exact absurd (hext pos (by omega)) (not_le.mpr h4)
      · exact h
    clear hdisj
    obtain ⟨t, ht, hnc, hB⟩ := hsome
    rw [hTv t (by omega)] at hB
    have hmax : ∀ i, pos ≤ i → i < tmp.length → cpVal tmp m i pos ≤ cpVal tmp m (b - t) pos := by
      intro i hi hiN
      rw [← hB]
      by_cases hib : i ≤ b
      · have h1 := hall (b - i) (by omega)
        rw [hTv _ (by omega), show b - (b - i) = i by omega] at h1
        exact h1
      · have h1 := hdom i (by omega) hiN pos (by omega)
        have h2 := hall 0 (by omega)
        rw [hTv _ (by omega), Nat.sub_zero] at h2
        exact le_trans h1 h2
    have hFwd : B' = cpFwd tmp m tmp.length pos := by
      rw [hB]
      unfold cpFwd
      have h1 := maxUpTo_eq (fun d => cpVal tmp m (pos + d) pos) (tmp.length - 1 - pos)
        (b - t - pos) (by omega) (by
          intro i hi
          show cpVal tmp m (pos + i) pos ≤ cpVal tmp m (pos + (b - t - pos)) pos
          rw [show pos + (b - t - pos) = b - t by omega]
          exact hmax (pos + i) (by omega) (by omega))
      rw [h1]
      show cpVal tmp m (b - t) pos = cpVal tmp m (pos + (b - t - pos)) pos
      rw [show pos + (b - t - pos) = b - t by omega]
    have hk : nc' + 1 = ((b - t : ℕ) : ℤ) - (pos : ℤ) + 1 := by
      rw [hnc]; omega
    have hdom' : ∀ j, b - t < j → j < tmp.length → ∀ p, p + 1 ≤ pos →
        cpVal tmp m j p ≤ cpVal tmp m (b - t) p := by
      intro j hj hjN p hp
      exact cpVal_dom_left tmp m hm j (b - t) pos p (by omega) (by omega)
        (hmax j (by omega) hjN)
    simp only [cpSweep2]
    rw [hcnt, hrun]
    simp only
    rw [ih (b - t) nc' (nc' + 1) (by omega) (by omega) hk hdom', hFwd]
    simp [List.range_succ]

theorem getD_map_range' (f : ℕ → α) (N i : ℕ) (hi : i < N) :
    ((List.range' 0 N).map f).getD i 0 = f i := by
  have hlen : i < ((List.range' 0 N).map f).length := by simpa using hi
  rw [List.getD_eq_getElem _ _ hlen]
  simp

theorem cpFwd_cpBack (L : List α) (m : α) (hm : 0 ≤ m) (p : ℕ) (hp : p < L.length) :
    cpFwd ((List.range' 0 L.length).map (cpBack L m)) m L.length p = parabolicDilation L m p := by
  have hspec : parabolicDilation L m p = maxUpTo (fun q => cpVal L m q p) (L.length - 1) := rfl
  have htmp : ∀ i, i < L.length →
      ((List.range' 0 L.length).map (cpBack L m)).getD i 0 = cpBack L m i :=
    fun i hi => getD_map_range' _ _ i hi
  apply le_antisymm
  · unfold cpFwd
    apply maxUpTo_le
    intro d hd
    have hpd : p + d < L.length := by omega
    obtain ⟨i, hi, hieq⟩ := maxUpTo_mem (fun i => cpVal L m i (p + d)) (p + d)
    have h1 : cpVal ((List.range' 0 L.length).map (cpBack L m)) m (p + d) p =
        cpVal L m i (p + d) - m * ((p : α) - ((p + d : ℕ) : α)) ^ 2 := by
      unfold cpVal
      rw [htmp _ hpd]
      unfold cpBack
      rw [hieq]
      simp only [cpVal]
    rw [h1, hspec]
    refine le_trans ?_ (le_maxUpTo (fun q => cpVal L m q p) (L.length - 1) i (by omega))
    show cpVal L m i (p + d) - m * ((p : α) - ((p + d : ℕ) : α)) ^ 2 ≤ cpVal L m i p
    unfold cpVal
    have hd0 : (0 : α) ≤ (d : α) := Nat.cast_nonneg d
    have hid : (i : α) ≤ (p : α) + (d : α) := by exact_mod_cast hi
    have key : 0 ≤ m * ((d : α) * ((p : α) + (d : α) - (i : α))) :=
      mul_nonneg hm (mul_nonneg hd0 (by linarith))
    push_cast
    nlinarith [key]
  · rw [hspec]
    obtain ⟨q, hq, hqeq⟩ := maxUpTo_mem (fun q => cpVal L m q p) (L.length - 1)
    rw [hqeq]
    show cpVal L m q p ≤ _
    unfold cpFwd
    by_cases hqp : q ≤ p
    · refine le_trans ?_ (le_maxUpTo _ (L.length - 1 - p) 0 (Nat.zero_le _))
      show cpVal L m q p ≤ cpVal ((List.range' 0 L.length).map (cpBack L m)) m (p + 0) p
      rw [Nat.add_zero, cpVal_self, htmp p hp]
      exact le_maxUpTo (fun i => cpVal L m i p) p q hqp
    · refine le_trans ?_ (le_maxUpTo _ (L.length - 1 - p) (q - p) (by omega))
      show cpVal L m q p ≤ cpVal ((List.range' 0 L.length).map (cpBack L m)) m (p + (q - p)) p
      rw [show p + (q - p) = q by omega]
      have h1 : L.getD q 0 ≤ cpBack L m q := by
        have := le_maxUpTo (fun i => cpVal L m i q) q q (le_refl _)
        simpa [cpVal_self] using this
      unfold cpVal
      rw [htmp q (by omega)]
      linarith

theorem DoLineCP_dilate_spec (traits : PixelTraits α) (L : List α) (m : α) (hm : 0 ≤ m)
    (hext : ∀ i, i < L.length → traits.NonpositiveMin ≤ L.getD i 0) :
    DoLineCP true traits L m = some (dilatedLine L m) := by
  have h1 := cpSweep1_dilate L m traits.NonpositiveMin hm hext L.length 0 0 0
    (by omega) (le_refl _) (fun j hj => absurd hj (Nat.not_lt_zero _))
  simp only [Nat.cast_zero, sub_zero] at h1
  simp only [DoLineCP, if_true]
  rw [h1]
  simp only
  by_cases hN : L.length = 0
  · rw [hN]
    simp [cpSweep2, dilatedLine, hN]
  · have hlen : ((List.range' 0 L.length).map (cpBack L m)).length = L.length := by simp
    have hext2 : ∀ i, i < ((List.range' 0 L.length).map (cpBack L m)).length →
        traits.NonpositiveMin ≤ ((List.range' 0 L.length).map (cpBack L m)).getD i 0 := by
      intro i hi
      rw [hlen] at hi
      rw [getD_map_range' _ _ i hi]
      refine le_trans (hext i hi) ?_
      have := le_maxUpTo (fun j => cpVal L m j i) i i (le_refl _)
      simpa [cpVal_self] using this
    have h2 := cpSweep2_dilate ((List.range' 0 L.length).map (cpBack L m)) m
      traits.NonpositiveMin hm hext2 L.length (L.length - 1) 0 0 (by omega)
      (by rw [hlen]; omega) (by omega)
      (by
        intro j hj hjN
        rw [hlen] at hjN
        omega)
    rw [h2, hlen]
    simp only [dilatedLine, Option.some.injEq]
    apply List.map_congr_left
    intro p hp
    exact cpFwd_cpBack L m hm p (List.mem_range.mp hp)

/-- C2. Contact point kernel, dilation mode: for every line whose values are all at least the
lowest value of the input pixel type (the initial `BaseVal`) and every `m > 0`,
`DoLineCP<doDilate=true>` called with the magnitude `+m` returns and leaves
`L'[p] = max_q (L[q] - m (p - q)^2)` at every `p`. -/
theorem DoLineCP_dilate_correct (traits : PixelTraits α) (L : List α) (m : α) (hm : 0 < m)
    (hlo : ∀ x ∈ L, traits.NonpositiveMin ≤ x) :
    DoLineCP true traits L m = some (dilatedLine L m) := by
  have hext : ∀ i, i < L.length → traits.NonpositiveMin ≤ L.getD i 0 := by
    intro i hi
    rw [List.getD_eq_getElem _ _ hi]
    exact hlo _ (List.getElem_mem hi)
  exact DoLineCP_dilate_spec traits L m (le_of_lt hm) hext

/-- C2, at the line `[0, 3, 0]` of a pixel type with lowest value `0`, magnitude `2`. -/
theorem DoLineCP_dilate_correct_witness :
    DoLineCP true (⟨0, 255⟩ : PixelTraits ℚ) [0, 3, 0] 2 = some (dilatedLine [0, 3, 0] 2) :=
  DoLineCP_dilate_correct ⟨0, 255⟩ [0, 3, 0] 2 (by norm_num) (by
    intro x hx
    simp only [List.mem_cons, List.mem_singleton, List.not_mem_nil, or_false] at hx
    rcases hx with h | h | h <;> (subst h; norm_num))

/-! ## Duality of the specification and of the contact point algorithm -/

theorem parabolicDilation_eq_neg (L : List α) (m : α) (p : ℕ) :
    parabolicDilation L m p = -parabolicErosion (negLine L) m p := by
  unfold parabolicDilation parabolicErosion
  rw [maxUpTo_eq_neg_minUpTo, length_negLine]
  congr 2
  funext q
  rw [getD_negLine]
  ring

theorem dilatedLine_eq_neg (L : List α) (m : α) :
    dilatedLine L m = negLine (erodedLine (negLine L) m) := by
  unfold dilatedLine erodedLine negLine
  rw [List.map_map]
  simp only [List.length_map]
  apply List.map_congr_left
  intro p _
  exact parabolicDilation_eq_neg L m p

theorem erodedLine_eq_neg (L : List α) (m : α) :
    erodedLine L m = negLine (dilatedLine (negLine L) m) := by
  rw [dilatedLine_eq_neg, negLine_negLine, negLine_negLine]

theorem DoLineIntAlg_dilate_spec (L : List α) (F : ℕ → α) (v : ℕ → ℕ) (z : ℕ → α) (m : α)
    (hL : L ≠ []) (hN : L.length ≤ 2 ^ 31) (hm : 0 < m)
    (hsent : ∀ q, 1 ≤ q → q < L.length →
      -(2 : α) ^ 31 < (L.getD 0 0 - L.getD q 0) / (2 * m * (q : α)) + (q : α) / 2) :
    DoLineIntAlg true L F v z m = some (dilatedLine L m) := by
  have hL' : negLine L ≠ [] := by
    intro h
    apply hL
    have := congrArg List.length h
    rw [length_negLine] at this
    exact List.length_eq_zero.mp this
  have h1 := DoLineIntAlg_erode_spec (negLine L) F v z m hL'
    (by rw [length_negLine]; exact hN) hm (by
      intro q hq hqN
      rw [length_negLine] at hqN
      rw [sentinel_form hm q hq, intNonpositiveMin_cast, getD_negLine, getD_negLine]
      have := hsent q hq hqN
      have h2 : -L.getD q 0 - -L.getD 0 0 = L.getD 0 0 - L.getD q 0 := by ring
      rw [h2]; exact this)
  rw [DoLineIntAlg_dual (negLine L) F F v z m, negLine_negLine] at h1
  cases hres : DoLineIntAlg true L F v z m with
  | none => rw [hres] at h1; simp at h1
  | some out =>
    rw [hres] at h1
    simp only [Option.map_some', Option.some.injEq] at h1
    rw [dilatedLine_eq_neg, ← h1, negLine_negLine]

theorem cpInner_dual (buf : List α) (m : α) (pos : ℕ) (dir : ℤ) :
    ∀ n kr B nc, cpInner false buf (-m) pos dir n kr (B, nc) =
      (cpInner true (negLine buf) m pos dir n kr (-B, nc)).map (fun r => (-r.1, r.2)) := by
  intro n
  induction n with
  | zero => intro kr B nc; simp [cpInner]
  | succ n ih =>
    intro kr B nc
    simp only [cpInner, length_negLine, getD_negLine, if_true, Bool.false_eq_true, if_false]
    by_cases hidx : 0 ≤ (pos : ℤ) + kr ∧ (pos : ℤ) + kr < (buf.length : ℤ)
    · rw [if_pos hidx, if_pos hidx]
      have hT : -buf.getD ((pos : ℤ) + kr).toNat 0 - m * (kr : α) * (kr : α) =
          -(buf.getD ((pos : ℤ) + kr).toNat 0 - -m * (kr : α) * (kr : α)) := by ring
      rw [hT]
      by_cases hc : buf.getD ((pos : ℤ) + kr).toNat 0 - -m * (kr : α) * (kr : α) ≤ B
      · rw [if_pos hc, if_pos (neg_le_neg hc)]
        exact ih _ _ _
      · rw [if_neg hc, if_neg (fun h => hc (neg_le_neg_iff.mp h))]
        exact ih _ _ _
    · rw [if_neg hidx, if_neg hidx]
      rfl

theorem cpSweep1_dual (buf : List α) (m extreme : α) :
    ∀ n pos koffset nc, cpSweep1 false extreme buf (-m) n pos koffset nc =
      (cpSweep1 true (-extreme) (negLine buf) m n pos koffset nc).map negLine := by
  intro n
  induction n with
  | zero => intro pos koffset nc; rfl
  | succ n ih =>
    intro pos koffset nc
    simp only [cpSweep1]
    rw [cpInner_dual]
    cases cpInner true (negLine buf) m pos 1 (1 - koffset).toNat koffset (-extreme, nc) with
    | none => rfl
    | some r =>
      obtain ⟨B, nc'⟩ := r
      simp only [Option.map_some']
      rw [ih]
      cases cpSweep1 true (-extreme) (negLine buf) m n (pos + 1) (nc' - 1) nc' with
      | none => rfl
      | some rest => rfl

theorem cpSweep2_dual (buf : List α) (m extreme : α) :
    ∀ n koffset nc, cpSweep2 false extreme buf (-m) n koffset nc =
      (cpSweep2 true (-extreme) (negLine buf) m n koffset nc).map negLine := by
  intro n
  induction n with
  | zero => intro koffset nc; rfl
  | succ n ih =>
    intro koffset nc
    simp only [cpSweep2]
    rw [cpInner_dual]
    cases cpInner true (negLine buf) m n (-1) (koffset + 1).toNat koffset (-extreme, nc) with
    | none => rfl
    | some r =>
      obtain ⟨B, nc'⟩ := r
      simp only [Option.map_some']
      rw [ih]
      cases cpSweep2 true (-extreme) (negLine buf) m n (nc' + 1) nc' with
      | none => rfl
      | some front => simp [negLine]

theorem DoLineCP_dual (traits : PixelTraits α) (L : List α) (m : α) (lo' hi' : α)
    (hlo : lo' = -traits.max) :
    DoLineCP false traits L (-m) = (DoLineCP true ⟨lo', hi'⟩ (negLine L) m).map negLine := by
  subst hlo
  simp only [DoLineCP, if_true, Bool.false_eq_true, if_false, length_negLine]
  rw [cpSweep1_dual]
  cases cpSweep1 true (-traits.max) (negLine L) m L.length 0 0 0 with
  | none => rfl
  | some tmp =>
    simp only [Option.map_some']
    rw [cpSweep2_dual, negLine_negLine]

theorem DoLineCP_erode_spec (traits : PixelTraits α) (L : List α) (m : α) (hm : 0 ≤ m)
    (hhi : ∀ i, i < L.length → L.getD i 0 ≤ traits.max) :
    DoLineCP false traits L (-m) = some (erodedLine L m) := by
  rw [DoLineCP_dual traits L m (-traits.max) 0 rfl,
    DoLineCP_dilate_spec ⟨-traits.max, 0⟩ (negLine L) m hm (by
      intro i hi
      rw [length_negLine] at hi
      rw [getD_negLine]
      exact neg_le_neg (hhi i hi))]
  rw [erodedLine_eq_neg]
  rfl

/-! ## Agreement of the two algorithms -/

theorem doOneDimensionLine_contactPoint (doDilate : Bool) (traits : PixelTraits α)
    (useSpacing : Bool) (image_scale Sigma : α) (algorithm : ℤ) (L : List α)
    (halg : algorithmChoice algorithm Sigma = CONTACTPOINT)
    (hSigma : 0 < Sigma) (hscale : 0 < image_scale)
    (hlo : doDilate = true → ∀ i, i < L.length → traits.NonpositiveMin ≤ L.getD i 0)
    (hhi : doDilate = false → ∀ i, i < L.length → L.getD i 0 ≤ traits.max) :
    doOneDimensionLine doDilate traits useSpacing image_scale Sigma algorithm L =
      some (specLine doDilate (if useSpacing then image_scale else 1) Sigma L) := by
  have hi : (0 : α) < (if useSpacing then image_scale else 1) := by
    split
    · exact hscale
    · exact one_pos
  have hm : (0 : α) ≤ ((if useSpacing then image_scale else 1) *
      (if useSpacing then image_scale else 1)) / (2 * Sigma) :=
    le_of_lt (div_pos (mul_pos hi hi) (by linarith))
  simp only [doOneDimensionLine, if_pos halg]
  cases doDilate with
  | true =>
    simp only [if_true, one_mul, specLine]
    exact DoLineCP_dilate_spec traits L _ hm (hlo rfl)
  | false =>
    simp only [Bool.false_eq_true, if_false, specLine]
    have h1 : (-1 * (if useSpacing then image_scale else 1) *
        (if useSpacing then image_scale else 1)) / (2 * Sigma) =
        -(((if useSpacing then image_scale else 1) *
          (if useSpacing then image_scale else 1)) / (2 * Sigma)) := by ring
    rw [h1]
    exact DoLineCP_erode_spec traits L _ hm (hhi rfl)

theorem doOneDimensionLine_intersection (doDilate : Bool) (traits : PixelTraits α)
    (useSpacing : Bool) (image_scale Sigma : α) (algorithm : ℤ) (L : List α)
    (halg : algorithmChoice algorithm Sigma ≠ CONTACTPOINT)
    (hL : L ≠ []) (hN : L.length ≤ 2 ^ 31) (hSigma : 0 < Sigma) (hscale : 0 < image_scale)
    (hsent : ∀ q, 1 ≤ q → q < L.length →
      -(2 : α) ^ 31 <
        (if doDilate then L.getD 0 0 - L.getD q 0 else L.getD q 0 - L.getD 0 0) /
          (2 * (((if useSpacing then image_scale else 1) *
            (if useSpacing then image_scale else 1)) / (2 * Sigma)) * (q : α)) + (q : α) / 2) :
    doOneDimensionLine doDilate traits useSpacing image_scale Sigma algorithm L =
      some (specLine doDilate (if useSpacing then image_scale else 1) Sigma L) := by
  have hi : (0 : α) < (if useSpacing then image_scale else 1) := by
    split
    · exact hscale
    · exact one_pos
  have hm : (0 : α) < ((if useSpacing then image_scale else 1) *
      (if useSpacing then image_scale else 1)) / (2 * Sigma) :=
    div_pos (mul_pos hi hi) (by linarith)
  simp only [doOneDimensionLine, if_neg halg]
  cases doDilate with
  | true =>
    simp only [if_true, specLine]
    simp only [if_true] at hsent
    exact DoLineIntAlg_dilate_spec L _ _ _ _ hL hN hm hsent
  | false =>
    simp only [Bool.false_eq_true, if_false, specLine]
    simp only [Bool.false_eq_true, if_false] at hsent
    refine DoLineIntAlg_erode_spec L _ _ _ _ hL hN hm ?_
    intro q hq hqN
    rw [sentinel_form hm q hq, intNonpositiveMin_cast]
    exact hsent q hq hqN

/-- C4. Algorithm agreement: for a non-empty line (of a length within the range of the `int`
index buffer) whose values lie within the range of the input pixel type, a scale `Sigma > 0` and
a spacing `image_scale > 0` for which the `z[0]` sentinel of the intersection algorithm is not
reached, `doOneDimension` with the contact point algorithm and with the intersection algorithm
both return and produce the same line, in dilation mode and in erosion mode. -/
theorem doOneDimension_algorithms_agree (doDilate : Bool) (traits : PixelTraits α)
    (useSpacing : Bool) (image_scale Sigma : α) (L : List α)
    (hL : L ≠ []) (hN : L.length ≤ 2 ^ 31) (hSigma : 0 < Sigma) (hscale : 0 < image_scale)
    (hrange : ∀ x ∈ L, traits.NonpositiveMin ≤ x ∧ x ≤ traits.max)
    (hsent : ∀ q, 1 ≤ q → q < L.length →
      -(2 : α) ^ 31 <
        (if doDilate then L.getD 0 0 - L.getD q 0 else L.getD q 0 - L.getD 0 0) /
          (2 * (((if useSpacing then image_scale else 1) *
            (if useSpacing then image_scale else 1)) / (2 * Sigma)) * (q : α)) + (q : α) / 2) :
    ∃ out, doOneDimensionLine doDilate traits useSpacing image_scale Sigma CONTACTPOINT L =
        some out ∧
      doOneDimensionLine doDilate traits useSpacing image_scale Sigma INTERSECTION L =
        some out := by
  have hmem : ∀ i, i < L.length → L.getD i 0 ∈ L := by
    intro i hi
    rw [List.getD_eq_getElem _ _ hi]
    exact List.getElem_mem hi
  refine ⟨specLine doDilate (if useSpacing then image_scale else 1) Sigma L, ?_, ?_⟩
  · exact doOneDimensionLine_contactPoint doDilate traits useSpacing image_scale Sigma
      CONTACTPOINT L (by simp [algorithmChoice, CONTACTPOINT, NOCHOICE]) hSigma
      hscale (fun _ i hi => (hrange _ (hmem i hi)).1) (fun _ i hi => (hrange _ (hmem i hi)).2)
  · exact doOneDimensionLine_intersection doDilate traits useSpacing image_scale Sigma
      INTERSECTION L (by simp [algorithmChoice, CONTACTPOINT, NOCHOICE, INTERSECTION]) hL hN
      hSigma hscale hsent

/-- C4, at the line `[0, 3, 0]` in dilation mode, with scale `1/2` and spacing `1`. -/
theorem doOneDimension_algorithms_agree_witness :
    ∃ out, doOneDimensionLine true (⟨-255, 255⟩ : PixelTraits ℚ) true 1 (1 / 2) CONTACTPOINT
        [0, 3, 0] = some out ∧
      doOneDimensionLine true (⟨-255, 255⟩ : PixelTraits ℚ) true 1 (1 / 2) INTERSECTION
        [0, 3, 0] = some out :=
  doOneDimension_algorithms_agree true ⟨-255, 255⟩ true 1 (1 / 2) [0, 3, 0] (by decide)
    (by decide) (by norm_num) (by norm_num)
    (by
      intro x hx
      simp only [List.mem_cons, List.mem_singleton, List.not_mem_nil, or_false] at hx
      rcases hx with h | h | h <;> (subst h; norm_num))
    (by
      intro q hq hlt
      have hlt' : q < 3 := hlt
      interval_cases q <;> norm_num)

/-! ## The combiner and the threshold of the signed distance transform -/

/-- C6. SDT combiner: if `C > 0` and `A + MaxDist ≥ 0` the functor returns the non-negative `r`
with `r^2 = A + MaxDist`; if `C ≤ 0` and `MaxDist - B ≥ 0` it returns the non-positive `r` with
`r^2 = MaxDist - B`; the result does not depend on `B` when `C > 0` nor on `A` when `C ≤ 0`. -/
theorem MorphSDTHelper_spec (m_Val A B C : ℝ) :
    (0 < C → 0 ≤ A + m_Val →
      ∃ r, MorphSDTHelper m_Val A B C = some r ∧ 0 ≤ r ∧ r ^ 2 = A + m_Val) ∧
    (C ≤ 0 → 0 ≤ m_Val - B →
      ∃ r, MorphSDTHelper m_Val A B C = some r ∧ r ≤ 0 ∧ r ^ 2 = m_Val - B) ∧
    (0 < C → ∀ B', MorphSDTHelper m_Val A B' C = MorphSDTHelper m_Val A B C) ∧
    (C ≤ 0 → ∀ A', MorphSDTHelper m_Val A' B C = MorphSDTHelper m_Val A B C) := by
  refine ⟨?_, ?_, ?_, ?_⟩
  · intro hC hA
    refine ⟨Real.sqrt (A + m_Val), ?_, Real.sqrt_nonneg _, Real.sq_sqrt hA⟩
    unfold MorphSDTHelper
    rw [if_pos hC, if_pos hA]
  · intro hC hB
    refine ⟨-Real.sqrt (m_Val - B), ?_, ?_, ?_⟩
    · unfold MorphSDTHelper
      rw [if_neg (not_lt.mpr hC), if_pos hB]
    · have := Real.sqrt_nonneg (m_Val - B)
      linarith
    · rw [neg_sq]
      exact Real.sq_sqrt hB
  · intro hC B'
    unfold MorphSDTHelper
    rw [if_pos hC, if_pos hC]
  · intro hC A'
    unfold MorphSDTHelper
    rw [if_neg (not_lt.mpr hC), if_neg (not_lt.mpr hC)]

/-- C6, at `A = 5`, `B = 7`, `C = 1` and `MaxDist = 4`: the result is the `r ≥ 0` with
`r^2 = 9`. -/
theorem MorphSDTHelper_spec_witness :
    ∃ r, MorphSDTHelper 4 5 7 1 = some r ∧ 0 ≤ r ∧ r ^ 2 = 5 + 4 :=
  (MorphSDTHelper_spec 4 5 7 1).1 (by norm_num) (by norm_num)

/-- C9, as the code has it: the threshold step sets a voxel equal to `OutsideValue` to `+MaxDist`
when `InsideIsPositive` is false and to `-MaxDist` when it is true, and every other voxel to the
opposite value. -/
theorem thresholdStep_values (InsideIsPositive : Bool) (M m_OutsideValue x : α) :
    thresholdStep InsideIsPositive M m_OutsideValue x =
      if x = m_OutsideValue then (if InsideIsPositive then -M else M)
      else (if InsideIsPositive then M else -M) := by
  have hband : (m_OutsideValue ≤ x ∧ x ≤ m_OutsideValue) ↔ x = m_OutsideValue :=
    ⟨fun h => le_antisymm h.2 h.1, fun h => ⟨le_of_eq h.symm, le_of_eq h⟩⟩
  unfold thresholdStep BinaryThreshold
  by_cases hx : x = m_OutsideValue
  · rw [if_pos hx, if_pos (hband.mpr hx), if_pos (hband.mpr hx)]
  · rw [if_neg hx, if_neg (fun h => hx (hband.mp h)), if_neg (fun h => hx (hband.mp h))]

/-- C9 fails as stated: with `InsideIsPositive` false, `MaxDist = 4` and `OutsideValue = 0`, a
voxel equal to `OutsideValue` is set to `+4`, not to `-4`. -/
theorem thresholdStep_outside_not_negative :
    thresholdStep false (4 : ℚ) 0 0 = 4 ∧ thresholdStep false (4 : ℚ) 0 0 ≠ -4 := by
  constructor
  · unfold thresholdStep BinaryThreshold; norm_num
  · unfold thresholdStep BinaryThreshold; norm_num

/-! ## Duality of the separable passes and the flip of the sign -/

theorem doOneDimensionLine_dual (traits : PixelTraits α) (useSpacing : Bool)
    (image_scale Sigma : α) (algorithm : ℤ) (L : List α)
    (hsym : algorithmChoice algorithm Sigma = CONTACTPOINT →
      traits.NonpositiveMin = -traits.max) :
    doOneDimensionLine false traits useSpacing image_scale Sigma algorithm L =
      (doOneDimensionLine true traits useSpacing image_scale Sigma algorithm
        (negLine L)).map negLine := by
  simp only [doOneDimensionLine]
  by_cases hc : algorithmChoice algorithm Sigma = CONTACTPOINT
  · rw [if_pos hc, if_pos hc]
    simp only [Bool.false_eq_true, if_false, if_true, one_mul]
    have h1 : (-1 * (if useSpacing then image_scale else 1) *
        (if useSpacing then image_scale else 1)) / (2 * Sigma) =
        -(((if useSpacing then image_scale else 1) *
          (if useSpacing then image_scale else 1)) / (2 * Sigma)) := by ring
    rw [h1]
    exact DoLineCP_dual traits L _ traits.NonpositiveMin traits.max (hsym hc)
  · rw [if_neg hc, if_neg hc]
    exact DoLineIntAlg_dual L _ _ _ _ _

theorem readLine_dual {D : ℕ} (img img' : Pixels D α) (d : Fin D) (p : Index D)
    (hrel : ∀ q, img q = (img' q).map (fun x => -x)) :
    ∀ n, readLine img d p n = (readLine img' d p n).map negLine := by
  intro n
  induction n with
  | zero => rfl
  | succ n ih =>
    simp only [readLine]
    rw [ih, hrel]
    cases readLine img' d p n with
    | none => rfl
    | some l =>
      cases img' (Function.update p d n) with
      | none => rfl
      | some x => simp [negLine]

theorem doOneDimension_dual {D : ℕ} (traits : PixelTraits α) (cast : α → α)
    (hcast : ∀ x, cast (-x) = -cast x) (img img' : Pixels D α) (n : ℕ) (d : Fin D)
    (useSpacing : Bool) (image_scale Sigma : α) (algorithm : ℤ)
    (hsym : algorithmChoice algorithm Sigma = CONTACTPOINT →
      traits.NonpositiveMin = -traits.max)
    (hrel : ∀ q, img q = (img' q).map (fun x => -x)) (p : Index D) :
    doOneDimension false traits cast img n d useSpacing image_scale Sigma algorithm p =
      (doOneDimension true traits cast img' n d useSpacing image_scale Sigma algorithm p).map
        (fun x => -x) := by
  simp only [doOneDimension]
  rw [readLine_dual img img' d p hrel n]
  cases readLine img' d p n with
  | none => rfl
  | some L =>
    simp only [Option.map_some']
    rw [doOneDimensionLine_dual traits useSpacing image_scale Sigma algorithm (negLine L) hsym,
      negLine_negLine]
    cases doOneDimensionLine true traits useSpacing image_scale Sigma algorithm L with
    | none => rfl
    | some out =>
      simp only [Option.map_some', negLine, List.getElem?_map]
      cases out[p d]? with
      | none => rfl
      | some y => simp [hcast]

theorem foldl_passes_dual {D : ℕ} (traits : PixelTraits α) (cast : α → α)
    (hcast : ∀ x, cast (-x) = -cast x) (size : Fin D → ℕ) (spacing scale : Fin D → α)
    (useSpacing : Bool) (algorithm : ℤ)
    (hsym : ∀ d, algorithmChoice algorithm (scale d) = CONTACTPOINT →
      traits.NonpositiveMin = -traits.max) :
    ∀ (ds : List (Fin D)) (img img' : Pixels D α),
      (∀ q, img q = (img' q).map (fun x => -x)) →
      ∀ p, ds.foldl (fun img d =>
          if 0 < scale d then
            doOneDimension false traits cast img (size d) d useSpacing (spacing d) (scale d)
              algorithm
          else img) img p =
        (ds.foldl (fun img d =>
          if 0 < scale d then
            doOneDimension true traits cast img (size d) d useSpacing (spacing d) (scale d)
              algorithm
          else img) img' p).map (fun x => -x) := by
  intro ds
  induction ds with
  | nil => intro img img' hrel p; exact hrel p
  | cons d ds ih =>
    intro img img' hrel p
    simp only [List.foldl_cons]
    apply ih
    intro q
    by_cases hs : 0 < scale d
    · rw [if_pos hs, if_pos hs]
      exact doOneDimension_dual traits cast hcast img img' (size d) d useSpacing (spacing d)
        (scale d) algorithm (hsym d) hrel q
    · rw [if_neg hs, if_neg hs]
      exact hrel q

theorem SeparableParabolic_dual {D : ℕ} (traits : PixelTraits α) (cast : α → α)
    (hcast : ∀ x, cast (-x) = -cast x) (size : Fin D → ℕ) (spacing scale : Fin D → α)
    (useSpacing : Bool) (algorithm : ℤ)
    (hsym : ∀ d, algorithmChoice algorithm (scale d) = CONTACTPOINT →
      traits.NonpositiveMin = -traits.max)
    (T : Index D → α) (p : Index D) :
    SeparableParabolic false traits cast size spacing scale useSpacing algorithm
        (fun q => -T q) p =
      (SeparableParabolic true traits cast size spacing scale useSpacing algorithm T p).map
        (fun x => -x) := by
  unfold SeparableParabolic
  exact foldl_passes_dual traits cast hcast size spacing scale useSpacing algorithm hsym
    (List.finRange D) (fun q => some (-T q)) (fun q => some (T q)) (fun q => rfl) p

theorem SeparableParabolic_dual' {D : ℕ} (traits : PixelTraits α) (cast : α → α)
    (hcast : ∀ x, cast (-x) = -cast x) (size : Fin D → ℕ) (spacing scale : Fin D → α)
    (useSpacing : Bool) (algorithm : ℤ)
    (hsym : ∀ d, algorithmChoice algorithm (scale d) = CONTACTPOINT →
      traits.NonpositiveMin = -traits.max)
    (T : Index D → α) (p : Index D) :
    SeparableParabolic true traits cast size spacing scale useSpacing algorithm
        (fun q => -T q) p =
      (SeparableParabolic false traits cast size spacing scale useSpacing algorithm T p).map
        (fun x => -x) := by
  have h := SeparableParabolic_dual traits cast hcast size spacing scale useSpacing algorithm
    hsym (fun q => -T q) p
  simp only [neg_neg] at h
  rw [h, Option.map_map]
  have : ((fun x : α => -x) ∘ fun x => -x) = id := by
    funext x; simp
  rw [this, Option.map_id]
  rfl

theorem thresholdStep_apply (InsideIsPositive : Bool) (M m_OutsideValue x : α) :
    thresholdStep InsideIsPositive M m_OutsideValue x =
      if x = m_OutsideValue then (if InsideIsPositive then -M else M)
      else (if InsideIsPositive then M else -M) := by
  have hband : (m_OutsideValue ≤ x ∧ x ≤ m_OutsideValue) ↔ x = m_OutsideValue :=
    ⟨fun h => le_antisymm h.2 h.1, fun h => ⟨le_of_eq h.symm, le_of_eq h⟩⟩
  unfold thresholdStep BinaryThreshold
  simp only [hband]
  cases InsideIsPositive <;> simp

theorem thresholdStep_true_eq_neg (M m_OutsideValue x : α) :
    thresholdStep true M m_OutsideValue x = -thresholdStep false M m_OutsideValue x := by
  rw [thresholdStep_apply, thresholdStep_apply]
  by_cases hx : x = m_OutsideValue
  · simp [hx]
  · simp [hx]

theorem thresholdStep_ne_zero (InsideIsPositive : Bool) (M m_OutsideValue x : α) (hM : 0 < M) :
    thresholdStep InsideIsPositive M m_OutsideValue x ≠ 0 := by
  rw [thresholdStep_apply]
  have h1 : M ≠ 0 := ne_of_gt hM
  have h2 : -M ≠ 0 := neg_ne_zero.mpr h1
  by_cases hx : x = m_OutsideValue <;> cases InsideIsPositive <;> simp [hx, h1]

theorem algorithmChoice_half (algorithm : ℤ) :
    algorithmChoice algorithm (0.5 : ℝ) = CONTACTPOINT ↔ algorithm = CONTACTPOINT := by
  unfold algorithmChoice
  by_cases h : algorithm = NOCHOICE
  · rw [if_pos h]
    have h1 : ¬ (2 * (0.5 : ℝ) < 0.2) := by norm_num
    rw [if_neg h1]
    subst h
    constructor <;> intro h2 <;> exact absurd h2 (by decide)
  · rw [if_neg h]

theorem MorphSDTHelper_neg (M A B T : ℝ) (hT : T ≠ 0) :
    MorphSDTHelper M (-B) (-A) (-T) = (MorphSDTHelper M A B T).map (fun x => -x) := by
  unfold MorphSDTHelper
  have h1 : M - -A = A + M := by ring
  have h2 : -B + M = M - B := by ring
  rw [h1, h2]
  rcases lt_or_gt_of_ne hT with h | h
  · have h3 : -T > 0 := by linarith
    have h4 : ¬ T > 0 := by intro h'; linarith
    rw [if_pos h3, if_neg h4]
    by_cases h5 : 0 ≤ M - B
    · rw [if_pos h5, if_pos h5]; simp
    · rw [if_neg h5, if_neg h5]; rfl
  · have h3 : ¬ -T > 0 := by intro h'; linarith
    rw [if_neg h3, if_pos h]
    by_cases h5 : 0 ≤ A + M
    · rw [if_pos h5, if_pos h5]; rfl
    · rw [if_neg h5, if_neg h5]; rfl

/-- C10. `InsideIsPositive` flips the sign globally: for every image with `MaxDist > 0` and every
voxel `p`, the output of the pipeline with `InsideIsPositive = true` is the negation of the
output with `InsideIsPositive = false` (and one is undefined exactly when the other is), all
other parameters equal; with the contact point algorithm the pixel type is one whose lowest
value is the negation of its highest, as for the real pixel types. -/
theorem GenerateData_InsideIsPositive_flip {D : ℕ} (traits : PixelTraits ℝ) (sz : Fin D → ℕ)
    (sp : Fin D → ℝ) (m_OutsideValue : ℝ) (UseImageSpacing : Bool) (m_ParabolicAlgorithm : ℤ)
    (input : Index D → ℝ) (p : Index D)
    (hM : 0 < MaxDist sz sp UseImageSpacing)
    (hsym : m_ParabolicAlgorithm = CONTACTPOINT → traits.NonpositiveMin = -traits.max) :
    GenerateData traits sz sp m_OutsideValue true UseImageSpacing m_ParabolicAlgorithm input p =
      (GenerateData traits sz sp m_OutsideValue false UseImageSpacing m_ParabolicAlgorithm
        input p).map (fun x => -x) := by
  have hsym' : ∀ d : Fin D, algorithmChoice m_ParabolicAlgorithm
      ((fun _ => (0.5 : ℝ)) d) = CONTACTPOINT → traits.NonpositiveMin = -traits.max :=
    fun _ h => hsym ((algorithmChoice_half _).mp h)
  have hT : (fun q => thresholdStep true (MaxDist sz sp UseImageSpacing) m_OutsideValue
      (input q)) =
      fun q => -thresholdStep false (MaxDist sz sp UseImageSpacing) m_OutsideValue (input q) :=
    funext fun q => thresholdStep_true_eq_neg _ _ _
  have hid : ∀ x : ℝ, id (-x) = -id x := fun _ => rfl
  simp only [GenerateData]
  rw [hT, SeparableParabolic_dual traits id hid sz sp _ UseImageSpacing m_ParabolicAlgorithm
    hsym', SeparableParabolic_dual' traits id hid sz sp _ UseImageSpacing m_ParabolicAlgorithm
    hsym']
  cases SeparableParabolic false traits id sz sp (fun _ => (0.5 : ℝ)) UseImageSpacing
      m_ParabolicAlgorithm
      (fun q => thresholdStep false (MaxDist sz sp UseImageSpacing) m_OutsideValue (input q))
      p with
  | none =>
    cases SeparableParabolic true traits id sz sp (fun _ => (0.5 : ℝ)) UseImageSpacing
      m_ParabolicAlgorithm
      (fun q => thresholdStep false (MaxDist sz sp UseImageSpacing) m_OutsideValue (input q))
      p <;> rfl
  | some A =>
    cases SeparableParabolic true traits id sz sp (fun _ => (0.5 : ℝ)) UseImageSpacing
      m_ParabolicAlgorithm
      (fun q => thresholdStep false (MaxDist sz sp UseImageSpacing) m_OutsideValue (input q))
      p with
    | none => rfl
    | some B =>
      simp only [Option.map_some']
      rw [thresholdStep_true_eq_neg]
      exact MorphSDTHelper_neg _ A B _ (thresholdStep_ne_zero false _ _ _ hM)

/-! ## The separable passes follow the specification -/

theorem parabolicErosion_le_self (L : List α) (m : α) (p : ℕ) (hp : p < L.length) :
    parabolicErosion L m p ≤ L.getD p 0 := by
  have h := minUpTo_le (fun q => L.getD q 0 + m * ((p : α) - (q : α)) ^ 2) (L.length - 1) p
    (by omega)
  simpa [parabolicErosion] using h

theorem le_parabolicErosion (L : List α) (m : α) (hm : 0 ≤ m) (p : ℕ) (c : α) (hL : 0 < L.length)
    (hc : ∀ i, i < L.length → c ≤ L.getD i 0) : c ≤ parabolicErosion L m p := by
  obtain ⟨j, hj, hjeq⟩ :=
    minUpTo_mem (fun q => L.getD q 0 + m * ((p : α) - (q : α)) ^ 2) (L.length - 1)
  unfold parabolicErosion
  rw [hjeq]
  have h1 := hc j (by omega)
  have h2 : 0 ≤ m * ((p : α) - (j : α)) ^ 2 := mul_nonneg hm (sq_nonneg _)
  show c ≤ L.getD j 0 + m * ((p : α) - (j : α)) ^ 2
  linarith

theorem self_le_parabolicDilation (L : List α) (m : α) (p : ℕ) (hp : p < L.length) :
    L.getD p 0 ≤ parabolicDilation L m p := by
  rw [parabolicDilation_eq_neg]
  have h := parabolicErosion_le_self (negLine L) m p (by rw [length_negLine]; exact hp)
  rw [getD_negLine] at h
  linarith

theorem parabolicDilation_le (L : List α) (m : α) (hm : 0 ≤ m) (p : ℕ) (c : α)
    (hL : 0 < L.length) (hc : ∀ i, i < L.length → L.getD i 0 ≤ c) :
    parabolicDilation L m p ≤ c := by
  rw [parabolicDilation_eq_neg]
  have h := le_parabolicErosion (negLine L) m hm p (-c) (by rw [length_negLine]; exact hL) (by
    intro i hi
    rw [length_negLine] at hi
    rw [getD_negLine]
    exact neg_le_neg (hc i hi))
  linarith

theorem sentinel_of_bounds (M m x : α) (q : ℕ) (hq : 1 ≤ q) (hm : 0 < m)
    (hM : M < 2 ^ 31 * m) (hx : -(2 * M) ≤ x) :
    -(2 : α) ^ 31 < x / (2 * m * (q : α)) + (q : α) / 2 := by
  have hq1 : (1 : α) ≤ (q : α) := by exact_mod_cast hq
  have hpos : (0 : α) < 2 * m * (q : α) := by positivity
  have h1 : (2 : α) ^ 31 * m ≤ 2 ^ 31 * m * (q : α) := by
    have h2 : (0 : α) ≤ 2 ^ 31 * m := by positivity
    nlinarith
  have h3 : -(2 : α) ^ 31 ≤ x / (2 * m * (q : α)) := by
    rw [le_div_iff₀ hpos]
    nlinarith
  have h4 : (0 : α) < (q : α) / 2 := by positivity
  linarith

theorem length_lineOf {D : ℕ} (img : Index D → α) (d : Fin D) (p : Index D) (n : ℕ) :
    (lineOf img d p n).length = n := by
  simp [lineOf]

theorem getD_lineOf {D : ℕ} (img : Index D → α) (d : Fin D) (p : Index D) (n i : ℕ)
    (hi : i < n) : (lineOf img d p n).getD i 0 = img (Function.update p d i) := by
  have hlen : i < (lineOf img d p n).length := by rw [length_lineOf]; exact hi
  rw [List.getD_eq_getElem _ _ hlen]
  simp [lineOf]

theorem readLine_some {D : ℕ} (input : Pixels D α) (g : Index D → α) (d : Fin D)
    (p : Index D) :
    ∀ n, (∀ i, i < n → input (Function.update p d i) = some (g (Function.update p d i))) →
      readLine input d p n = some (lineOf g d p n) := by
  intro n
  induction n with
  | zero => intro _; rfl
  | succ n ih =>
    intro h
    simp only [readLine]
    rw [ih (fun i hi => h i (by omega)), h n (by omega)]
    simp [lineOf, List.range_succ]

theorem getElem?_specLine (doDilate : Bool) (iscale Sigma : α) (L : List α) (i : ℕ)
    (hi : i < L.length) :
    (specLine doDilate iscale Sigma L)[i]? =
      some (if doDilate then parabolicDilation L ((iscale * iscale) / (2 * Sigma)) i
        else parabolicErosion L ((iscale * iscale) / (2 * Sigma)) i) := by
  cases doDilate with
  | true => simp [specLine, dilatedLine, List.getElem?_range, hi]
  | false => simp [specLine, erodedLine, List.getElem?_range, hi]

theorem inRegion_update {D : ℕ} (size : Fin D → ℕ) (p : Index D) (d : Fin D) (i : ℕ)
    (hp : InRegion size p) (hi : i < size d) : InRegion size (Function.update p d i) := by
  intro e
  by_cases h : e = d
  · subst h; simpa using hi
  · rw [Function.update_noteq h]; exact hp e

theorem specPass_bounds {D : ℕ} (doDilate : Bool) (size : Fin D → ℕ) (d : Fin D) (m M : α)
    (hm : 0 ≤ m) (g : Index D → α)
    (hb : ∀ p, InRegion size p → -M ≤ g p ∧ g p ≤ M) (p : Index D) (hp : InRegion size p) :
    -M ≤ specPass doDilate (size d) d m g p ∧ specPass doDilate (size d) d m g p ≤ M := by
  have hlen : (lineOf g d p (size d)).length = size d := length_lineOf _ _ _ _
  have hpd : p d < (lineOf g d p (size d)).length := by rw [hlen]; exact hp d
  have hLb : ∀ i, i < (lineOf g d p (size d)).length →
      -M ≤ (lineOf g d p (size d)).getD i 0 ∧ (lineOf g d p (size d)).getD i 0 ≤ M := by
    intro i hi
    rw [hlen] at hi
    rw [getD_lineOf g d p _ i hi]
    exact hb _ (inRegion_update size p d i hp hi)
  have hself : (lineOf g d p (size d)).getD (p d) 0 = g p := by
    rw [getD_lineOf g d p _ (p d) (hp d), Function.update_eq_self]
  unfold specPass
  cases doDilate with
  | true =>
    simp only [if_true]
    constructor
    · refine le_trans ?_ (self_le_parabolicDilation _ m (p d) hpd)
      rw [hself]; exact (hb p hp).1
    · exact parabolicDilation_le _ m hm (p d) M (by omega) (fun i hi => (hLb i hi).2)
  | false =>
    simp only [Bool.false_eq_true, if_false]
    constructor
    · exact le_parabolicErosion _ m hm (p d) (-M) (by omega) (fun i hi => (hLb i hi).1)
    · refine le_trans (parabolicErosion_le_self _ m (p d) hpd) ?_
      rw [hself]; exact (hb p hp).2

theorem pass_spec {D : ℕ} (doDilate : Bool) (traits : PixelTraits α) (size : Fin D → ℕ)
    (spacing scale : Fin D → α) (useSpacing : Bool) (algorithm : ℤ) (M : α) (d : Fin D)
    (hscale : 0 < scale d) (hsp : 0 < spacing d)
    (hcp : algorithmChoice algorithm (scale d) = CONTACTPOINT →
      traits.NonpositiveMin ≤ -M ∧ M ≤ traits.max)
    (hint : algorithmChoice algorithm (scale d) ≠ CONTACTPOINT →
      size d ≤ 2 ^ 31 ∧ M < 2 ^ 31 * curvature useSpacing spacing scale d)
    (img : Pixels D α) (g : Index D → α)
    (hag : ∀ p, InRegion size p → img p = some (g p))
    (hb : ∀ p, InRegion size p → -M ≤ g p ∧ g p ≤ M) (p : Index D) (hp : InRegion size p) :
    doOneDimension doDilate traits id img (size d) d useSpacing (spacing d) (scale d)
        algorithm p =
      some (specPass doDilate (size d) d (curvature useSpacing spacing scale d) g p) := by
  have hlen : (lineOf g d p (size d)).length = size d := length_lineOf _ _ _ _
  have hpd : p d < (lineOf g d p (size d)).length := by rw [hlen]; exact hp d
  have hLb : ∀ i, i < (lineOf g d p (size d)).length →
      -M ≤ (lineOf g d p (size d)).getD i 0 ∧ (lineOf g d p (size d)).getD i 0 ≤ M := by
    intro i hi
    rw [hlen] at hi
    rw [getD_lineOf g d p _ i hi]
    exact hb _ (inRegion_update size p d i hp hi)
  have hread : readLine img d p (size d) = some (lineOf g d p (size d)) :=
    readLine_some img g d p (size d) (fun i hi => hag _ (inRegion_update size p d i hp hi))
  have hi : (0 : α) < (if useSpacing then spacing d else 1) := by
    split
    · exact hsp
    · exact one_pos
  have hm : (0 : α) < curvature useSpacing spacing scale d :=
    div_pos (mul_pos hi hi) (by linarith)
  have hline : doOneDimensionLine doDilate traits useSpacing (spacing d) (scale d) algorithm
      (lineOf g d p (size d)) =
      some (specLine doDilate (if useSpacing then spacing d else 1) (scale d)
        (lineOf g d p (size d))) := by
    by_cases hc : algorithmChoice algorithm (scale d) = CONTACTPOINT
    · exact doOneDimensionLine_contactPoint doDilate traits useSpacing (spacing d) (scale d)
        algorithm _ hc hscale hsp
        (fun _ i hi => le_trans (hcp hc).1 (hLb i hi).1)
        (fun _ i hi => le_trans (hLb i hi).2 (hcp hc).2)
    · have hL : lineOf g d p (size d) ≠ [] := by
        intro h
        rw [h] at hpd
        exact absurd hpd (Nat.not_lt_zero _)
      refine doOneDimensionLine_intersection doDilate traits useSpacing (spacing d) (scale d)
        algorithm _ hc hL (by rw [hlen]; exact (hint hc).1) hscale hsp ?_
      intro q hq hqN
      refine sentinel_of_bounds M _ _ q hq hm (hint hc).2 ?_
      have h0 := hLb 0 (by omega)
      have hq' := hLb q hqN
      split <;> linarith [h0.1, h0.2, hq'.1, hq'.2]
  simp only [doOneDimension]
  rw [hread]
  simp only
  rw [hline]
  simp only
  rw [getElem?_specLine doDilate _ _ _ (p d) hpd]
  rfl

theorem foldl_passes_spec {D : ℕ} (doDilate : Bool) (traits : PixelTraits α)
    (size : Fin D → ℕ) (spacing scale : Fin D → α) (useSpacing : Bool) (algorithm : ℤ) (M : α)
    (hscale : ∀ d, 0 < scale d) (hsp : ∀ d, 0 < spacing d)
    (hcp : ∀ d, algorithmChoice algorithm (scale d) = CONTACTPOINT →
      traits.NonpositiveMin ≤ -M ∧ M ≤ traits.max)
    (hint : ∀ d, algorithmChoice algorithm (scale d) ≠ CONTACTPOINT →
      size d ≤ 2 ^ 31 ∧ M < 2 ^ 31 * curvature useSpacing spacing scale d) :
    ∀ (ds : List (Fin D)) (img : Pixels D α) (g : Index D → α),
      (∀ p, InRegion size p → img p = some (g p)) →
      (∀ p, InRegion size p → -M ≤ g p ∧ g p ≤ M) →
      (∀ p, InRegion size p →
        ds.foldl (fun img d =>
          if 0 < scale d then
            doOneDimension doDilate traits id img (size d) d useSpacing (spacing d) (scale d)
              algorithm
          else img) img p =
        some (specFold doDilate size (curvature useSpacing spacing scale) ds g p)) ∧
      (∀ p, InRegion size p →
        -M ≤ specFold doDilate size (curvature useSpacing spacing scale) ds g p ∧
        specFold doDilate size (curvature useSpacing spacing scale) ds g p ≤ M) := by
  intro ds
  induction ds with
  | nil =>
    intro img g hag hb
    exact ⟨hag, hb⟩
  | cons d ds ih =>
    intro img g hag hb
    have hi : (0 : α) < (if useSpacing then spacing d else 1) := by
      split
      · exact hsp d
      · exact one_pos
    have hm : (0 : α) < curvature useSpacing spacing scale d :=
      div_pos (mul_pos hi hi) (by linarith [hscale d])
    simp only [List.foldl_cons, specFold, if_pos (hscale d)]
    exact ih _ _
      (fun p hp => pass_spec doDilate traits size spacing scale useSpacing algorithm M d
        (hscale d) (hsp d) (hcp d) (hint d) img g hag hb p hp)
      (fun p hp => specPass_bounds doDilate size d _ M (le_of_lt hm) g hb p hp)

/-! ## Closed form of the separable erosion and dilation -/

theorem cost_cons {D : ℕ} (m : Fin D → α) (e : Fin D) (ds : List (Fin D)) (p q : Index D) :
    cost m (e :: ds) p q = m e * ((p e : α) - (q e : α)) ^ 2 + cost m ds p q := by
  simp [cost]

theorem cost_congr {D : ℕ} (m : Fin D → α) (ds : List (Fin D)) (p p' q q' : Index D)
    (hp : ∀ d, d ∈ ds → p d = p' d) (hq : ∀ d, d ∈ ds → q d = q' d) :
    cost m ds p q = cost m ds p' q' := by
  unfold cost
  congr 1
  apply List.map_congr_left
  intro d hd
  rw [hp d hd, hq d hd]

theorem parabolicErosion_lineOf_le {D : ℕ} (T : Index D → α) (e : Fin D) (q : Index D)
    (n : ℕ) (m : α) (x j : ℕ) (hj : j < n) :
    parabolicErosion (lineOf T e q n) m x ≤
      T (Function.update q e j) + m * ((x : α) - (j : α)) ^ 2 := by
  have h := minUpTo_le (fun i => (lineOf T e q n).getD i 0 + m * ((x : α) - (i : α)) ^ 2)
    ((lineOf T e q n).length - 1) j (by rw [length_lineOf]; omega)
  simp only [getD_lineOf T e q n j hj] at h
  exact h

theorem parabolicErosion_lineOf_mem {D : ℕ} (T : Index D → α) (e : Fin D) (q : Index D)
    (n : ℕ) (m : α) (x : ℕ) (hn : 0 < n) :
    ∃ j, j < n ∧ parabolicErosion (lineOf T e q n) m x =
      T (Function.update q e j) + m * ((x : α) - (j : α)) ^ 2 := by
  obtain ⟨j, hj, hjeq⟩ :=
    minUpTo_mem (fun i => (lineOf T e q n).getD i 0 + m * ((x : α) - (i : α)) ^ 2)
      ((lineOf T e q n).length - 1)
  rw [length_lineOf] at hj
  have hj' : j < n := by omega
  refine ⟨j, hj', ?_⟩
  unfold parabolicErosion
  rw [hjeq]
  simp only [getD_lineOf T e q n j hj']

theorem specFold_erode_isLeast {D : ℕ} (size : Fin D → ℕ) (m : Fin D → α) :
    ∀ (ds : List (Fin D)), ds.Nodup → ∀ (T : Index D → α) (p : Index D), InRegion size p →
      IsLeast {y | ∃ q, InRegion size q ∧ (∀ d, d ∉ ds → q d = p d) ∧ y = T q + cost m ds p q}
        (specFold false size m ds T p) := by
  intro ds
  induction ds with
  | nil =>
    intro _ T p hp
    constructor
    · exact ⟨p, hp, fun _ _ => rfl, by simp [specFold, cost]⟩
    · rintro y ⟨q, _, hq, rfl⟩
      have hqp : q = p := funext fun d => hq d (List.not_mem_nil d)
      subst hqp
      simp [specFold, cost]
  | cons e ds ih =>
    intro hnd T p hp
    have he : e ∉ ds := (List.nodup_cons.mp hnd).1
    have hds : ds.Nodup := (List.nodup_cons.mp hnd).2
    have hfold : specFold false size m (e :: ds) T p =
        specFold false size m ds (specPass false (size e) e (m e) T) p := rfl
    rw [hfold]
    obtain ⟨⟨q', hq'R, hq'agree, hq'val⟩, hlb⟩ :=
      ih hds (specPass false (size e) e (m e) T) p hp
    constructor
    · obtain ⟨j, hj, hjeq⟩ := parabolicErosion_lineOf_mem T e q' (size e) (m e) (q' e)
        (lt_of_le_of_lt (Nat.zero_le _) (hq'R e))
      refine ⟨Function.update q' e j, inRegion_update size q' e j hq'R hj, ?_, ?_⟩
      · intro d hd
        have hde : d ≠ e := fun h => hd (h ▸ List.mem_cons_self _ _)
        have hdds : d ∉ ds := fun h => hd (List.mem_cons_of_mem _ h)
        rw [Function.update_noteq hde]
        exact hq'agree d hdds
      · rw [hq'val, cost_cons]
        have h1 : specPass false (size e) e (m e) T q' =
            parabolicErosion (lineOf T e q' (size e)) (m e) (q' e) := by
          simp [specPass]
        rw [h1, hjeq, Function.update_same, ← hq'agree e he]
        have h2 : cost m ds p (Function.update q' e j) = cost m ds p q' :=
          cost_congr m ds p p _ _ (fun _ _ => rfl) (fun d hd => by
            have hde : d ≠ e := fun h => he (h ▸ hd)
            rw [Function.update_noteq hde])
        rw [h2]
        ring
    · rintro y ⟨q, hqR, hqagree, rfl⟩
      have hq'R2 : InRegion size (Function.update q e (p e)) :=
        inRegion_update size q e (p e) hqR (hp e)
      have hmem : specPass false (size e) e (m e) T (Function.update q e (p e)) +
          cost m ds p (Function.update q e (p e)) ∈
          {y | ∃ q, InRegion size q ∧ (∀ d, d ∉ ds → q d = p d) ∧
            y = specPass false (size e) e (m e) T q + cost m ds p q} := by
        refine ⟨Function.update q e (p e), hq'R2, ?_, rfl⟩
        intro d hd
        by_cases hde : d = e
        · subst hde; simp
        · rw [Function.update_noteq hde]
          apply hqagree d
          intro h
          rcases List.mem_cons.mp h with h | h
          · exact hde h
          · exact hd h
      refine le_trans (hlb hmem) ?_
      have h1 : specPass false (size e) e (m e) T (Function.update q e (p e)) =
          parabolicErosion (lineOf T e (Function.update q e (p e)) (size e)) (m e) (p e) := by
        simp [specPass]
      have h2 := parabolicErosion_lineOf_le T e (Function.update q e (p e)) (size e) (m e)
        (p e) (q e) (hqR e)
      rw [Function.update_idem, Function.update_eq_self] at h2
      have h3 : cost m ds p (Function.update q e (p e)) = cost m ds p q :=
        cost_congr m ds p p _ _ (fun _ _ => rfl) (fun d hd => by
          have hde : d ≠ e := fun h => he (h ▸ hd)
          rw [Function.update_noteq hde])
      rw [h1, h3, cost_cons]
      linarith

theorem lineOf_neg {D : ℕ} (T : Index D → α) (d : Fin D) (p : Index D) (n : ℕ) :
    lineOf (fun q => -T q) d p n = negLine (lineOf T d p n) := by
  simp [lineOf, negLine]

theorem specPass_dilate_eq_neg {D : ℕ} (n : ℕ) (d : Fin D) (m : α) (T : Index D → α) :
    specPass true n d m T = fun p => -specPass false n d m (fun q => -T q) p := by
  funext p
  simp only [specPass, if_true, Bool.false_eq_true, if_false]
  rw [parabolicDilation_eq_neg, lineOf_neg]

theorem specFold_dilate_eq_neg {D : ℕ} (size : Fin D → ℕ) (m : Fin D → α) :
    ∀ (ds : List (Fin D)) (T : Index D → α) (p : Index D),
      specFold true size m ds T p = -specFold false size m ds (fun q => -T q) p := by
  intro ds
  induction ds with
  | nil => intro T p; simp [specFold]
  | cons e ds ih =>
    intro T p
    have h1 : specFold true size m (e :: ds) T p =
        specFold true size m ds (specPass true (size e) e (m e) T) p := rfl
    have h2 : specFold false size m (e :: ds) (fun q => -T q) p =
        specFold false size m ds (specPass false (size e) e (m e) (fun q => -T q)) p := rfl
    rw [h1, h2, ih, specPass_dilate_eq_neg]
    simp only [neg_neg]

/-! ## The radicands of the signed distance transform -/

theorem curvature_half {D : ℕ} (useSpacing : Bool) (sp : Fin D → ℝ) (d : Fin D) :
    curvature useSpacing sp (fun _ => (0.5 : ℝ)) d = (if useSpacing then sp d else 1) ^ 2 := by
  unfold curvature
  have h : (2 : ℝ) * 0.5 = 1 := by norm_num
  rw [h, div_one]
  ring

theorem cost_eq_sqDist {D : ℕ} (useSpacing : Bool) (sp : Fin D → ℝ) (p q : Index D) :
    cost (curvature useSpacing sp (fun _ => (0.5 : ℝ))) (List.finRange D) p q =
      sqDist useSpacing sp p q := by
  unfold cost sqDist
  congr 1
  apply List.map_congr_left
  intro d _
  rw [curvature_half]
  ring

theorem MaxDist_eq {D : ℕ} (sz : Fin D → ℕ) (sp : Fin D → ℝ) (useSpacing : Bool) :
    MaxDist sz sp useSpacing =
      ((List.finRange D).map
        (fun d => ((sz d : ℝ) * (if useSpacing then sp d else 1)) ^ 2)).sum := by
  unfold MaxDist
  cases useSpacing with
  | true =>
    simp only [if_true]
    congr 1
    apply List.map_congr_left
    intro d _
    ring
  | false =>
    simp only [Bool.false_eq_true, if_false]
    congr 1
    apply List.map_congr_left
    intro d _
    ring

theorem sqDist_nonneg {D : ℕ} (useSpacing : Bool) (sp : Fin D → ℝ) (p q : Index D) :
    0 ≤ sqDist useSpacing sp p q := by
  unfold sqDist
  apply List.sum_nonneg
  intro x hx
  rw [List.mem_map] at hx
  obtain ⟨d, _, rfl⟩ := hx
  exact sq_nonneg _

theorem sqDist_le_MaxDist {D : ℕ} (sz : Fin D → ℕ) (sp : Fin D → ℝ) (useSpacing : Bool)
    (p q : Index D) (hp : InRegion sz p) (hq : InRegion sz q) :
    sqDist useSpacing sp p q ≤ MaxDist sz sp useSpacing := by
  rw [MaxDist_eq]
  unfold sqDist
  apply List.sum_le_sum
  intro d _
  have h1 : (p d : ℝ) < (sz d : ℝ) := by exact_mod_cast hp d
  have h2 : (q d : ℝ) < (sz d : ℝ) := by exact_mod_cast hq d
  have h3 : (0 : ℝ) ≤ (p d : ℝ) := Nat.cast_nonneg _
  have h4 : (0 : ℝ) ≤ (q d : ℝ) := Nat.cast_nonneg _
  have h5 : ((p d : ℝ) - (q d : ℝ)) ^ 2 ≤ (sz d : ℝ) ^ 2 := by nlinarith
  have h6 : (0 : ℝ) ≤ (if useSpacing then sp d else 1) ^ 2 := sq_nonneg _
  calc ((if useSpacing then sp d else 1) * ((p d : ℝ) - (q d : ℝ))) ^ 2
      = (if useSpacing then sp d else 1) ^ 2 * ((p d : ℝ) - (q d : ℝ)) ^ 2 := by ring
    _ ≤ (if useSpacing then sp d else 1) ^ 2 * (sz d : ℝ) ^ 2 :=
        mul_le_mul_of_nonneg_left h5 h6
    _ = ((sz d : ℝ) * (if useSpacing then sp d else 1)) ^ 2 := by ring

theorem sqDist_pos {D : ℕ} (useSpacing : Bool) (sp : Fin D → ℝ) (hsp : ∀ d, 0 < sp d)
    (p q : Index D) (hpq : p ≠ q) : 0 < sqDist useSpacing sp p q := by
  obtain ⟨d, hd⟩ := Function.ne_iff.mp hpq
  have hw : (0 : ℝ) < (if useSpacing then sp d else 1) := by
    split
    · exact hsp d
    · exact one_pos
  have hne : (p d : ℝ) - (q d : ℝ) ≠ 0 := by
    intro h
    apply hd
    have : (p d : ℝ) = (q d : ℝ) := by linarith
    exact_mod_cast this
  have hterm : 0 < ((if useSpacing then sp d else 1) * ((p d : ℝ) - (q d : ℝ))) ^ 2 :=
    lt_of_le_of_ne (sq_nonneg _) (Ne.symm (pow_ne_zero 2 (mul_ne_zero (ne_of_gt hw) hne)))
  refine lt_of_lt_of_le hterm ?_
  unfold sqDist
  apply List.single_le_sum
  · intro x hx
    rw [List.mem_map] at hx
    obtain ⟨e, _, rfl⟩ := hx
    exact sq_nonneg _
  · exact List.mem_map.mpr ⟨d, List.mem_finRange d, rfl⟩

theorem size_le_of_MaxDist_lt {D : ℕ} (sz : Fin D → ℕ) (sp : Fin D → ℝ) (useSpacing : Bool)
    (hsp : ∀ d, 0 < sp d) (d : Fin D)
    (h : MaxDist sz sp useSpacing < 2 ^ 31 * (if useSpacing then sp d else 1) ^ 2) :
    sz d ≤ 2 ^ 31 := by
  have hw : (0 : ℝ) < (if useSpacing then sp d else 1) := by
    split
    · exact hsp d
    · exact one_pos
  have hterm : ((sz d : ℝ) * (if useSpacing then sp d else 1)) ^ 2 ≤
      MaxDist sz sp useSpacing := by
    rw [MaxDist_eq]
    apply List.single_le_sum
    · intro x hx
      rw [List.mem_map] at hx
      obtain ⟨e, _, rfl⟩ := hx
      exact sq_nonneg _
    · exact List.mem_map.mpr ⟨d, List.mem_finRange d, rfl⟩
  by_contra hcon
  push_neg at hcon
  have h1 : (2 : ℝ) ^ 31 < (sz d : ℝ) := by exact_mod_cast hcon
  have h2 : (0 : ℝ) < (if useSpacing then sp d else 1) ^ 2 := by positivity
  have h3 : (2 : ℝ) ^ 31 * (if useSpacing then sp d else 1) ^ 2 <
      ((sz d : ℝ) * (if useSpacing then sp d else 1)) ^ 2 := by
    have h4 : (2 : ℝ) ^ 31 < (sz d : ℝ) ^ 2 := by nlinarith
    calc (2 : ℝ) ^ 31 * (if useSpacing then sp d else 1) ^ 2
        < (sz d : ℝ) ^ 2 * (if useSpacing then sp d else 1) ^ 2 :=
          mul_lt_mul_of_pos_right h4 h2
      _ = ((sz d : ℝ) * (if useSpacing then sp d else 1)) ^ 2 := by ring
  linarith

theorem shifted_isLeast {D : ℕ} (size : Fin D → ℕ) (T dist : Index D → α) (M E : α)
    (hM : 0 < M) (hT : ∀ q, InRegion size q → T q = M ∨ T q = -M)
    (hdist0 : ∀ q, 0 ≤ dist q) (hdist : ∀ q, InRegion size q → dist q ≤ M)
    (q0 : Index D) (hq0 : InRegion size q0) (hTq0 : T q0 = -M)
    (hE : IsLeast {y | ∃ q, InRegion size q ∧ y = T q + dist q} E) :
    IsLeast {y | ∃ q, InRegion size q ∧ T q = -M ∧ y = dist q} (E + M) := by
  obtain ⟨⟨qs, hqs, hval⟩, hlb⟩ := hE
  have hE0 : E ≤ 0 := by
    have h1 : E ≤ T q0 + dist q0 := hlb ⟨q0, hq0, rfl⟩
    have h2 := hdist q0 hq0
    rw [hTq0] at h1
    linarith
  constructor
  · rcases hT qs hqs with h | h
    · exfalso
      have := hdist0 qs
      rw [h] at hval
      linarith
    · exact ⟨qs, hqs, h, by rw [hval, h]; ring⟩
  · rintro y ⟨q, hq, hTq, rfl⟩
    have h1 : E ≤ T q + dist q := hlb ⟨q, hq, rfl⟩
    rw [hTq] at h1
    linarith

theorem SeparableParabolic_half_spec {D : ℕ} (doDilate : Bool) (traits : PixelTraits ℝ)
    (sz : Fin D → ℕ) (sp : Fin D → ℝ) (useSpacing : Bool) (algorithm : ℤ) (T : Index D → ℝ)
    (hsp : ∀ d, 0 < sp d)
    (hcp : algorithm = CONTACTPOINT →
      traits.NonpositiveMin ≤ -MaxDist sz sp useSpacing ∧
        MaxDist sz sp useSpacing ≤ traits.max)
    (hint : algorithm ≠ CONTACTPOINT → ∀ d,
      MaxDist sz sp useSpacing < 2 ^ 31 * (if useSpacing then sp d else 1) ^ 2)
    (hb : ∀ q, InRegion sz q →
      -MaxDist sz sp useSpacing ≤ T q ∧ T q ≤ MaxDist sz sp useSpacing)
    (p : Index D) (hp : InRegion sz p) :
    SeparableParabolic doDilate traits id sz sp (fun _ => (0.5 : ℝ)) useSpacing algorithm T p =
      some (specFold doDilate sz (curvature useSpacing sp (fun _ => (0.5 : ℝ)))
        (List.finRange D) T p) := by
  have h := foldl_passes_spec doDilate traits sz sp (fun _ => (0.5 : ℝ)) useSpacing algorithm
    (MaxDist sz sp useSpacing) (fun _ => by norm_num) hsp
    (fun _ hc => hcp ((algorithmChoice_half _).mp hc))
    (fun d hc => by
      have hne : algorithm ≠ CONTACTPOINT := fun h' => hc ((algorithmChoice_half _).mpr h')
      refine ⟨size_le_of_MaxDist_lt sz sp useSpacing hsp d (hint hne d), ?_⟩
      rw [curvature_half]
      exact hint hne d)
    (List.finRange D) (fun q => some (T q)) T (fun _ _ => rfl) hb
  exact h.1 p hp

theorem specFold_erode_closed {D : ℕ} (size : Fin D → ℕ) (m : Fin D → α) (T : Index D → α)
    (p : Index D) (hp : InRegion size p) :
    IsLeast {y | ∃ q, InRegion size q ∧ y = T q + cost m (List.finRange D) p q}
      (specFold false size m (List.finRange D) T p) := by
  obtain ⟨⟨q, hq, _, hval⟩, hlb⟩ :=
    specFold_erode_isLeast size m (List.finRange D) (List.nodup_finRange D) T p hp
  constructor
  · exact ⟨q, hq, hval⟩
  · rintro y ⟨q', hq', rfl⟩
    exact hlb ⟨q', hq', fun d hd => absurd (List.mem_finRange d) hd, rfl⟩

theorem erode_radicand {D : ℕ} (traits : PixelTraits ℝ) (sz : Fin D → ℕ) (sp : Fin D → ℝ)
    (useSpacing : Bool) (algorithm : ℤ) (T : Index D → ℝ)
    (hsp : ∀ d, 0 < sp d)
    (hcp : algorithm = CONTACTPOINT →
      traits.NonpositiveMin ≤ -MaxDist sz sp useSpacing ∧
        MaxDist sz sp useSpacing ≤ traits.max)
    (hint : algorithm ≠ CONTACTPOINT → ∀ d,
      MaxDist sz sp useSpacing < 2 ^ 31 * (if useSpacing then sp d else 1) ^ 2)
    (hM : 0 < MaxDist sz sp useSpacing)
    (hT : ∀ q, InRegion sz q →
      T q = MaxDist sz sp useSpacing ∨ T q = -MaxDist sz sp useSpacing)
    (p q0 : Index D) (hp : InRegion sz p) (hq0 : InRegion sz q0)
    (hTq0 : T q0 = -MaxDist sz sp useSpacing) :
    ∃ A, SeparableParabolic false traits id sz sp (fun _ => (0.5 : ℝ)) useSpacing algorithm
        T p = some A ∧
      IsLeast {y | ∃ q, InRegion sz q ∧ T q = -MaxDist sz sp useSpacing ∧
        y = sqDist useSpacing sp p q} (A + MaxDist sz sp useSpacing) := by
  have hb : ∀ q, InRegion sz q →
      -MaxDist sz sp useSpacing ≤ T q ∧ T q ≤ MaxDist sz sp useSpacing := by
    intro q hq
    rcases hT q hq with h | h <;> rw [h] <;> constructor <;> linarith
  refine ⟨_, SeparableParabolic_half_spec false traits sz sp useSpacing algorithm T hsp hcp
    hint hb p hp, ?_⟩
  have hclosed := specFold_erode_closed sz (curvature useSpacing sp (fun _ => (0.5 : ℝ))) T p hp
  simp only [cost_eq_sqDist] at hclosed
  exact shifted_isLeast sz T (fun q => sqDist useSpacing sp p q) _ _ hM hT
    (fun q => sqDist_nonneg useSpacing sp p q)
    (fun q hq => sqDist_le_MaxDist sz sp useSpacing p q hp hq) q0 hq0 hTq0 hclosed

theorem dilate_radicand {D : ℕ} (traits : PixelTraits ℝ) (sz : Fin D → ℕ) (sp : Fin D → ℝ)
    (useSpacing : Bool) (algorithm : ℤ) (T : Index D → ℝ)
    (hsp : ∀ d, 0 < sp d)
    (hcp : algorithm = CONTACTPOINT →
      traits.NonpositiveMin ≤ -MaxDist sz sp useSpacing ∧
        MaxDist sz sp useSpacing ≤ traits.max)
    (hint : algorithm ≠ CONTACTPOINT → ∀ d,
      MaxDist sz sp useSpacing < 2 ^ 31 * (if useSpacing then sp d else 1) ^ 2)
    (hM : 0 < MaxDist sz sp useSpacing)
    (hT : ∀ q, InRegion sz q →
      T q = MaxDist sz sp useSpacing ∨ T q = -MaxDist sz sp useSpacing)
    (p q0 : Index D) (hp : InRegion sz p) (hq0 : InRegion sz q0)
    (hTq0 : T q0 = MaxDist sz sp useSpacing) :
    ∃ B, SeparableParabolic true traits id sz sp (fun _ => (0.5 : ℝ)) useSpacing algorithm
        T p = some B ∧
      IsLeast {y | ∃ q, InRegion sz q ∧ T q = MaxDist sz sp useSpacing ∧
        y = sqDist useSpacing sp p q} (MaxDist sz sp useSpacing - B) := by
  have hb : ∀ q, InRegion sz q →
      -MaxDist sz sp useSpacing ≤ T q ∧ T q ≤ MaxDist sz sp useSpacing := by
    intro q hq
    rcases hT q hq with h | h <;> rw [h] <;> constructor <;> linarith
  refine ⟨_, SeparableParabolic_half_spec true traits sz sp useSpacing algorithm T hsp hcp
    hint hb p hp, ?_⟩
  rw [specFold_dilate_eq_neg]
  have hclosed := specFold_erode_closed sz (curvature useSpacing sp (fun _ => (0.5 : ℝ)))
    (fun q => -T q) p hp
  simp only [cost_eq_sqDist] at hclosed
  have hT' : ∀ q, InRegion sz q →
      (fun q => -T q) q = MaxDist sz sp useSpacing ∨
        (fun q => -T q) q = -MaxDist sz sp useSpacing := by
    intro q hq
    rcases hT q hq with h | h
    · right; simp [h]
    · left; simp [h]
  have h := shifted_isLeast sz (fun q => -T q) (fun q => sqDist useSpacing sp p q) _ _ hM hT'
    (fun q => sqDist_nonneg useSpacing sp p q)
    (fun q hq => sqDist_le_MaxDist sz sp useSpacing p q hp hq) q0 hq0 (by simp [hTq0]) hclosed
  have hset : {y | ∃ q, InRegion sz q ∧ T q = MaxDist sz sp useSpacing ∧
      y = sqDist useSpacing sp p q} =
      {y | ∃ q, InRegion sz q ∧ (fun q => -T q) q = -MaxDist sz sp useSpacing ∧
        y = (fun q => sqDist useSpacing sp p q) q} := by
    ext y
    constructor
    · rintro ⟨q, hq, hTq, rfl⟩
      exact ⟨q, hq, by simp [hTq], rfl⟩
    · rintro ⟨q, hq, hTq, rfl⟩
      exact ⟨q, hq, by simpa using hTq, rfl⟩
  rw [hset]
  have hval : MaxDist sz sp useSpacing -
      -specFold false sz (curvature useSpacing sp (fun _ => (0.5 : ℝ))) (List.finRange D)
        (fun q => -T q) p =
      specFold false sz (curvature useSpacing sp (fun _ => (0.5 : ℝ))) (List.finRange D)
        (fun q => -T q) p + MaxDist sz sp useSpacing := by ring
  rw [hval]
  exact h

/-! ## The output of the signed distance transform -/

theorem thresholdStep_cases (InsideIsPositive : Bool) (M m_OutsideValue x : α) :
    (thresholdStep InsideIsPositive M m_OutsideValue x = M ∧
      (InsideIsPositive = true ↔ x ≠ m_OutsideValue)) ∨
    (thresholdStep InsideIsPositive M m_OutsideValue x = -M ∧
      ¬(InsideIsPositive = true ↔ x ≠ m_OutsideValue)) := by
  rw [thresholdStep_apply]
  by_cases hx : x = m_OutsideValue <;> cases InsideIsPositive <;> simp [hx]

theorem opposite_iff {I Pp Pq : Prop} (hp : I ↔ ¬Pp) : ¬(I ↔ ¬Pq) ↔ ¬(Pq ↔ Pp) := by
  by_cases hI : I <;> by_cases h1 : Pp <;> by_cases h2 : Pq <;> simp_all

theorem opposite_iff' {I Pp Pq : Prop} (hp : ¬(I ↔ ¬Pp)) : (I ↔ ¬Pq) ↔ ¬(Pq ↔ Pp) := by
  by_cases hI : I <;> by_cases h1 : Pp <;> by_cases h2 : Pq <;> simp_all

theorem GenerateData_spec {D : ℕ} (traits : PixelTraits ℝ) (sz : Fin D → ℕ) (sp : Fin D → ℝ)
    (m_OutsideValue : ℝ) (InsideIsPositive UseImageSpacing : Bool) (m_ParabolicAlgorithm : ℤ)
    (input : Index D → ℝ)
    (hsp : ∀ d, 0 < sp d)
    (hcp : m_ParabolicAlgorithm = CONTACTPOINT →
      traits.NonpositiveMin ≤ -MaxDist sz sp UseImageSpacing ∧
        MaxDist sz sp UseImageSpacing ≤ traits.max)
    (hint : m_ParabolicAlgorithm ≠ CONTACTPOINT → ∀ d,
      MaxDist sz sp UseImageSpacing < 2 ^ 31 * (if UseImageSpacing then sp d else 1) ^ 2)
    (p q0 : Index D) (hp : InRegion sz p) (hq0 : InRegion sz q0)
    (hopp : ¬(input q0 = m_OutsideValue ↔ input p = m_OutsideValue)) :
    ∃ r, GenerateData traits sz sp m_OutsideValue InsideIsPositive UseImageSpacing
        m_ParabolicAlgorithm input p = some r ∧
      IsLeast {y | ∃ q, InRegion sz q ∧
        ¬(input q = m_OutsideValue ↔ input p = m_OutsideValue) ∧
        y = sqDist UseImageSpacing sp p q} (r ^ 2) ∧
      ((InsideIsPositive = true ↔ input p ≠ m_OutsideValue) → 0 < r) ∧
      (¬(InsideIsPositive = true ↔ input p ≠ m_OutsideValue) → r < 0) := by
  have hpq : p ≠ q0 := by
    intro h
    apply hopp
    rw [h]
  have hM : 0 < MaxDist sz sp UseImageSpacing :=
    lt_of_lt_of_le (sqDist_pos UseImageSpacing sp hsp p q0 hpq)
      (sqDist_le_MaxDist sz sp UseImageSpacing p q0 hp hq0)
  have hT : ∀ q, InRegion sz q →
      (fun q => thresholdStep InsideIsPositive (MaxDist sz sp UseImageSpacing) m_OutsideValue
        (input q)) q = MaxDist sz sp UseImageSpacing ∨
      (fun q => thresholdStep InsideIsPositive (MaxDist sz sp UseImageSpacing) m_OutsideValue
        (input q)) q = -MaxDist sz sp UseImageSpacing := by
    intro q _
    rcases thresholdStep_cases InsideIsPositive (MaxDist sz sp UseImageSpacing) m_OutsideValue
      (input q) with h | h
    · exact Or.inl h.1
    · exact Or.inr h.1
  have hb : ∀ q, InRegion sz q →
      -MaxDist sz sp UseImageSpacing ≤
        (fun q => thresholdStep InsideIsPositive (MaxDist sz sp UseImageSpacing) m_OutsideValue
          (input q)) q ∧
      (fun q => thresholdStep InsideIsPositive (MaxDist sz sp UseImageSpacing) m_OutsideValue
        (input q)) q ≤ MaxDist sz sp UseImageSpacing := by
    intro q hq
    rcases hT q hq with h | h <;> rw [h] <;> constructor <;> linarith
  simp only [GenerateData]
  rcases thresholdStep_cases InsideIsPositive (MaxDist sz sp UseImageSpacing) m_OutsideValue
    (input p) with ⟨hTp, hcls⟩ | ⟨hTp, hcls⟩
  · -- the voxel is on the positive side: the erosion decides
    have hTq0 : (fun q => thresholdStep InsideIsPositive (MaxDist sz sp UseImageSpacing)
        m_OutsideValue (input q)) q0 = -MaxDist sz sp UseImageSpacing := by
      rcases thresholdStep_cases InsideIsPositive (MaxDist sz sp UseImageSpacing)
        m_OutsideValue (input q0) with h | h
      · exact absurd h.2 ((opposite_iff hcls).mpr hopp)
      · exact h.1
    obtain ⟨A, hA, hleast⟩ := erode_radicand traits sz sp UseImageSpacing m_ParabolicAlgorithm
      _ hsp hcp hint hM hT p q0 hp hq0 hTq0
    have hB := SeparableParabolic_half_spec true traits sz sp UseImageSpacing
      m_ParabolicAlgorithm _ hsp hcp hint hb p hp
    rw [hA, hB]
    simp only
    rw [hTp]
    obtain ⟨qs, hqs, hTqs, hval⟩ := hleast.1
    have hqsp : p ≠ qs := by
      intro h
      rw [← h] at hTqs
      have hTqs' : thresholdStep InsideIsPositive (MaxDist sz sp UseImageSpacing)
          m_OutsideValue (input p) = -MaxDist sz sp UseImageSpacing := hTqs
      rw [hTp] at hTqs'
      linarith
    have hpos : 0 < A + MaxDist sz sp UseImageSpacing := by
      rw [hval]; exact sqDist_pos UseImageSpacing sp hsp p qs hqsp
    refine ⟨Real.sqrt (A + MaxDist sz sp UseImageSpacing), ?_, ?_, ?_, ?_⟩
    · unfold MorphSDTHelper
      rw [if_pos hM, if_pos (le_of_lt hpos)]
    · rw [Real.sq_sqrt (le_of_lt hpos)]
      have hset : {y | ∃ q, InRegion sz q ∧
          ¬(input q = m_OutsideValue ↔ input p = m_OutsideValue) ∧
          y = sqDist UseImageSpacing sp p q} =
          {y | ∃ q, InRegion sz q ∧
            (fun q => thresholdStep InsideIsPositive (MaxDist sz sp UseImageSpacing)
              m_OutsideValue (input q)) q = -MaxDist sz sp UseImageSpacing ∧
            y = sqDist UseImageSpacing sp p q} := by
        ext y
        constructor
        · rintro ⟨q, hq, hne, rfl⟩
          refine ⟨q, hq, ?_, rfl⟩
          rcases thresholdStep_cases InsideIsPositive (MaxDist sz sp UseImageSpacing)
            m_OutsideValue (input q) with h | h
          · exact absurd h.2 ((opposite_iff hcls).mpr hne)
          · exact h.1
        · rintro ⟨q, hq, hTq, rfl⟩
          refine ⟨q, hq, ?_, rfl⟩
          have hTq' : thresholdStep InsideIsPositive (MaxDist sz sp UseImageSpacing)
              m_OutsideValue (input q) = -MaxDist sz sp UseImageSpacing := hTq
          rcases thresholdStep_cases InsideIsPositive (MaxDist sz sp UseImageSpacing)
            m_OutsideValue (input q) with h | h
          · rw [h.1] at hTq'
            linarith
          · exact (opposite_iff hcls).mp h.2
      rw [hset]
      exact hleast
    · intro _
      exact Real.sqrt_pos.mpr hpos
    · intro h
      exact absurd hcls h
  · -- the voxel is on the negative side: the dilation decides
    have hTq0 : (fun q => thresholdStep InsideIsPositive (MaxDist sz sp UseImageSpacing)
        m_OutsideValue (input q)) q0 = MaxDist sz sp UseImageSpacing := by
      rcases thresholdStep_cases InsideIsPositive (MaxDist sz sp UseImageSpacing)
        m_OutsideValue (input q0) with h | h
      · exact h.1
      · exact absurd ((opposite_iff' hcls).mpr hopp) h.2
    obtain ⟨B, hB, hleast⟩ := dilate_radicand traits sz sp UseImageSpacing m_ParabolicAlgorithm
      _ hsp hcp hint hM hT p q0 hp hq0 hTq0
    have hA := SeparableParabolic_half_spec false traits sz sp UseImageSpacing
      m_ParabolicAlgorithm _ hsp hcp hint hb p hp
    rw [hA, hB]
    simp only
    rw [hTp]
    obtain ⟨qs, hqs, hTqs, hval⟩ := hleast.1
    have hqsp : p ≠ qs := by
      intro h
      rw [← h] at hTqs
      have hTqs' : thresholdStep InsideIsPositive (MaxDist sz sp UseImageSpacing)
          m_OutsideValue (input p) = MaxDist sz sp UseImageSpacing := hTqs
      rw [hTp] at hTqs'
      linarith
    have hpos : 0 < MaxDist sz sp UseImageSpacing - B := by
      rw [hval]; exact sqDist_pos UseImageSpacing sp hsp p qs hqsp
    refine ⟨-Real.sqrt (MaxDist sz sp UseImageSpacing - B), ?_, ?_, ?_, ?_⟩
    · unfold MorphSDTHelper
      rw [if_neg (by linarith), if_pos (le_of_lt hpos)]
    · rw [neg_sq, Real.sq_sqrt (le_of_lt hpos)]
      have hset : {y | ∃ q, InRegion sz q ∧
          ¬(input q = m_OutsideValue ↔ input p = m_OutsideValue) ∧
          y = sqDist UseImageSpacing sp p q} =
          {y | ∃ q, InRegion sz q ∧
            (fun q => thresholdStep InsideIsPositive (MaxDist sz sp UseImageSpacing)
              m_OutsideValue (input q)) q = MaxDist sz sp UseImageSpacing ∧
            y = sqDist UseImageSpacing sp p q} := by
        ext y
        constructor
        · rintro ⟨q, hq, hne, rfl⟩
          refine ⟨q, hq, ?_, rfl⟩
          rcases thresholdStep_cases InsideIsPositive (MaxDist sz sp UseImageSpacing)
            m_OutsideValue (input q) with h | h
          · exact h.1
          · exact absurd ((opposite_iff' hcls).mpr hne) h.2
        · rintro ⟨q, hq, hTq, rfl⟩
          refine ⟨q, hq, ?_, rfl⟩
          have hTq' : thresholdStep InsideIsPositive (MaxDist sz sp UseImageSpacing)
              m_OutsideValue (input q) = MaxDist sz sp UseImageSpacing := hTq
          rcases thresholdStep_cases InsideIsPositive (MaxDist sz sp UseImageSpacing)
            m_OutsideValue (input q) with h | h
          · exact (opposite_iff' hcls).mp h.2
          · rw [h.1] at hTq'
            linarith
      rw [hset]
      exact hleast
    · intro h
      exact absurd h hcls
    · intro _
      have := Real.sqrt_pos.mpr hpos
      linarith

/-! ## A run that passes the `z[0]` sentinel -/

theorem DoLineIntAlg_erode_pair_none (x0 x1 m : α) (F : ℕ → α) (v : ℕ → ℕ) (z : ℕ → α)
    (h : (x1 / m + 1 - x0 / m) / 2 ≤ -(2 : α) ^ 31) :
    DoLineIntAlg false [x0, x1] F v z m = none := by
  have hs : intersection false
      (Function.update (Function.update F 0 (x0 / m)) 1 (precompute false [x0, x1] m 1))
      (Function.update v 0 0) 1 0 = (x1 / m + 1 - x0 / m) / 2 := by
    have hv : Function.update v 0 0 0 = 0 := Function.update_same _ _ _
    unfold intersection
    rw [if_neg (by decide), hv, Function.update_same, Function.update_noteq (by decide),
      Function.update_same]
    simp [precompute]
  have hz : Function.update (Function.update z 0 ((intNonpositiveMin : ℤ) : α)) 1
      ((intMax : ℤ) : α) 0 = -(2 : α) ^ 31 := by
    rw [Function.update_noteq (by decide), Function.update_same, intNonpositiveMin_cast]
  simp only [DoLineIntAlg, List.length_cons, List.length_nil, Nat.reduceAdd, Nat.add_one_sub_one,
    mainLoop, mainStep, popLoop]
  rw [hs, hz, if_pos h]

theorem doOneDimension_none {D : ℕ} (doDilate : Bool) (traits : PixelTraits α) (cast : α → α)
    (img : Pixels D α) (n : ℕ) (d : Fin D) (useSpacing : Bool) (image_scale Sigma : α)
    (algorithm : ℤ) (hn : 0 < n) (himg : ∀ q, img q = none) (p : Index D) :
    doOneDimension doDilate traits cast img n d useSpacing image_scale Sigma algorithm p =
      none := by
  obtain ⟨k, rfl⟩ : ∃ k, n = k + 1 := ⟨n - 1, by omega⟩
  simp only [doOneDimension, readLine, himg]
  cases readLine img d p k <;> rfl

/-! ## The signed distance transform on concrete images -/

theorem finRange_one : List.finRange 1 = [0] := by rfl

theorem finRange_two : List.finRange 2 = [0, 1] := by rfl

theorem MaxDist_step : MaxDist stepSize stepSpacing true = 4 := by
  simp only [MaxDist, finRange_one, if_true, List.map_cons, List.map_nil, List.sum_cons,
    List.sum_nil, stepSize, stepSpacing]
  norm_num

theorem MaxDist_aniso : MaxDist anisoSize anisoSpacing true = 10000000004 := by
  have h : List.finRange 2 = [0, 1] := by rfl
  simp only [MaxDist, h, if_true, List.map_cons, List.map_nil, List.sum_cons, List.sum_nil,
    anisoSize, anisoSpacing]
  norm_num

theorem erodePass_aniso (traits : PixelTraits ℝ) (p : Index 2) :
    doOneDimension false traits id
      (fun q => some (thresholdStep true (MaxDist anisoSize anisoSpacing true) 0 (anisoInput q)))
      (anisoSize 0) 0 true (anisoSpacing 0) 0.5 INTERSECTION p = none := by
  have hread := readLine_some
    (fun q => some (thresholdStep true (MaxDist anisoSize anisoSpacing true) 0 (anisoInput q)))
    (fun q => thresholdStep true (MaxDist anisoSize anisoSpacing true) 0 (anisoInput q))
    0 p 2 (fun _ _ => rfl)
  have hline : lineOf
      (fun q => thresholdStep true (MaxDist anisoSize anisoSpacing true) 0 (anisoInput q))
      0 p 2 = [10000000004, -10000000004] := by
    simp [lineOf, List.range_succ, MaxDist_aniso, thresholdStep_apply, anisoInput]
  have hsz : anisoSize 0 = 2 := rfl
  have hsp : anisoSpacing 0 = 1 := by simp [anisoSpacing]
  have hc : algorithmChoice INTERSECTION (0.5 : ℝ) ≠ CONTACTPOINT := by
    rw [Ne, algorithmChoice_half]; decide
  simp only [doOneDimension, hsz, hsp, hread, hline, doOneDimensionLine, if_neg hc, if_true]
  rw [DoLineIntAlg_erode_pair_none _ _ _ _ _ _ (by norm_num)]

theorem GenerateData_aniso_none (traits : PixelTraits ℝ) (p : Index 2) :
    GenerateData traits anisoSize anisoSpacing 0 true true INTERSECTION anisoInput p = none := by
  have hE : SeparableParabolic false traits id anisoSize anisoSpacing (fun _ => (0.5 : ℝ)) true
      INTERSECTION
      (fun q => thresholdStep true (MaxDist anisoSize anisoSpacing true) 0 (anisoInput q))
      p = none := by
    simp only [SeparableParabolic, finRange_two, List.foldl_cons, List.foldl_nil]
    rw [if_pos (by norm_num), if_pos (by norm_num)]
    exact doOneDimension_none false traits id _ _ _ _ _ _ _ (by decide)
      (fun q => erodePass_aniso traits q) p
  simp only [GenerateData]
  rw [hE]

theorem sqDist_neighbour {D : ℕ} (useSpacing : Bool) (sp : Fin D → ℝ) (p q0 : Index D)
    (d : Fin D) (hnb : ∀ e, e ≠ d → q0 e = p e) (hstep : q0 d = p d + 1 ∨ p d = q0 d + 1) :
    sqDist useSpacing sp p q0 = (if useSpacing then sp d else 1) ^ 2 := by
  unfold sqDist
  rw [← Fin.sum_univ_def]
  rw [Finset.sum_eq_single d]
  · rcases hstep with h | h
    · rw [h]; push_cast; ring
    · rw [h]; push_cast; ring
  · intro e _ he
    rw [hnb e he]
    simp
  · intro h
    exact absurd (Finset.mem_univ d) h

theorem step_hint : INTERSECTION ≠ CONTACTPOINT → ∀ d : Fin 1,
      MaxDist stepSize stepSpacing true < 2 ^ 31 * (if true then stepSpacing d else 1) ^ 2 := by
  intro _ d
  rw [MaxDist_step]
  simp only [if_true, stepSpacing]
  norm_num

/-- C3 at a failing input: the 2 x 1 image with spacing `(1, 100000)` has a voxel in the object
and a voxel outside, yet with the default intersection algorithm the pipeline produces no
output at the object voxel `(0, 0)`: along axis 0 the intersection abscissa `-MaxDist + 1/2`
lies below the `z[0]` sentinel `-2^31` and the pop loop leaves the index range. -/
theorem GenerateData_aniso_inside_none :
    anisoInput (fun _ => 0) ≠ 0 ∧ anisoInput (fun d => if d = 0 then 1 else 0) = 0 ∧
    GenerateData floatTraits anisoSize anisoSpacing 0 true true INTERSECTION anisoInput
      (fun _ => 0) = none := by
  refine ⟨by simp [anisoInput], by simp [anisoInput], ?_⟩
  exact GenerateData_aniso_none floatTraits _

/-- C7 at a failing input: for the 2 x 1 image with spacing `(1, 100000)` and
`InsideIsPositive = true`, the pipeline with the default intersection algorithm produces no
output at the outside voxel `(1, 0)`, hence no strictly negative value. -/
theorem GenerateData_aniso_outside_none :
    anisoInput (fun d => if d = 0 then 1 else 0) = 0 ∧
    ¬ ∃ r, GenerateData floatTraits anisoSize anisoSpacing 0 true true INTERSECTION anisoInput
      (fun d => if d = 0 then 1 else 0) = some r ∧ r < 0 := by
  refine ⟨by simp [anisoInput], ?_⟩
  rintro ⟨r, hr, _⟩
  rw [GenerateData_aniso_none floatTraits _] at hr
  exact absurd hr (by simp)

/-- C8, as the code has it in exact arithmetic with real-valued pixels (every cast the
identity): with `InsideIsPositive = true`, positive spacing, a pixel type that
holds `±MaxDist` (contact point algorithm) and `MaxDist < 2^31 w_d^2` on every axis
(intersection algorithm, so that the `z[0]` sentinel is not reached), the output at an object
voxel `p` that has an outside voxel `q0` as a direct neighbour along the axis `d` is not 0: it
is the strictly positive `r`, at most the spacing of the axis `d`, whose square is the least
squared distance from `p` to the centre of an outside voxel. -/
theorem GenerateData_boundary_positive {D : ℕ} (traits : PixelTraits ℝ) (sz : Fin D → ℕ)
    (sp : Fin D → ℝ) (m_OutsideValue : ℝ) (UseImageSpacing : Bool) (m_ParabolicAlgorithm : ℤ)
    (input : Index D → ℝ)
    (hsp : ∀ d, 0 < sp d)
    (hcp : m_ParabolicAlgorithm = CONTACTPOINT →
      traits.NonpositiveMin ≤ -MaxDist sz sp UseImageSpacing ∧
        MaxDist sz sp UseImageSpacing ≤ traits.max)
    (hint : m_ParabolicAlgorithm ≠ CONTACTPOINT → ∀ d,
      MaxDist sz sp UseImageSpacing < 2 ^ 31 * (if UseImageSpacing then sp d else 1) ^ 2)
    (p q0 : Index D) (hp : InRegion sz p) (hq0 : InRegion sz q0)
    (hin : input p ≠ m_OutsideValue) (hout : input q0 = m_OutsideValue)
    (d : Fin D) (hnb : ∀ e, e ≠ d → q0 e = p e) (hstep : q0 d = p d + 1 ∨ p d = q0 d + 1) :
    ∃ r, GenerateData traits sz sp m_OutsideValue true UseImageSpacing m_ParabolicAlgorithm
        input p = some r ∧ 0 < r ∧ r ≤ (if UseImageSpacing then sp d else 1) ∧
      IsLeast {y | ∃ q, InRegion sz q ∧ input q = m_OutsideValue ∧
        y = sqDist UseImageSpacing sp p q} (r ^ 2) := by
  have hopp : ¬(input q0 = m_OutsideValue ↔ input p = m_OutsideValue) :=
    fun h => hin (h.mp hout)
  obtain ⟨r, hr, hleast, hpos, _⟩ := GenerateData_spec traits sz sp m_OutsideValue true
    UseImageSpacing m_ParabolicAlgorithm input hsp hcp hint p q0 hp hq0 hopp
  have hr0 : 0 < r := hpos ⟨fun _ => hin, fun _ => rfl⟩
  have hw : (0 : ℝ) < (if UseImageSpacing then sp d else 1) := by
    split
    · exact hsp d
    · exact one_pos
  have hle : r ^ 2 ≤ (if UseImageSpacing then sp d else 1) ^ 2 := by
    rw [← sqDist_neighbour UseImageSpacing sp p q0 d hnb hstep]
    exact hleast.2 ⟨q0, hq0, hopp, rfl⟩
  refine ⟨r, hr, hr0, ?_, ?_⟩
  · by_contra hcon
    push_neg at hcon
    nlinarith
  · have hset : {y | ∃ q, InRegion sz q ∧ input q = m_OutsideValue ∧
        y = sqDist UseImageSpacing sp p q} =
        {y | ∃ q, InRegion sz q ∧
          ¬(input q = m_OutsideValue ↔ input p = m_OutsideValue) ∧
          y = sqDist UseImageSpacing sp p q} := by
      ext y
      constructor
      · rintro ⟨q, hq, hqo, rfl⟩
        exact ⟨q, hq, fun h => hin (h.mp hqo), rfl⟩
      · rintro ⟨q, hq, hne, rfl⟩
        refine ⟨q, hq, ?_, rfl⟩
        by_contra hqo
        exact hne ⟨fun h => absurd h hqo, fun h => absurd h hin⟩
    rw [hset]
    exact hleast

/-- C8 as amended, at the boundary voxel 0 of the one-dimensional mask `[1, 0]`. -/
theorem GenerateData_boundary_positive_witness :
    ∃ r, GenerateData floatTraits stepSize stepSpacing 0 true true INTERSECTION stepInput
        (fun _ => 0) = some r ∧ 0 < r ∧ r ≤ (if true then stepSpacing 0 else 1) ∧
      IsLeast {y | ∃ q, InRegion stepSize q ∧ stepInput q = 0 ∧
        y = sqDist true stepSpacing (fun _ => 0) q} (r ^ 2) :=
  GenerateData_boundary_positive floatTraits stepSize stepSpacing 0 true INTERSECTION stepInput
    (fun _ => by simp [stepSpacing]) (fun h => absurd h (by decide)) step_hint
    (fun _ => 0) (fun _ => 1) (fun _ => by simp [stepSize]) (fun _ => by simp [stepSize])
    (by simp [stepInput]) (by simp [stepInput]) 0
    (fun e he => absurd (Subsingleton.elim e 0) he) (Or.inl rfl)

/-- C8 fails as stated: in the one-dimensional mask `[1, 0]` with unit spacing, voxel 0 is an
object voxel with the outside voxel 1 as direct neighbour, and the output of the pipeline there
is not 0. -/
theorem GenerateData_boundary_not_zero :
    stepInput (fun _ => 0) ≠ 0 ∧ stepInput (fun _ => 1) = 0 ∧
    GenerateData floatTraits stepSize stepSpacing 0 true true INTERSECTION stepInput
      (fun _ => 0) ≠ some 0 := by
  refine ⟨by simp [stepInput], by simp [stepInput], ?_⟩
  obtain ⟨r, hr, _, hpos, _⟩ := GenerateData_spec floatTraits stepSize stepSpacing 0 true true
    INTERSECTION stepInput (fun _ => by simp [stepSpacing])
    (fun h => absurd h (by decide)) step_hint (fun _ => 0) (fun _ => 1)
    (fun _ => by simp [stepSize]) (fun _ => by simp [stepSize]) (by simp [stepInput])
  rw [hr]
  intro h
  have h0 : 0 < r := hpos ⟨fun _ => by simp [stepInput], fun _ => rfl⟩
  simp only [Option.some.injEq] at h
  linarith

/-- C10, at voxel 0 of the one-dimensional mask `[1, 0]`. -/
theorem GenerateData_InsideIsPositive_flip_witness :
    GenerateData floatTraits stepSize stepSpacing 0 true true INTERSECTION stepInput
        (fun _ => 0) =
      (GenerateData floatTraits stepSize stepSpacing 0 false true INTERSECTION stepInput
        (fun _ => 0)).map (fun x => -x) :=
  GenerateData_InsideIsPositive_flip floatTraits stepSize stepSpacing 0 true INTERSECTION
    stepInput (fun _ => 0) (by rw [MaxDist_step]; norm_num) (fun h => absurd h (by decide))

/-! ## Negative radicands and the scenarios S1, S2, S3 -/

/-- C11, counterexample: with `C > 0` and `A + MaxDist = -1 < 0`, and with `C <= 0` and `MaxDist - B = -1 < 0`, the SDT combiner takes the square root of the negative radicand itself: it yields no real value, in particular not 0. -/
theorem MorphSDTHelper_negative_not_zero :
    MorphSDTHelper 1 (-2) 0 1 = none ∧ MorphSDTHelper 1 (-2) 0 1 ≠ some 0 ∧
    MorphSDTHelper 1 0 2 0 = none ∧ MorphSDTHelper 1 0 2 0 ≠ some 0 := by
  have h1 : MorphSDTHelper 1 (-2) 0 1 = none := by
    unfold MorphSDTHelper
    norm_num
  have h2 : MorphSDTHelper 1 0 2 0 = none := by
    unfold MorphSDTHelper
    norm_num
  refine ⟨h1, ?_, h2, ?_⟩
  · rw [h1]; simp
  · rw [h2]; simp

/-- C11, amended: the SDT combiner does not clamp; for every A, B, C and MaxDist, when `C > 0` and `A + MaxDist < 0`, and when `C <= 0` and `MaxDist - B < 0`, the square root is taken of the negative radicand and the combiner yields no real value. -/
theorem MorphSDTHelper_negative_radicand (m_Val A B C : ℝ) :
    (0 < C → A + m_Val < 0 → MorphSDTHelper m_Val A B C = none) ∧
    (C ≤ 0 → m_Val - B < 0 → MorphSDTHelper m_Val A B C = none) := by
  constructor
  · intro hC hA
    unfold MorphSDTHelper
    rw [if_pos hC, if_neg (not_le.mpr hA)]
  · intro hC hB
    unfold MorphSDTHelper
    rw [if_neg (not_lt.mpr hC), if_neg (not_le.mpr hB)]

theorem MorphSDTHelper_negative_radicand_witness :
    MorphSDTHelper 1 (-2) 0 1 = none ∧ MorphSDTHelper 1 0 2 0 = none :=
  ⟨(MorphSDTHelper_negative_radicand 1 (-2) 0 1).1 (by norm_num) (by norm_num),
   (MorphSDTHelper_negative_radicand 1 0 2 0).2 (by norm_num) (by norm_num)⟩

/-- C12, counterexample: the 1-D dilation of `[0, 0, 0, 10, 0, 0, 0]` with `sigma = 1`, image spacing not used, is not `[6, 9, 10, 10, 10, 9, 6]`. -/
theorem doOneDimensionLine_S1_not :
    doOneDimensionLine true (⟨0, 255⟩ : PixelTraits ℚ) false 1 1 INTERSECTION
      [0, 0, 0, 10, 0, 0, 0] ≠ some [6, 9, 10, 10, 10, 9, 6] := by
  decide!

/-- C12, amended: the 1-D dilation of `[0, 0, 0, 10, 0, 0, 0]` with `sigma = 1`, image spacing not used (magnitude `1 / (2 sigma) = 1/2`), yields `[5.5, 8, 9.5, 10, 9.5, 8, 5.5]` as the real-valued result of the kernel, whichever algorithm is selected. -/
theorem doOneDimensionLine_S1 :
    doOneDimensionLine true (⟨0, 255⟩ : PixelTraits ℚ) false 1 1 INTERSECTION
      [0, 0, 0, 10, 0, 0, 0] = some [11 / 2, 8, 19 / 2, 10, 19 / 2, 8, 11 / 2] ∧
    doOneDimensionLine true (⟨0, 255⟩ : PixelTraits ℚ) false 1 1 CONTACTPOINT
      [0, 0, 0, 10, 0, 0, 0] = some [11 / 2, 8, 19 / 2, 10, 19 / 2, 8, 11 / 2] ∧
    doOneDimensionLine true (⟨0, 255⟩ : PixelTraits ℚ) false 1 1 NOCHOICE
      [0, 0, 0, 10, 0, 0, 0] = some [11 / 2, 8, 19 / 2, 10, 19 / 2, 8, 11 / 2] := by
  refine ⟨by decide!, by decide!, by decide!⟩

/-- C13, counterexample: the 1-D erosion of `[0, 0, 0, 10, 0, 0, 0]` with `sigma = 1`, image spacing not used, is not the zero line. -/
theorem doOneDimensionLine_S2_not :
    doOneDimensionLine false (⟨0, 255⟩ : PixelTraits ℚ) false 1 1 INTERSECTION
      [0, 0, 0, 10, 0, 0, 0] ≠ some [0, 0, 0, 0, 0, 0, 0] := by
  decide!

/-- C13, amended: the 1-D erosion of `[0, 0, 0, 10, 0, 0, 0]` with `sigma = 1`, image spacing not used, yields `[0, 0, 0, 0.5, 0, 0, 0]` as the real-valued result of the kernel, whichever algorithm is selected: the peak is lowered to the magnitude `1/2`, not to 0. -/
theorem doOneDimensionLine_S2 :
    doOneDimensionLine false (⟨0, 255⟩ : PixelTraits ℚ) false 1 1 INTERSECTION
      [0, 0, 0, 10, 0, 0, 0] = some [0, 0, 0, 1 / 2, 0, 0, 0] ∧
    doOneDimensionLine false (⟨0, 255⟩ : PixelTraits ℚ) false 1 1 CONTACTPOINT
      [0, 0, 0, 10, 0, 0, 0] = some [0, 0, 0, 1 / 2, 0, 0, 0] ∧
    doOneDimensionLine false (⟨0, 255⟩ : PixelTraits ℚ) false 1 1 NOCHOICE
      [0, 0, 0, 10, 0, 0, 0] = some [0, 0, 0, 1 / 2, 0, 0, 0] := by
  refine ⟨by decide!, by decide!, by decide!⟩

theorem MaxDist_five (us : Bool) : MaxDist fiveSize unitSpacing us = 50 := by
  cases us <;>
  · simp only [MaxDist, finRange_two, if_true, Bool.false_eq_true, if_false, List.map_cons,
      List.map_nil, List.sum_cons, List.sum_nil, fiveSize, unitSpacing]
    norm_num

theorem fin_two_cases (d : Fin 2) : d = 0 ∨ d = 1 := by
  fin_cases d <;> simp

theorem index_two_ext (p q : Index 2) (h0 : p 0 = q 0) (h1 : p 1 = q 1) : p = q := by
  funext d
  fin_cases d
  · exact h0
  · exact h1

theorem GenerateData_impulse_spec (traits : PixelTraits ℝ) (us : Bool) (alg : ℤ) (c : Index 2)
    (v : ℝ) (hv : v ≠ 0) (hc : InRegion fiveSize c)
    (hcp : alg = CONTACTPOINT → traits.NonpositiveMin ≤ -50 ∧ 50 ≤ traits.max)
    (p : Index 2) (hp : InRegion fiveSize p) (hpc : p ≠ c) :
    ∃ r, GenerateData traits fiveSize unitSpacing 0 true us alg (impulseInput c v) p = some r ∧
      r < 0 ∧ r ^ 2 = sqDist us unitSpacing p c := by
  have hcval : impulseInput c v c = v := by simp [impulseInput]
  have hpval : impulseInput c v p = 0 := by
    unfold impulseInput
    rw [if_neg]
    intro h
    exact hpc (index_two_ext p c h.1 h.2)
  have hopp : ¬(impulseInput c v c = 0 ↔ impulseInput c v p = 0) := by
    rw [hcval, hpval]
    intro h
    exact hv (h.mpr rfl)
  obtain ⟨r, hr, hleast, _, hneg⟩ := GenerateData_spec traits fiveSize unitSpacing 0 true us alg
    (impulseInput c v) (fun _ => by simp [unitSpacing])
    (by rw [MaxDist_five]; exact hcp)
    (by
      intro _ d
      rw [MaxDist_five]
      cases us <;> simp [unitSpacing] <;> norm_num)
    p c hp hc hopp
  refine ⟨r, hr, ?_, ?_⟩
  · apply hneg
    rw [hpval]
    intro h
    exact (h.mp rfl) rfl
  · obtain ⟨q, _, hq, hval⟩ := hleast.1
    have hqc : q = c := by
      by_contra hne
      apply hq
      have : impulseInput c v q = 0 := by
        unfold impulseInput
        rw [if_neg]
        intro h
        exact hne (index_two_ext q c h.1 h.2)
      rw [this, hpval]
    rw [hval, hqc]

theorem sqDist_diag (us : Bool) (p c : Index 2)
    (h0 : p 0 = c 0 + 1 ∨ c 0 = p 0 + 1) (h1 : p 1 = c 1 + 1 ∨ c 1 = p 1 + 1) :
    sqDist us unitSpacing p c = 2 := by
  simp only [sqDist, finRange_two, List.map_cons, List.map_nil, List.sum_cons, List.sum_nil,
    unitSpacing, ite_self]
  rcases h0 with h0 | h0 <;> rcases h1 with h1 | h1 <;> rw [h0, h1] <;> push_cast <;> ring

/-- C14, scenario S3: in a 5 x 5 image of zeros with one interior voxel `c` set to a non-zero value, with OutsideValue 0, InsideIsPositive true and unit spacing, the pipeline yields -1 at every edge-neighbour of `c` and `-sqrt 2` at every diagonal neighbour of `c`. -/
theorem GenerateData_S3 (traits : PixelTraits ℝ) (UseImageSpacing : Bool)
    (m_ParabolicAlgorithm : ℤ) (c : Index 2) (v : ℝ) (hv : v ≠ 0)
    (hc0 : 1 ≤ c 0 ∧ c 0 ≤ 3) (hc1 : 1 ≤ c 1 ∧ c 1 ≤ 3)
    (hcp : m_ParabolicAlgorithm = CONTACTPOINT →
      traits.NonpositiveMin ≤ -50 ∧ 50 ≤ traits.max)
    (p : Index 2) :
    ((∃ d, (∀ e, e ≠ d → c e = p e) ∧ (c d = p d + 1 ∨ p d = c d + 1)) →
      GenerateData traits fiveSize unitSpacing 0 true UseImageSpacing m_ParabolicAlgorithm
        (impulseInput c v) p = some (-1)) ∧
    ((p 0 = c 0 + 1 ∨ c 0 = p 0 + 1) ∧ (p 1 = c 1 + 1 ∨ c 1 = p 1 + 1) →
      GenerateData traits fiveSize unitSpacing 0 true UseImageSpacing m_ParabolicAlgorithm
        (impulseInput c v) p = some (-Real.sqrt 2)) := by
  have hcR : InRegion fiveSize c := by
    intro d
    show c d < 5
    rcases fin_two_cases d with h | h <;> subst h <;> omega
  constructor
  · rintro ⟨d, hnb, hstep⟩
    have hpR : InRegion fiveSize p := by
      intro e
      show p e < 5
      by_cases he : e = d
      · subst he
        rcases fin_two_cases e with h | h <;> subst h <;> omega
      · rw [← hnb e he]
        exact hcR e
    have hpc : p ≠ c := by
      intro h
      rw [h] at hstep
      omega
    obtain ⟨r, hr, hneg, hsq⟩ := GenerateData_impulse_spec traits UseImageSpacing
      m_ParabolicAlgorithm c v hv hcR hcp p hpR hpc
    rw [sqDist_neighbour UseImageSpacing unitSpacing p c d hnb hstep] at hsq
    have hw : (if UseImageSpacing then unitSpacing d else 1) = 1 := by
      simp [unitSpacing]
    rw [hw] at hsq
    have hr1 : r = -1 := by nlinarith
    rw [hr, hr1]
  · rintro ⟨h0, h1⟩
    have hpR : InRegion fiveSize p := by
      intro e
      show p e < 5
      rcases fin_two_cases e with h | h <;> subst h <;> omega
    have hpc : p ≠ c := by
      intro h
      rw [h] at h0
      omega
    obtain ⟨r, hr, hneg, hsq⟩ := GenerateData_impulse_spec traits UseImageSpacing
      m_ParabolicAlgorithm c v hv hcR hcp p hpR hpc
    rw [sqDist_diag UseImageSpacing p c h0 h1] at hsq
    have hr2 : r = -Real.sqrt 2 := by
      have h2 : Real.sqrt (r ^ 2) = -r := by
        rw [Real.sqrt_sq_eq_abs, abs_of_neg hneg]
      rw [hsq] at h2
      linarith
    rw [hr, hr2]

theorem GenerateData_S3_witness :
    GenerateData floatTraits fiveSize unitSpacing 0 true true INTERSECTION
      (impulseInput (fun _ => 2) 7) (fun d => if d = 0 then 1 else 2) = some (-1) ∧
    GenerateData floatTraits fiveSize unitSpacing 0 true true INTERSECTION
      (impulseInput (fun _ => 2) 7) (fun _ => 1) = some (-Real.sqrt 2) :=
  ⟨(GenerateData_S3 floatTraits true INTERSECTION (fun _ => 2) 7 (by norm_num)
      (by decide) (by decide) (fun h => absurd h (by decide))
      (fun d => if d = 0 then 1 else 2)).1
      ⟨0, by
        intro e he
        fin_cases e
        · exact absurd rfl he
        · rfl, Or.inl rfl⟩,
   (GenerateData_S3 floatTraits true INTERSECTION (fun _ => 2) 7 (by norm_num)
      (by decide) (by decide) (fun h => absurd h (by decide)) (fun _ => 1)).2
      ⟨Or.inr rfl, Or.inr rfl⟩⟩

/-! ## Extensivity and monotonicity of the 1-D kernel -/

theorem length_erodedLine (L : List α) (m : α) : (erodedLine L m).length = L.length := by
  simp [erodedLine]

theorem length_dilatedLine (L : List α) (m : α) : (dilatedLine L m).length = L.length := by
  simp [dilatedLine]

theorem getD_erodedLine (L : List α) (m : α) (p : ℕ) (hp : p < L.length) :
    (erodedLine L m).getD p 0 = parabolicErosion L m p := by
  simp [erodedLine, List.getD_eq_getElem?_getD, List.getElem?_map, List.getElem?_range hp]

theorem getD_dilatedLine (L : List α) (m : α) (p : ℕ) (hp : p < L.length) :
    (dilatedLine L m).getD p 0 = parabolicDilation L m p := by
  simp [dilatedLine, List.getD_eq_getElem?_getD, List.getElem?_map, List.getElem?_range hp]

theorem le_minUpTo (f : ℕ → α) (n : ℕ) (y : α) (h : ∀ i, i ≤ n → y ≤ f i) :
    y ≤ minUpTo f n := by
  obtain ⟨i, hi, hieq⟩ := minUpTo_mem f n
  rw [hieq]; exact h i hi

theorem parabolicErosion_mono (L M : List α) (m : α) (p : ℕ) (hlen : L.length = M.length)
    (hLM : ∀ q, q < L.length → L.getD q 0 ≤ M.getD q 0) (hL : 0 < L.length) :
    parabolicErosion L m p ≤ parabolicErosion M m p := by
  unfold parabolicErosion
  apply le_minUpTo
  intro i hi
  rw [← hlen] at hi
  have h1 := minUpTo_le (fun q => L.getD q 0 + m * ((p : α) - (q : α)) ^ 2) (L.length - 1) i hi
  have h2 := hLM i (by omega)
  simp only at h1
  linarith

theorem parabolicDilation_mono (L M : List α) (m : α) (p : ℕ) (hlen : L.length = M.length)
    (hLM : ∀ q, q < L.length → L.getD q 0 ≤ M.getD q 0) (hL : 0 < L.length) :
    parabolicDilation L m p ≤ parabolicDilation M m p := by
  unfold parabolicDilation
  apply maxUpTo_le
  intro i hi
  have h1 := le_maxUpTo (fun q => M.getD q 0 - m * ((p : α) - (q : α)) ^ 2) (M.length - 1) i
    (by rw [← hlen]; exact hi)
  have h2 := hLM i (by omega)
  simp only at h1
  linarith

/-- C15, amended, extensivity of the intersection kernel in exact arithmetic: for a non-empty line whose indices fit the `int` index buffer and a magnitude `m > 0`, when no intersection with the parabola at 0 reaches the `z[0]` sentinel `-2^31`, the dilation run returns a line with `L'[p] >= L[p]` at every `p`, and the erosion run returns a line with `L'[p] <= L[p]` at every `p`. -/
theorem DoLineIntAlg_extensive (L : List α) (F : ℕ → α) (v : ℕ → ℕ) (z : ℕ → α) (m : α)
    (hL : L ≠ []) (hN : L.length ≤ 2 ^ 31) (hm : 0 < m) :
    ((∀ q, 1 ≤ q → q < L.length →
        -(2 : α) ^ 31 < (L.getD 0 0 - L.getD q 0) / (2 * m * (q : α)) + (q : α) / 2) →
      ∃ out, DoLineIntAlg true L F v z m = some out ∧ out.length = L.length ∧
        ∀ p, p < L.length → L.getD p 0 ≤ out.getD p 0) ∧
    ((∀ q, 1 ≤ q → q < L.length →
        -(2 : α) ^ 31 < (L.getD q 0 - L.getD 0 0) / (2 * m * (q : α)) + (q : α) / 2) →
      ∃ out, DoLineIntAlg false L F v z m = some out ∧ out.length = L.length ∧
        ∀ p, p < L.length → out.getD p 0 ≤ L.getD p 0) := by
  constructor
  · intro hsent
    refine ⟨dilatedLine L m, DoLineIntAlg_dilate_spec L F v z m hL hN hm hsent,
      length_dilatedLine L m, ?_⟩
    intro p hp
    rw [getD_dilatedLine L m p hp]
    exact self_le_parabolicDilation L m p hp
  · intro hsent
    refine ⟨erodedLine L m, DoLineIntAlg_erode_spec L F v z m hL hN hm ?_,
      length_erodedLine L m, ?_⟩
    · intro q hq hqN
      rw [sentinel_form hm q hq, intNonpositiveMin_cast]
      exact hsent q hq hqN
    · intro p hp
      rw [getD_erodedLine L m p hp]
      exact parabolicErosion_le_self L m p hp

theorem DoLineIntAlg_extensive_witness :
    (∃ out, DoLineIntAlg true ([3, 0, 5] : List ℚ) (fun _ => 0) (fun _ => 0) (fun _ => 0)
        (1 / 2) = some out ∧ out.length = 3 ∧
        ∀ p, p < 3 → ([3, 0, 5] : List ℚ).getD p 0 ≤ out.getD p 0) ∧
    (∃ out, DoLineIntAlg false ([3, 0, 5] : List ℚ) (fun _ => 0) (fun _ => 0) (fun _ => 0)
        (1 / 2) = some out ∧ out.length = 3 ∧
        ∀ p, p < 3 → out.getD p 0 ≤ ([3, 0, 5] : List ℚ).getD p 0) :=
  ⟨(DoLineIntAlg_extensive [3, 0, 5] (fun _ => 0) (fun _ => 0) (fun _ => 0) (1 / 2)
      (by decide) (by decide) (by norm_num)).1
      (by
        intro q hq hlt
        have hlt' : q < 3 := hlt
        interval_cases q <;> norm_num),
   (DoLineIntAlg_extensive [3, 0, 5] (fun _ => 0) (fun _ => 0) (fun _ => 0) (1 / 2)
      (by decide) (by decide) (by norm_num)).2
      (by
        intro q hq hlt
        have hlt' : q < 3 := hlt
        interval_cases q <;> norm_num)⟩

/-- C16, amended, monotonicity of dilation in exact arithmetic: for non-empty lines `L` and `M` of equal length with `L[q] <= M[q]` at every `q` and a magnitude `m > 0`, the `z[0]` sentinel reached for neither line, both dilation runs return and the dilation of `L` is pointwise at most the dilation of `M`. -/
theorem DoLineIntAlg_dilate_monotone (L M : List α) (F F' : ℕ → α) (v v' : ℕ → ℕ)
    (z z' : ℕ → α) (m : α) (hL : L ≠ []) (hlen : L.length = M.length)
    (hN : L.length ≤ 2 ^ 31) (hm : 0 < m)
    (hLM : ∀ q, q < L.length → L.getD q 0 ≤ M.getD q 0)
    (hsentL : ∀ q, 1 ≤ q → q < L.length →
      -(2 : α) ^ 31 < (L.getD 0 0 - L.getD q 0) / (2 * m * (q : α)) + (q : α) / 2)
    (hsentM : ∀ q, 1 ≤ q → q < M.length →
      -(2 : α) ^ 31 < (M.getD 0 0 - M.getD q 0) / (2 * m * (q : α)) + (q : α) / 2) :
    ∃ outL outM, DoLineIntAlg true L F v z m = some outL ∧
      DoLineIntAlg true M F' v' z' m = some outM ∧
      outL.length = L.length ∧ outM.length = L.length ∧
      ∀ p, p < L.length → outL.getD p 0 ≤ outM.getD p 0 := by
  have hM : M ≠ [] := by
    intro h
    apply hL
    rw [h] at hlen
    exact List.length_eq_zero.mp hlen
  have hpos : 0 < L.length := List.length_pos.mpr hL
  refine ⟨dilatedLine L m, dilatedLine M m, DoLineIntAlg_dilate_spec L F v z m hL hN hm hsentL,
    DoLineIntAlg_dilate_spec M F' v' z' m hM (hlen ▸ hN) hm hsentM, length_dilatedLine L m,
    (length_dilatedLine M m).trans hlen.symm, ?_⟩
  intro p hp
  rw [getD_dilatedLine L m p hp, getD_dilatedLine M m p (hlen ▸ hp)]
  exact parabolicDilation_mono L M m p hlen hLM hpos

theorem DoLineIntAlg_dilate_monotone_witness :
    ∃ outL outM, DoLineIntAlg true ([3, 0, 5] : List ℚ) (fun _ => 0) (fun _ => 0) (fun _ => 0)
        (1 / 2) = some outL ∧
      DoLineIntAlg true ([3, 4, 6] : List ℚ) (fun _ => 0) (fun _ => 0) (fun _ => 0)
        (1 / 2) = some outM ∧
      outL.length = 3 ∧ outM.length = 3 ∧
      ∀ p, p < 3 → outL.getD p 0 ≤ outM.getD p 0 :=
  DoLineIntAlg_dilate_monotone [3, 0, 5] [3, 4, 6] (fun _ => 0) (fun _ => 0) (fun _ => 0)
    (fun _ => 0) (fun _ => 0) (fun _ => 0) (1 / 2) (by decide) (by decide) (by decide)
    (by norm_num)
    (by
      intro q hlt
      have hlt' : q < 3 := hlt
      interval_cases q <;> norm_num)
    (by
      intro q hq hlt
      have hlt' : q < 3 := hlt
      interval_cases q <;> norm_num)
    (by
      intro q hq hlt
      have hlt' : q < 3 := hlt
      interval_cases q <;> norm_num)

/-- C17, counterexample: with `L = [0, 0, 0] <= M = [0, 5, 0]` and magnitude 1 the erosion of `L` is `[0, 0, 0]` and the erosion of `M` is `[0, 1, 0]`; at position 1 the erosion of `M` is not at most the erosion of `L`. -/
theorem DoLineIntAlg_erode_not_antitone :
    DoLineIntAlg false ([0, 0, 0] : List ℚ) (fun _ => 0) (fun _ => 0) (fun _ => 0) 1 =
      some [0, 0, 0] ∧
    DoLineIntAlg false ([0, 5, 0] : List ℚ) (fun _ => 0) (fun _ => 0) (fun _ => 0) 1 =
      some [0, 1, 0] ∧
    (∀ q, q < 3 → ([0, 0, 0] : List ℚ).getD q 0 ≤ ([0, 5, 0] : List ℚ).getD q 0) ∧
    ¬ (([0, 1, 0] : List ℚ).getD 1 0 ≤ ([0, 0, 0] : List ℚ).getD 1 0) := by
  refine ⟨by decide!, by decide!, ?_, by norm_num⟩
  intro q hq
  interval_cases q <;> norm_num

/-- C17, amended: in exact arithmetic erosion is non-decreasing in every input pixel; for non-empty lines `L` and `M` of equal length with `L[q] <= M[q]` at every `q` and a magnitude `m > 0`, the `z[0]` sentinel reached for neither line, both erosion runs return and the erosion of `L` is pointwise at most the erosion of `M`. -/
theorem DoLineIntAlg_erode_monotone (L M : List α) (F F' : ℕ → α) (v v' : ℕ → ℕ)
    (z z' : ℕ → α) (m : α) (hL : L ≠ []) (hlen : L.length = M.length)
    (hN : L.length ≤ 2 ^ 31) (hm : 0 < m)
    (hLM : ∀ q, q < L.length → L.getD q 0 ≤ M.getD q 0)
    (hsentL : ∀ q, 1 ≤ q → q < L.length →
      -(2 : α) ^ 31 < (L.getD q 0 - L.getD 0 0) / (2 * m * (q : α)) + (q : α) / 2)
    (hsentM : ∀ q, 1 ≤ q → q < M.length →
      -(2 : α) ^ 31 < (M.getD q 0 - M.getD 0 0) / (2 * m * (q : α)) + (q : α) / 2) :
    ∃ outL outM, DoLineIntAlg false L F v z m = some outL ∧
      DoLineIntAlg false M F' v' z' m = some outM ∧
      outL.length = L.length ∧ outM.length = L.length ∧
      ∀ p, p < L.length → outL.getD p 0 ≤ outM.getD p 0 := by
  have hM : M ≠ [] := by
    intro h
    apply hL
    rw [h] at hlen
    exact List.length_eq_zero.mp hlen
  have hpos : 0 < L.length := List.length_pos.mpr hL
  refine ⟨erodedLine L m, erodedLine M m, DoLineIntAlg_erode_spec L F v z m hL hN hm ?_,
    DoLineIntAlg_erode_spec M F' v' z' m hM (hlen ▸ hN) hm ?_, length_erodedLine L m,
    (length_erodedLine M m).trans hlen.symm, ?_⟩
  · intro q hq hqN
    rw [sentinel_form hm q hq, intNonpositiveMin_cast]
    exact hsentL q hq hqN
  · intro q hq hqN
    rw [sentinel_form hm q hq, intNonpositiveMin_cast]
    exact hsentM q hq hqN
  · intro p hp
    rw [getD_erodedLine L m p hp, getD_erodedLine M m p (hlen ▸ hp)]
    exact parabolicErosion_mono L M m p hlen hLM hpos

theorem DoLineIntAlg_erode_monotone_witness :
    ∃ outL outM, DoLineIntAlg false ([3, 0, 5] : List ℚ) (fun _ => 0) (fun _ => 0) (fun _ => 0)
        (1 / 2) = some outL ∧
      DoLineIntAlg false ([3, 4, 6] : List ℚ) (fun _ => 0) (fun _ => 0) (fun _ => 0)
        (1 / 2) = some outM ∧
      outL.length = 3 ∧ outM.length = 3 ∧
      ∀ p, p < 3 → outL.getD p 0 ≤ outM.getD p 0 :=
  DoLineIntAlg_erode_monotone [3, 0, 5] [3, 4, 6] (fun _ => 0) (fun _ => 0) (fun _ => 0)
    (fun _ => 0) (fun _ => 0) (fun _ => 0) (1 / 2) (by decide) (by decide) (by decide)
    (by norm_num)
    (by
      intro q hlt
      have hlt' : q < 3 := hlt
      interval_cases q <;> norm_num)
    (by
      intro q hq hlt
      have hlt' : q < 3 := hlt
      interval_cases q <;> norm_num)
    (by
      intro q hq hlt
      have hlt' : q < 3 := hlt
      interval_cases q <;> norm_num)

/-! ## Structure of the open/close filter -/

theorem foldl_const_step {β γ : Type} (f : β → γ → β) (h : ∀ b c, f b c = b) (l : List γ)
    (b : β) : l.foldl f b = b := by
  induction l generalizing b with
  | nil => rfl
  | cons c t ih => rw [List.foldl_cons, h, ih]

/-- C19, stage order of the open/close filter when every scale is positive: with `DoOpen = true` the result of `GenerateData` is the dilation pass along every axis 0, ..., D - 1, each reading the output image, applied to the result of stage 1, which is the erosion pass along axis 0 reading the input image followed by the erosion passes along the axes 1, ..., D - 1 reading the output image; with `DoOpen = false` the same with dilation in stage 1 and erosion in stage 2.  The content of the output buffer on entry plays no part. -/
theorem OpenClose_stage_order {D : ℕ} (traits : PixelTraits α) (cast : α → α)
    (size : Fin (D + 1) → ℕ) (spacing m_Scale : Fin (D + 1) → α) (m_UseImageSpacing : Bool)
    (m_ParabolicAlgorithm : ℤ) (inputImage : Index (D + 1) → α)
    (outputImage : Pixels (D + 1) α) (hscale : ∀ d, 0 < m_Scale d) :
    ParabolicOpenCloseImageFilter.GenerateData true traits cast size spacing m_Scale
        m_UseImageSpacing m_ParabolicAlgorithm inputImage outputImage =
      (List.finRange (D + 1)).foldl
        (fun out d => doOneDimension true traits cast out (size d) d m_UseImageSpacing
          (spacing d) (m_Scale d) m_ParabolicAlgorithm)
        ((List.finRange D).foldl
          (fun out d => doOneDimension false traits cast out (size d.succ) d.succ
            m_UseImageSpacing (spacing d.succ) (m_Scale d.succ) m_ParabolicAlgorithm)
          (doOneDimension false traits cast (fun p => some (inputImage p)) (size 0) 0
            m_UseImageSpacing (spacing 0) (m_Scale 0) m_ParabolicAlgorithm)) ∧
    ParabolicOpenCloseImageFilter.GenerateData false traits cast size spacing m_Scale
        m_UseImageSpacing m_ParabolicAlgorithm inputImage outputImage =
      (List.finRange (D + 1)).foldl
        (fun out d => doOneDimension false traits cast out (size d) d m_UseImageSpacing
          (spacing d) (m_Scale d) m_ParabolicAlgorithm)
        ((List.finRange D).foldl
          (fun out d => doOneDimension true traits cast out (size d.succ) d.succ
            m_UseImageSpacing (spacing d.succ) (m_Scale d.succ) m_ParabolicAlgorithm)
          (doOneDimension true traits cast (fun p => some (inputImage p)) (size 0) 0
            m_UseImageSpacing (spacing 0) (m_Scale 0) m_ParabolicAlgorithm)) := by
  constructor <;>
  · unfold ParabolicOpenCloseImageFilter.GenerateData
    simp only
    congr 1
    · funext out d
      simp [ParabolicOpenCloseImageFilter.ThreadedGenerateData, hscale d]
    · rw [List.finRange_succ_eq_map, List.foldl_cons, List.foldl_map]
      congr 1
      · funext out d
        simp [ParabolicOpenCloseImageFilter.ThreadedGenerateData, hscale d.succ]
      · simp [ParabolicOpenCloseImageFilter.ThreadedGenerateData, hscale 0]

/-- C20, scale 0 skips an axis: a call of `ThreadedGenerateData` for an axis of scale 0 does not go through `doOneDimension`; in stage 1 on axis 0 it writes the cast input to the output, in every other case it leaves the output as it is.  When every scale is 0 the output of `GenerateData` is the input cast to the output pixel type. -/
theorem OpenClose_zero_scale {D : ℕ} (DoOpen : Bool) (traits : PixelTraits α) (cast : α → α)
    (size : Fin (D + 1) → ℕ) (spacing m_Scale : Fin (D + 1) → α) (m_UseImageSpacing : Bool)
    (m_ParabolicAlgorithm : ℤ) (inputImage : Index (D + 1) → α)
    (outputImage : Pixels (D + 1) α) :
    (∀ (m_Stage : ℕ) (d : Fin (D + 1)), m_Scale d = 0 →
      ParabolicOpenCloseImageFilter.ThreadedGenerateData DoOpen traits cast size spacing m_Scale
          m_UseImageSpacing m_ParabolicAlgorithm m_Stage d inputImage outputImage =
        if m_Stage = 1 ∧ d = 0 then (fun p => some (cast (inputImage p))) else outputImage) ∧
    ((∀ d, m_Scale d = 0) →
      ParabolicOpenCloseImageFilter.GenerateData DoOpen traits cast size spacing m_Scale
          m_UseImageSpacing m_ParabolicAlgorithm inputImage outputImage =
        fun p => some (cast (inputImage p))) := by
  have hpass : ∀ (m_Stage : ℕ) (d : Fin (D + 1)) (out : Pixels (D + 1) α), m_Scale d = 0 →
      ParabolicOpenCloseImageFilter.ThreadedGenerateData DoOpen traits cast size spacing m_Scale
          m_UseImageSpacing m_ParabolicAlgorithm m_Stage d inputImage out =
        if m_Stage = 1 ∧ d = 0 then (fun p => some (cast (inputImage p))) else out := by
    intro m_Stage d out hd
    have hval : d.val = 0 ↔ d = 0 := by
      constructor
      · intro h
        exact Fin.ext h
      · intro h
        rw [h]
        rfl
    unfold ParabolicOpenCloseImageFilter.ThreadedGenerateData
    rw [hd]
    simp only [lt_irrefl, if_false]
    by_cases hs : m_Stage = 1
    · by_cases h0 : d = 0
      · rw [if_pos hs, if_pos (hval.mpr h0), if_pos ⟨hs, h0⟩]
      · rw [if_pos hs, if_neg (fun h => h0 (hval.mp h)), if_neg (fun h => h0 h.2)]
    · rw [if_neg hs, if_neg (fun h => hs h.1)]
  refine ⟨fun m_Stage d hd => hpass m_Stage d outputImage hd, ?_⟩
  intro hall
  unfold ParabolicOpenCloseImageFilter.GenerateData
  simp only
  rw [foldl_const_step _ (by
    intro out d
    rw [hpass 2 d out (hall d), if_neg (by simp)])]
  rw [List.finRange_succ_eq_map, List.foldl_cons, List.foldl_map]
  rw [foldl_const_step _ (by
    intro out d
    rw [hpass 1 d.succ out (hall d.succ), if_neg (fun h => Fin.succ_ne_zero d h.2)])]
  rw [hpass 1 0 outputImage (hall 0), if_pos ⟨rfl, rfl⟩]

theorem OpenClose_stage_order_witness :
    ParabolicOpenCloseImageFilter.GenerateData true (⟨0, 255⟩ : PixelTraits ℚ) id lineSize
        (fun _ => 1) (fun _ => 1) false INTERSECTION peakInput (fun _ => none) =
      (List.finRange (0 + 1)).foldl
        (fun out d => doOneDimension true (⟨0, 255⟩ : PixelTraits ℚ) id out (lineSize d) d false
          1 1 INTERSECTION)
        ((List.finRange 0).foldl
          (fun out d => doOneDimension false (⟨0, 255⟩ : PixelTraits ℚ) id out
            (lineSize d.succ) d.succ false 1 1 INTERSECTION)
          (doOneDimension false (⟨0, 255⟩ : PixelTraits ℚ) id (fun p => some (peakInput p))
            (lineSize 0) 0 false 1 1 INTERSECTION)) :=
  (OpenClose_stage_order (⟨0, 255⟩ : PixelTraits ℚ) id lineSize (fun _ => 1) (fun _ => 1) false
    INTERSECTION peakInput (fun _ => none) (fun _ => by norm_num)).1

theorem OpenClose_zero_scale_witness :
    ParabolicOpenCloseImageFilter.GenerateData true (⟨0, 255⟩ : PixelTraits ℚ) id lineSize
        (fun _ => 1) (fun _ => 0) false INTERSECTION peakInput (fun _ => none) =
      fun p => some (id (peakInput p)) :=
  (OpenClose_zero_scale true (⟨0, 255⟩ : PixelTraits ℚ) id lineSize (fun _ => 1) (fun _ => 0)
    false INTERSECTION peakInput (fun _ => none)).2 (fun _ => rfl)

/-! ## Runs of `DoLineIntAlg` that stay inside the index range -/

theorem envInv_sentinel_down {L : List α} {m : α} {q : ℕ} {st : EnvState α}
    (hinv : EnvInv L m q st) :
    ∀ i, i ≤ st.k →
      st.z i < (precompute false L m q - precompute false L m (st.v i)) /
        (2 * ((q : α) - (st.v i : α))) →
      st.z 0 < (precompute false L m q - precompute false L m (st.v 0)) /
        (2 * ((q : α) - (st.v 0 : α))) := by
  intro i
  induction i with
  | zero => intro _ h; exact h
  | succ i ih =>
    intro hi h
    have hv1 : st.v (i + 1) < q := hinv.v_lt (i + 1) hi
    have hv0 : st.v i < q := hinv.v_lt i (by omega)
    have hz : st.z i < st.z (i + 1) := hinv.z_strict i (by omega)
    have h1 : ¬ envLine (precompute false L m) q (st.z (i + 1)) ≤
        envLine (precompute false L m) (st.v (i + 1)) (st.z (i + 1)) := by
      rw [envLine_le_iff _ _ _ hv1]
      exact not_le.mpr h
    have h2 := hinv.env i (by omega) (st.z (i + 1)) (Or.inr (le_of_lt hz)) (Or.inr (le_refl _))
      (st.v (i + 1)) hv1
    have h3 : ¬ envLine (precompute false L m) q (st.z (i + 1)) ≤
        envLine (precompute false L m) (st.v i) (st.z (i + 1)) := by
      intro h'
      exact h1 (le_trans h' h2)
    rw [envLine_le_iff _ _ _ hv0] at h3
    exact ih (by omega) (lt_trans hz (not_le.mp h3))

theorem popLoop_some (F : ℕ → α) (v : ℕ → ℕ) (z : ℕ → α) (q : ℕ) :
    ∀ c r, popLoop false F v z q c = some r →
      r.1 < c ∧ r.2 = intersection false F v q r.1 ∧ z r.1 < r.2 := by
  intro c
  induction c with
  | zero =>
    intro r h
    simp [popLoop] at h
  | succ c ih =>
    intro r h
    simp only [popLoop] at h
    by_cases hs : intersection false F v q c ≤ z c
    · rw [if_pos hs] at h
      obtain ⟨h1, h2, h3⟩ := ih r h
      exact ⟨by omega, h2, h3⟩
    · rw [if_neg hs] at h
      have hr : r = (c, intersection false F v q c) := (Option.some.inj h).symm
      subst hr
      exact ⟨Nat.lt_succ_self c, rfl, not_le.mp hs⟩

theorem mainStep_sentinel {L : List α} {m : α} {q : ℕ} {st : EnvState α}
    (hinv : EnvInv L m q st) (hsome : mainStep false L m q st ≠ none) :
    (intNonpositiveMin : α) <
      (precompute false L m q - precompute false L m 0) / (2 * ((q : α) - ((0 : ℕ) : α))) := by
  have hF' : ∀ j, j ≤ q →
      Function.update st.F q (precompute false L m q) j = precompute false L m j := by
    intro j hj
    by_cases h : j = q
    · subst h; simp
    · rw [Function.update_noteq h]; exact hinv.F_eq j (by omega)
  cases hpop : popLoop false (Function.update st.F q (precompute false L m q)) st.v st.z q
      (st.k + 1) with
  | none =>
    exfalso
    apply hsome
    simp only [mainStep]
    rw [hpop]
  | some r =>
    obtain ⟨h1, h2, h3⟩ := popLoop_some _ _ _ _ _ _ hpop
    have hr : r.1 ≤ st.k := by omega
    have hvr : st.v r.1 < q := hinv.v_lt r.1 hr
    rw [h2] at h3
    unfold intersection at h3
    rw [if_neg (by decide), hF' q (le_refl _), hF' (st.v r.1) (le_of_lt hvr)] at h3
    have h4 := envInv_sentinel_down hinv r.1 hr h3
    rw [hinv.z_zero, hinv.v_zero] at h4
    exact h4

theorem mainLoop_sentinel {L : List α} {m : α} :
    ∀ n q st, 1 ≤ q → q + n = L.length → EnvInv L m q st →
      mainLoop false L m n q st ≠ none →
      ∀ q', q ≤ q' → q' < L.length → (intNonpositiveMin : α) <
        (precompute false L m q' - precompute false L m 0) /
          (2 * ((q' : α) - ((0 : ℕ) : α))) := by
  intro n
  induction n with
  | zero =>
    intro q st _ hq _ _ q' h1 h2
    omega
  | succ n ih =>
    intro q st hq1 hqn hinv hsome q' h1 h2
    have hstep : mainStep false L m q st ≠ none := by
      intro h
      apply hsome
      simp only [mainLoop]
      rw [h]
    have hsq := mainStep_sentinel hinv hstep
    obtain ⟨st', hst', hinv'⟩ := mainStep_erode hinv hsq
    by_cases hqq : q' = q
    · subst hqq; exact hsq
    · refine ih (q + 1) st' (by omega) (by omega) hinv' ?_ q' (by omega) h2
      intro h
      apply hsome
      simp only [mainLoop]
      rw [hst']
      exact h

theorem envInv_init (x : α) (t : List α) (F : ℕ → α) (v : ℕ → ℕ) (z : ℕ → α) (m : α) :
    EnvInv (x :: t) m 1
      { k := 0
        F := Function.update F 0 (x / m)
        v := Function.update v 0 0
        z := Function.update (Function.update z 0 ((intNonpositiveMin : ℤ) : α)) 1
          ((intMax : ℤ) : α) } := by
  constructor
  · exact Nat.zero_lt_one
  · intro i hi
    change i ≤ 0 at hi
    have : i = 0 := by omega
    subst this
    simp
  · simp
  · simp
  · intro i hi; exact absurd hi (Nat.not_lt_zero _)
  · intro j hj
    have : j = 0 := by omega
    subst this
    simp [precompute]
  · simp
  · simp
  · intro i hi; exact absurd hi (Nat.not_lt_zero _)
  · intro i hi x' _ _ j hj
    change i ≤ 0 at hi
    have hi0 : i = 0 := by omega
    have hj0 : j = 0 := by omega
    subst hi0; subst hj0
    simp

theorem DoLineIntAlg_erode_sentinel (L : List α) (F : ℕ → α) (v : ℕ → ℕ) (z : ℕ → α) (m : α)
    (hsome : DoLineIntAlg false L F v z m ≠ none) :
    L ≠ [] ∧ ∀ q, 1 ≤ q → q < L.length → (intNonpositiveMin : α) <
      (precompute false L m q - precompute false L m 0) / (2 * ((q : α) - ((0 : ℕ) : α))) := by
  cases L with
  | nil => exact absurd rfl hsome
  | cons x t =>
    refine ⟨List.cons_ne_nil x t, ?_⟩
    intro q hq hqN
    refine mainLoop_sentinel ((x :: t).length - 1) 1 _ (le_refl _)
      (by simp only [List.length_cons]; omega) (envInv_init x t F v z m) ?_ q hq hqN
    intro h
    apply hsome
    simp only [DoLineIntAlg]
    rw [h]

theorem DoLineIntAlg_erode_of_ne_none (L : List α) (F : ℕ → α) (v : ℕ → ℕ) (z : ℕ → α)
    (m : α) (hN : L.length ≤ 2 ^ 31) (hm : 0 < m)
    (hsome : DoLineIntAlg false L F v z m ≠ none) :
    DoLineIntAlg false L F v z m = some (erodedLine L m) := by
  obtain ⟨hL, hsent⟩ := DoLineIntAlg_erode_sentinel L F v z m hsome
  exact DoLineIntAlg_erode_spec L F v z m hL hN hm hsent

theorem DoLineIntAlg_dilate_of_ne_none (L : List α) (F : ℕ → α) (v : ℕ → ℕ) (z : ℕ → α)
    (m : α) (hN : L.length ≤ 2 ^ 31) (hm : 0 < m)
    (hsome : DoLineIntAlg true L F v z m ≠ none) :
    DoLineIntAlg true L F v z m = some (dilatedLine L m) := by
  have hd := DoLineIntAlg_dual (negLine L) F F v z m
  rw [negLine_negLine] at hd
  have hne : DoLineIntAlg false (negLine L) F v z m ≠ none := by
    rw [hd]
    cases h : DoLineIntAlg true L F v z m with
    | none => exact absurd h hsome
    | some out => simp
  have he := DoLineIntAlg_erode_of_ne_none (negLine L) F v z m
    (by rw [length_negLine]; exact hN) hm hne
  rw [hd] at he
  cases h : DoLineIntAlg true L F v z m with
  | none => exact absurd h hsome
  | some out =>
    rw [h] at he
    simp only [Option.map_some'] at he
    have he' := Option.some.inj he
    rw [dilatedLine_eq_neg, ← he', negLine_negLine]

theorem doOneDimensionLine_of_ne_none (doDilate : Bool) (traits : PixelTraits α)
    (useSpacing : Bool) (image_scale Sigma : α) (algorithm : ℤ) (L : List α)
    (hN : L.length ≤ 2 ^ 31) (hSigma : 0 < Sigma) (hscale : 0 < image_scale)
    (hrange : algorithmChoice algorithm Sigma = CONTACTPOINT →
      ∀ i, i < L.length → traits.NonpositiveMin ≤ L.getD i 0 ∧ L.getD i 0 ≤ traits.max)
    (hsome : doOneDimensionLine doDilate traits useSpacing image_scale Sigma algorithm L ≠
      none) :
    doOneDimensionLine doDilate traits useSpacing image_scale Sigma algorithm L =
      some (specLine doDilate (if useSpacing then image_scale else 1) Sigma L) := by
  by_cases hc : algorithmChoice algorithm Sigma = CONTACTPOINT
  · exact doOneDimensionLine_contactPoint doDilate traits useSpacing image_scale Sigma
      algorithm L hc hSigma hscale (fun _ i hi => (hrange hc i hi).1)
      (fun _ i hi => (hrange hc i hi).2)
  · have hi : (0 : α) < (if useSpacing then image_scale else 1) := by
      split
      · exact hscale
      · exact one_pos
    have hm : (0 : α) < ((if useSpacing then image_scale else 1) *
        (if useSpacing then image_scale else 1)) / (2 * Sigma) :=
      div_pos (mul_pos hi hi) (by linarith)
    have hdef : doOneDimensionLine doDilate traits useSpacing image_scale Sigma algorithm L =
        DoLineIntAlg doDilate L (fun _ => 0) (fun _ => 0) (fun _ => 0)
          (((if useSpacing then image_scale else 1) *
            (if useSpacing then image_scale else 1)) / (2 * Sigma)) := by
      simp only [doOneDimensionLine]
      rw [if_neg hc]
    rw [hdef] at hsome ⊢
    cases doDilate with
    | true =>
      rw [DoLineIntAlg_dilate_of_ne_none L _ _ _ _ hN hm hsome]
      simp [specLine]
    | false =>
      rw [DoLineIntAlg_erode_of_ne_none L _ _ _ _ hN hm hsome]
      simp [specLine]

/-! ## Passes that stay inside the index range -/

theorem specPass_range {D : ℕ} (doDilate : Bool) (size : Fin D → ℕ) (d : Fin D) (m lo hi : α)
    (hm : 0 ≤ m) (g : Index D → α)
    (hb : ∀ p, InRegion size p → lo ≤ g p ∧ g p ≤ hi) (p : Index D) (hp : InRegion size p) :
    lo ≤ specPass doDilate (size d) d m g p ∧ specPass doDilate (size d) d m g p ≤ hi := by
  have hlen : (lineOf g d p (size d)).length = size d := length_lineOf _ _ _ _
  have hpd : p d < (lineOf g d p (size d)).length := by rw [hlen]; exact hp d
  have hLb : ∀ i, i < (lineOf g d p (size d)).length →
      lo ≤ (lineOf g d p (size d)).getD i 0 ∧ (lineOf g d p (size d)).getD i 0 ≤ hi := by
    intro i hi'
    rw [hlen] at hi'
    rw [getD_lineOf g d p _ i hi']
    exact hb _ (inRegion_update size p d i hp hi')
  have hself : (lineOf g d p (size d)).getD (p d) 0 = g p := by
    rw [getD_lineOf g d p _ (p d) (hp d), Function.update_eq_self]
  unfold specPass
  cases doDilate with
  | true =>
    simp only [if_true]
    constructor
    · refine le_trans ?_ (self_le_parabolicDilation _ m (p d) hpd)
      rw [hself]; exact (hb p hp).1
    · exact parabolicDilation_le _ m hm (p d) hi (by omega) (fun i hi' => (hLb i hi').2)
  | false =>
    simp only [Bool.false_eq_true, if_false]
    constructor
    · exact le_parabolicErosion _ m hm (p d) lo (by omega) (fun i hi' => (hLb i hi').1)
    · refine le_trans (parabolicErosion_le_self _ m (p d) hpd) ?_
      rw [hself]; exact (hb p hp).2

theorem readLine_none {D : ℕ} (input : Pixels D α) (d : Fin D) (p : Index D) :
    ∀ n i, i < n → input (Function.update p d i) = none → readLine input d p n = none := by
  intro n
  induction n with
  | zero => intro i hi; exact absurd hi (Nat.not_lt_zero _)
  | succ n ih =>
    intro i hi hnone
    simp only [readLine]
    by_cases hin : i = n
    · subst hin
      rw [hnone]
      cases readLine input d p i <;> rfl
    · rw [ih i (by omega) hnone]

theorem doOneDimension_none_of_none {D : ℕ} (doDilate : Bool) (traits : PixelTraits α)
    (cast : α → α) (img : Pixels D α) (n : ℕ) (d : Fin D) (useSpacing : Bool)
    (image_scale Sigma : α) (algorithm : ℤ) (p : Index D) (hp : p d < n)
    (hnone : img p = none) :
    doOneDimension doDilate traits cast img n d useSpacing image_scale Sigma algorithm p =
      none := by
  have h : readLine img d p n = none :=
    readLine_none img d p n (p d) hp (by rw [Function.update_eq_self]; exact hnone)
  simp only [doOneDimension]
  rw [h]

theorem pass_of_ne_none {D : ℕ} (doDilate : Bool) (traits : PixelTraits α) (size : Fin D → ℕ)
    (spacing scale : Fin D → α) (useSpacing : Bool) (algorithm : ℤ) (d : Fin D)
    (hscale : 0 < scale d) (hsp : 0 < spacing d) (hN : size d ≤ 2 ^ 31)
    (img : Pixels D α) (g : Index D → α)
    (hag : ∀ p, InRegion size p → img p = some (g p))
    (hrange : algorithmChoice algorithm (scale d) = CONTACTPOINT →
      ∀ p, InRegion size p → traits.NonpositiveMin ≤ g p ∧ g p ≤ traits.max)
    (p : Index D) (hp : InRegion size p)
    (hsome : doOneDimension doDilate traits id img (size d) d useSpacing (spacing d) (scale d)
      algorithm p ≠ none) :
    doOneDimension doDilate traits id img (size d) d useSpacing (spacing d) (scale d)
        algorithm p =
      some (specPass doDilate (size d) d (curvature useSpacing spacing scale d) g p) := by
  have hlen : (lineOf g d p (size d)).length = size d := length_lineOf _ _ _ _
  have hpd : p d < (lineOf g d p (size d)).length := by rw [hlen]; exact hp d
  have hread : readLine img d p (size d) = some (lineOf g d p (size d)) :=
    readLine_some img g d p (size d) (fun i hi => hag _ (inRegion_update size p d i hp hi))
  have hne : doOneDimensionLine doDilate traits useSpacing (spacing d) (scale d) algorithm
      (lineOf g d p (size d)) ≠ none := by
    intro h
    apply hsome
    simp only [doOneDimension]
    rw [hread]
    simp only
    rw [h]
  have hline := doOneDimensionLine_of_ne_none doDilate traits useSpacing (spacing d) (scale d)
    algorithm (lineOf g d p (size d)) (by rw [hlen]; exact hN) hscale hsp
    (by
      intro hc i hi
      rw [hlen] at hi
      rw [getD_lineOf g d p _ i hi]
      exact hrange hc _ (inRegion_update size p d i hp hi))
    hne
  simp only [doOneDimension]
  rw [hread]
  simp only
  rw [hline]
  simp only
  rw [getElem?_specLine doDilate _ _ _ (p d) hpd]
  rfl

theorem foldl_passes_none {D : ℕ} (doDilate : Bool) (traits : PixelTraits α) (cast : α → α)
    (size : Fin D → ℕ) (spacing scale : Fin D → α) (useSpacing : Bool) (algorithm : ℤ)
    (p : Index D) (hp : InRegion size p) :
    ∀ (ds : List (Fin D)) (img : Pixels D α), img p = none →
      ds.foldl (fun out d => doOneDimension doDilate traits cast out (size d) d useSpacing
        (spacing d) (scale d) algorithm) img p = none := by
  intro ds
  induction ds with
  | nil => intro img h; exact h
  | cons d ds ih =>
    intro img h
    rw [List.foldl_cons]
    exact ih _ (doOneDimension_none_of_none doDilate traits cast img (size d) d useSpacing
      (spacing d) (scale d) algorithm p (hp d) h)

theorem foldl_passes_of_ne_none {D : ℕ} (doDilate : Bool) (traits : PixelTraits α)
    (size : Fin D → ℕ) (spacing scale : Fin D → α) (useSpacing : Bool) (algorithm : ℤ)
    (hscale : ∀ d, 0 < scale d) (hsp : ∀ d, 0 < spacing d) (hN : ∀ d, size d ≤ 2 ^ 31) :
    ∀ (ds : List (Fin D)) (img : Pixels D α) (g : Index D → α),
      (∀ p, InRegion size p → img p = some (g p)) →
      ((∃ d, algorithmChoice algorithm (scale d) = CONTACTPOINT) →
        ∀ p, InRegion size p → traits.NonpositiveMin ≤ g p ∧ g p ≤ traits.max) →
      (∀ p, InRegion size p →
        ds.foldl (fun out d => doOneDimension doDilate traits id out (size d) d useSpacing
          (spacing d) (scale d) algorithm) img p ≠ none) →
      (∀ p, InRegion size p →
        ds.foldl (fun out d => doOneDimension doDilate traits id out (size d) d useSpacing
          (spacing d) (scale d) algorithm) img p =
        some (specFold doDilate size (curvature useSpacing spacing scale) ds g p)) ∧
      ((∃ d, algorithmChoice algorithm (scale d) = CONTACTPOINT) →
        ∀ p, InRegion size p →
          traits.NonpositiveMin ≤
            specFold doDilate size (curvature useSpacing spacing scale) ds g p ∧
          specFold doDilate size (curvature useSpacing spacing scale) ds g p ≤ traits.max) := by
  intro ds
  induction ds with
  | nil =>
    intro img g hag hr _
    exact ⟨hag, hr⟩
  | cons d ds ih =>
    intro img g hag hr hsome
    have hi : (0 : α) < (if useSpacing then spacing d else 1) := by
      split
      · exact hsp d
      · exact one_pos
    have hm : (0 : α) < curvature useSpacing spacing scale d :=
      div_pos (mul_pos hi hi) (by linarith [hscale d])
    have hpass : ∀ p, InRegion size p →
        doOneDimension doDilate traits id img (size d) d useSpacing (spacing d) (scale d)
          algorithm p =
        some (specPass doDilate (size d) d (curvature useSpacing spacing scale d) g p) := by
      intro p hp
      refine pass_of_ne_none doDilate traits size spacing scale useSpacing algorithm d
        (hscale d) (hsp d) (hN d) img g hag (fun hc => hr ⟨d, hc⟩) p hp ?_
      intro h
      apply hsome p hp
      rw [List.foldl_cons]
      exact foldl_passes_none doDilate traits id size spacing scale useSpacing algorithm p hp
        ds _ h
    simp only [List.foldl_cons, specFold] at hsome ⊢
    exact ih _ _ hpass
      (fun hex p hp => specPass_range doDilate size d _ _ _ (le_of_lt hm) g (hr hex) p hp)
      hsome

theorem OpenClose_GenerateData_eq {D : ℕ} (DoOpen : Bool) (traits : PixelTraits α)
    (cast : α → α) (size : Fin (D + 1) → ℕ) (spacing m_Scale : Fin (D + 1) → α)
    (m_UseImageSpacing : Bool) (m_ParabolicAlgorithm : ℤ) (inputImage : Index (D + 1) → α)
    (outputImage : Pixels (D + 1) α) (hscale : ∀ d, 0 < m_Scale d) :
    ParabolicOpenCloseImageFilter.GenerateData DoOpen traits cast size spacing m_Scale
        m_UseImageSpacing m_ParabolicAlgorithm inputImage outputImage =
      (List.finRange (D + 1)).foldl
        (fun out d => doOneDimension DoOpen traits cast out (size d) d m_UseImageSpacing
          (spacing d) (m_Scale d) m_ParabolicAlgorithm)
        ((List.finRange (D + 1)).foldl
          (fun out d => doOneDimension (!DoOpen) traits cast out (size d) d
            m_UseImageSpacing (spacing d) (m_Scale d) m_ParabolicAlgorithm)
          (fun p => some (inputImage p))) := by
  unfold ParabolicOpenCloseImageFilter.GenerateData
  simp only
  congr 1
  · funext out d
    simp [ParabolicOpenCloseImageFilter.ThreadedGenerateData, hscale d]
  · rw [List.finRange_succ_eq_map, List.foldl_cons, List.foldl_cons, List.foldl_map,
      List.foldl_map]
    congr 1
    · funext out d
      simp [ParabolicOpenCloseImageFilter.ThreadedGenerateData, hscale d.succ]
    · simp [ParabolicOpenCloseImageFilter.ThreadedGenerateData, hscale 0]

theorem OpenClose_of_ne_none {D : ℕ} (DoOpen : Bool) (traits : PixelTraits α)
    (size : Fin (D + 1) → ℕ) (spacing m_Scale : Fin (D + 1) → α) (m_UseImageSpacing : Bool)
    (m_ParabolicAlgorithm : ℤ) (f : Index (D + 1) → α) (outputImage : Pixels (D + 1) α)
    (hscale : ∀ d, 0 < m_Scale d) (hsp : ∀ d, 0 < spacing d) (hN : ∀ d, size d ≤ 2 ^ 31)
    (hrange : (∃ d, algorithmChoice m_ParabolicAlgorithm (m_Scale d) = CONTACTPOINT) →
      ∀ p, InRegion size p → traits.NonpositiveMin ≤ f p ∧ f p ≤ traits.max)
    (hsome : ∀ p, InRegion size p →
      ParabolicOpenCloseImageFilter.GenerateData DoOpen traits id size spacing m_Scale
        m_UseImageSpacing m_ParabolicAlgorithm f outputImage p ≠ none) :
    ∀ p, InRegion size p →
      ParabolicOpenCloseImageFilter.GenerateData DoOpen traits id size spacing m_Scale
          m_UseImageSpacing m_ParabolicAlgorithm f outputImage p =
        some (specFold DoOpen size (curvature m_UseImageSpacing spacing m_Scale)
          (List.finRange (D + 1))
          (specFold (!DoOpen) size (curvature m_UseImageSpacing spacing m_Scale)
            (List.finRange (D + 1)) f) p) := by
  rw [OpenClose_GenerateData_eq DoOpen traits id size spacing m_Scale m_UseImageSpacing
    m_ParabolicAlgorithm f outputImage hscale] at hsome ⊢
  have h1ne : ∀ p, InRegion size p →
      (List.finRange (D + 1)).foldl
        (fun out d => doOneDimension (!DoOpen) traits id out (size d) d
          m_UseImageSpacing (spacing d) (m_Scale d) m_ParabolicAlgorithm)
        (fun p => some (f p)) p ≠ none := by
    intro p hp h
    exact hsome p hp (foldl_passes_none DoOpen traits id size spacing m_Scale
      m_UseImageSpacing m_ParabolicAlgorithm p hp _ _ h)
  obtain ⟨h1, h1r⟩ := foldl_passes_of_ne_none (!DoOpen) traits size spacing m_Scale
    m_UseImageSpacing m_ParabolicAlgorithm hscale hsp hN (List.finRange (D + 1))
    (fun p => some (f p)) f (fun _ _ => rfl) hrange h1ne
  exact (foldl_passes_of_ne_none DoOpen traits size spacing m_Scale
    m_UseImageSpacing m_ParabolicAlgorithm hscale hsp hN (List.finRange (D + 1)) _ _ h1 h1r
    hsome).1

/-! ## Idempotence of opening and closing -/

theorem cost_symm {D : ℕ} (m : Fin D → α) (ds : List (Fin D)) (p q : Index D) :
    cost m ds p q = cost m ds q p := by
  unfold cost
  congr 1
  apply List.map_congr_left
  intro d _
  ring

theorem lineOf_congr {D : ℕ} (A B : Index D → α) (d : Fin D) (p : Index D) (n : ℕ)
    (h : ∀ i, i < n → A (Function.update p d i) = B (Function.update p d i)) :
    lineOf A d p n = lineOf B d p n := by
  unfold lineOf
  apply List.map_congr_left
  intro i hi
  exact h i (List.mem_range.mp hi)

theorem specFold_congr {D : ℕ} (doDilate : Bool) (size : Fin D → ℕ) (m : Fin D → α) :
    ∀ (ds : List (Fin D)) (A B : Index D → α), (∀ p, InRegion size p → A p = B p) →
      ∀ p, InRegion size p → specFold doDilate size m ds A p = specFold doDilate size m ds B p := by
  intro ds
  induction ds with
  | nil => intro A B h p hp; exact h p hp
  | cons d ds ih =>
    intro A B h p hp
    simp only [specFold, List.foldl_cons]
    refine ih _ _ ?_ p hp
    intro r hr
    unfold specPass
    rw [lineOf_congr A B d r (size d) (fun i hi => h _ (inRegion_update size r d i hr hi))]

theorem specFold_range {D : ℕ} (doDilate : Bool) (size : Fin D → ℕ) (m : Fin D → α)
    (lo hi : α) (hm : ∀ d, 0 ≤ m d) :
    ∀ (ds : List (Fin D)) (g : Index D → α), (∀ p, InRegion size p → lo ≤ g p ∧ g p ≤ hi) →
      ∀ p, InRegion size p →
        lo ≤ specFold doDilate size m ds g p ∧ specFold doDilate size m ds g p ≤ hi := by
  intro ds
  induction ds with
  | nil => intro g h p hp; exact h p hp
  | cons d ds ih =>
    intro g h p hp
    simp only [specFold, List.foldl_cons]
    exact ih _ (fun r hr => specPass_range doDilate size d (m d) lo hi (hm d) g h r hr) p hp

theorem specFold_dilate_closed {D : ℕ} (size : Fin D → ℕ) (m : Fin D → α) (T : Index D → α)
    (p : Index D) (hp : InRegion size p) :
    IsGreatest {y | ∃ q, InRegion size q ∧ y = T q - cost m (List.finRange D) p q}
      (specFold true size m (List.finRange D) T p) := by
  have h := specFold_erode_closed size m (fun q => -T q) p hp
  rw [specFold_dilate_eq_neg]
  constructor
  · obtain ⟨q, hq, hy⟩ := h.1
    exact ⟨q, hq, by rw [hy]; ring⟩
  · rintro y ⟨q, hq, rfl⟩
    have h2 : specFold false size m (List.finRange D) (fun q => -T q) p ≤
        -T q + cost m (List.finRange D) p q := h.2 ⟨q, hq, rfl⟩
    linarith

theorem specFold_erode_dilate_erode {D : ℕ} (size : Fin D → ℕ) (m : Fin D → α)
    (T : Index D → α) (p : Index D) (hp : InRegion size p) :
    specFold false size m (List.finRange D)
        (specFold true size m (List.finRange D) (specFold false size m (List.finRange D) T)) p =
      specFold false size m (List.finRange D) T p := by
  apply le_antisymm
  · obtain ⟨q, hq, hA⟩ := (specFold_erode_closed size m T p hp).1
    have h1 := (specFold_erode_closed size m
      (specFold true size m (List.finRange D) (specFold false size m (List.finRange D) T))
      p hp).2 ⟨q, hq, rfl⟩
    obtain ⟨r, hr, hB⟩ := (specFold_dilate_closed size m
      (specFold false size m (List.finRange D) T) q hq).1
    have h2 := (specFold_erode_closed size m T r hr).2 ⟨q, hq, rfl⟩
    have h3 := cost_symm m (List.finRange D) r q
    rw [hA]
    linarith
  · obtain ⟨q, hq, hG⟩ := (specFold_erode_closed size m
      (specFold true size m (List.finRange D) (specFold false size m (List.finRange D) T))
      p hp).1
    have h1 := (specFold_dilate_closed size m
      (specFold false size m (List.finRange D) T) q hq).2 ⟨p, hp, rfl⟩
    have h3 := cost_symm m (List.finRange D) q p
    rw [hG]
    linarith

theorem specFold_neg {D : ℕ} (doDilate : Bool) (size : Fin D → ℕ) (m : Fin D → α)
    (ds : List (Fin D)) (T : Index D → α) :
    specFold doDilate size m ds T =
      fun p => -specFold (!doDilate) size m ds (fun q => -T q) p := by
  funext p
  cases doDilate with
  | true => exact specFold_dilate_eq_neg size m ds T p
  | false =>
    have h := specFold_dilate_eq_neg size m ds (fun q => -T q) p
    simp only [neg_neg] at h
    simp only [Bool.not_false]
    rw [h, neg_neg]

theorem specFold_dilate_erode_dilate {D : ℕ} (size : Fin D → ℕ) (m : Fin D → α)
    (T : Index D → α) (p : Index D) (hp : InRegion size p) :
    specFold true size m (List.finRange D)
        (specFold false size m (List.finRange D) (specFold true size m (List.finRange D) T)) p =
      specFold true size m (List.finRange D) T p := by
  rw [specFold_neg true size m _ T]
  rw [specFold_neg false size m _ (fun p => -specFold (!true) size m (List.finRange D)
    (fun q => -T q) p)]
  rw [specFold_neg true size m _ (fun p => -specFold (!false) size m (List.finRange D)
    (fun q => - -specFold (!true) size m (List.finRange D) (fun q => -T q) q) p)]
  simp only [neg_neg, Bool.not_true, Bool.not_false, neg_inj]
  exact specFold_erode_dilate_erode size m (fun q => -T q) p hp

theorem specFold_open_close_idem {D : ℕ} (DoOpen : Bool) (size : Fin D → ℕ) (m : Fin D → α)
    (T : Index D → α) (p : Index D) (hp : InRegion size p) :
    specFold DoOpen size m (List.finRange D) (specFold (!DoOpen) size m (List.finRange D)
        (specFold DoOpen size m (List.finRange D)
          (specFold (!DoOpen) size m (List.finRange D) T))) p =
      specFold DoOpen size m (List.finRange D)
        (specFold (!DoOpen) size m (List.finRange D) T) p := by
  apply specFold_congr DoOpen size m (List.finRange D) _ _ _ p hp
  intro r hr
  cases DoOpen with
  | true => exact specFold_erode_dilate_erode size m T r hr
  | false => exact specFold_dilate_erode_dilate size m T r hr

/-- C18, idempotence of opening and closing: for an image of dimension at least 1, positive scales and spacing, the identity as per-pass cast and line lengths within the `int` index range (and, where the contact point algorithm is selected, input values within the range of the pixel type), when the filter run on `f` returns the image `g` on the region and the run on `g` does not leave the index range of its buffers (the `z[0]` sentinel is not reached), the run on `g` returns `g` itself: `open(open(f)) = open(f)` with `DoOpen = true` and `close(close(f)) = close(f)` with `DoOpen = false`. -/
theorem OpenClose_idempotent {D : ℕ} (DoOpen : Bool) (traits : PixelTraits α)
    (size : Fin (D + 1) → ℕ) (spacing m_Scale : Fin (D + 1) → α) (m_UseImageSpacing : Bool)
    (m_ParabolicAlgorithm : ℤ) (f g : Index (D + 1) → α)
    (outputImage outputImage2 : Pixels (D + 1) α)
    (hscale : ∀ d, 0 < m_Scale d) (hsp : ∀ d, 0 < spacing d) (hN : ∀ d, size d ≤ 2 ^ 31)
    (hrange : (∃ d, algorithmChoice m_ParabolicAlgorithm (m_Scale d) = CONTACTPOINT) →
      ∀ p, InRegion size p → traits.NonpositiveMin ≤ f p ∧ f p ≤ traits.max)
    (hfirst : ∀ p, InRegion size p →
      ParabolicOpenCloseImageFilter.GenerateData DoOpen traits id size spacing m_Scale
        m_UseImageSpacing m_ParabolicAlgorithm f outputImage p = some (g p))
    (hsecond : ∀ p, InRegion size p →
      ParabolicOpenCloseImageFilter.GenerateData DoOpen traits id size spacing m_Scale
        m_UseImageSpacing m_ParabolicAlgorithm g outputImage2 p ≠ none) :
    ∀ p, InRegion size p →
      ParabolicOpenCloseImageFilter.GenerateData DoOpen traits id size spacing m_Scale
        m_UseImageSpacing m_ParabolicAlgorithm g outputImage2 p = some (g p) := by
  have hm : ∀ d, 0 ≤ curvature m_UseImageSpacing spacing m_Scale d := by
    intro d
    have hi : (0 : α) < (if m_UseImageSpacing then spacing d else 1) := by
      split
      · exact hsp d
      · exact one_pos
    exact le_of_lt (div_pos (mul_pos hi hi) (by linarith [hscale d]))
  have hf := OpenClose_of_ne_none DoOpen traits size spacing m_Scale m_UseImageSpacing
    m_ParabolicAlgorithm f outputImage hscale hsp hN hrange
    (fun p hp => by rw [hfirst p hp]; simp)
  have hg_eq : ∀ p, InRegion size p →
      g p = specFold DoOpen size (curvature m_UseImageSpacing spacing m_Scale)
        (List.finRange (D + 1))
        (specFold (!DoOpen) size (curvature m_UseImageSpacing spacing m_Scale)
          (List.finRange (D + 1)) f) p := by
    intro p hp
    have h := hf p hp
    rw [hfirst p hp] at h
    exact Option.some.inj h
  have hrange_g : (∃ d, algorithmChoice m_ParabolicAlgorithm (m_Scale d) = CONTACTPOINT) →
      ∀ p, InRegion size p → traits.NonpositiveMin ≤ g p ∧ g p ≤ traits.max := by
    intro hex p hp
    rw [hg_eq p hp]
    exact specFold_range DoOpen size _ _ _ hm _ _
      (specFold_range (!DoOpen) size _ _ _ hm _ f (hrange hex)) p hp
  have hg := OpenClose_of_ne_none DoOpen traits size spacing m_Scale m_UseImageSpacing
    m_ParabolicAlgorithm g outputImage2 hscale hsp hN hrange_g hsecond
  intro p hp
  rw [hg p hp, hg_eq p hp]
  congr 1
  rw [← specFold_open_close_idem DoOpen size _ f p hp]
  apply specFold_congr DoOpen size _ (List.finRange (D + 1)) _ _ _ p hp
  intro r hr
  apply specFold_congr (!DoOpen) size _ (List.finRange (D + 1)) _ _ _ r hr
  exact hg_eq

theorem index_one_eq (p : Index 1) : p = fun _ => p 0 := by
  funext d
  rw [Subsingleton.elim d 0]

theorem OpenClose_idempotent_witness :
    ParabolicOpenCloseImageFilter.GenerateData true (⟨0, 255⟩ : PixelTraits ℚ) id lineSize
      (fun _ => 1) (fun _ => 1) false INTERSECTION openedPeak (fun _ => none) (fun _ => 1) =
      some (openedPeak (fun _ => 1)) :=
  OpenClose_idempotent true (⟨0, 255⟩ : PixelTraits ℚ) lineSize (fun _ => 1) (fun _ => 1) false
    INTERSECTION peakInput openedPeak (fun _ => none) (fun _ => none)
    (fun _ => by norm_num) (fun _ => by norm_num) (fun _ => by show 3 ≤ 2 ^ 31; norm_num)
    (fun h => by
      obtain ⟨d, hd⟩ := h
      exact absurd hd (by simp [algorithmChoice, INTERSECTION, NOCHOICE, CONTACTPOINT]))
    (by
      intro p hp
      have hp0 : p 0 < 3 := hp 0
      rw [index_one_eq p]
      generalize p 0 = k at hp0
      interval_cases k <;> decide!)
    (by
      intro p hp
      have hp0 : p 0 < 3 := hp 0
      rw [index_one_eq p]
      generalize p 0 = k at hp0
      interval_cases k <;> decide!)
    (fun _ => 1) (fun _ => by show 1 < 3; norm_num)

/-! ## The sharpening combiner, the magnitude passed to the kernels, the pop loop at index 0 -/

/-- C21, sharpening combiner: with exact differences, `SharpM` returns `A` when `A - B < B - C`, returns `C` when `B - C < A - B` and returns `B` when the two differences are equal; the result is always one of `A`, `B`, `C`. -/
theorem SharpM_spec (A B C : α) :
    (A - B < B - C → SharpM A B C = A) ∧
    (B - C < A - B → SharpM A B C = C) ∧
    (A - B = B - C → SharpM A B C = B) ∧
    (SharpM A B C = A ∨ SharpM A B C = B ∨ SharpM A B C = C) := by
  refine ⟨?_, ?_, ?_, ?_⟩
  · intro h
    simp only [SharpM]
    rw [if_pos h]
  · intro h
    simp only [SharpM]
    rw [if_neg (not_lt.mpr (le_of_lt h)), if_pos h]
  · intro h
    simp only [SharpM]
    rw [if_neg (by rw [h]; exact lt_irrefl _), if_neg (by rw [h]; exact lt_irrefl _)]
  · simp only [SharpM]
    split
    · exact Or.inl rfl
    · split
      · exact Or.inr (Or.inr rfl)
      · exact Or.inr (Or.inl rfl)

theorem SharpM_spec_witness :
    SharpM (7 : ℚ) 5 4 = 4 ∧ SharpM (6 : ℚ) 5 3 = 6 ∧ SharpM (6 : ℚ) 5 4 = 5 :=
  ⟨(SharpM_spec (7 : ℚ) 5 4).2.1 (by norm_num),
   (SharpM_spec (6 : ℚ) 5 3).1 (by norm_num),
   (SharpM_spec (6 : ℚ) 5 4).2.2.1 (by norm_num)⟩

/-- C24, counterexample: on the line `[0, 10, 0]` with `sigma = 1` and spacing disabled, the contact point path runs `DoLineCP` with the magnitude `-1/2` in erosion mode and `+1/2` in dilation mode, and the intersection path runs `DoLineIntAlg` with `+1/2` in dilation mode; the runs with the magnitude of the opposite sign give other results. -/
theorem doOneDimensionLine_magnitude_not :
    doOneDimensionLine false (⟨0, 255⟩ : PixelTraits ℚ) false 1 1 CONTACTPOINT [0, 10, 0] =
      DoLineCP false (⟨0, 255⟩ : PixelTraits ℚ) [0, 10, 0] (-(1 / 2)) ∧
    doOneDimensionLine false (⟨0, 255⟩ : PixelTraits ℚ) false 1 1 CONTACTPOINT [0, 10, 0] ≠
      DoLineCP false (⟨0, 255⟩ : PixelTraits ℚ) [0, 10, 0] (1 / 2) ∧
    doOneDimensionLine true (⟨0, 255⟩ : PixelTraits ℚ) false 1 1 CONTACTPOINT [0, 10, 0] =
      DoLineCP true (⟨0, 255⟩ : PixelTraits ℚ) [0, 10, 0] (1 / 2) ∧
    doOneDimensionLine true (⟨0, 255⟩ : PixelTraits ℚ) false 1 1 CONTACTPOINT [0, 10, 0] ≠
      DoLineCP true (⟨0, 255⟩ : PixelTraits ℚ) [0, 10, 0] (-(1 / 2)) ∧
    doOneDimensionLine true (⟨0, 255⟩ : PixelTraits ℚ) false 1 1 INTERSECTION [0, 10, 0] =
      DoLineIntAlg true [0, 10, 0] (fun _ => 0) (fun _ => 0) (fun _ => 0) (1 / 2) ∧
    doOneDimensionLine true (⟨0, 255⟩ : PixelTraits ℚ) false 1 1 INTERSECTION [0, 10, 0] ≠
      DoLineIntAlg true [0, 10, 0] (fun _ => 0) (fun _ => 0) (fun _ => 0) (-(1 / 2)) := by
  refine ⟨by decide!, by decide!, by decide!, by decide!, by decide!, by decide!⟩

/-- C24, amended: with `s` the spacing, or 1 when spacing is disabled, `doOneDimension` passes the magnitude `+s^2 / (2 sigma)` in dilation mode and `-s^2 / (2 sigma)` in erosion mode to the contact point kernel `DoLineCP`, and the magnitude `s^2 / (2 sigma)` in both modes to the intersection kernel `DoLineIntAlg`. -/
theorem doOneDimensionLine_magnitude (doDilate : Bool) (traits : PixelTraits α)
    (m_UseImageSpacing : Bool) (image_scale Sigma : α) (ParabolicAlgorithmChoice : ℤ)
    (LineBuf : List α) :
    (algorithmChoice ParabolicAlgorithmChoice Sigma = CONTACTPOINT →
      doOneDimensionLine doDilate traits m_UseImageSpacing image_scale Sigma
          ParabolicAlgorithmChoice LineBuf =
        DoLineCP doDilate traits LineBuf
          (if doDilate then (if m_UseImageSpacing then image_scale else 1) ^ 2 / (2 * Sigma)
            else -((if m_UseImageSpacing then image_scale else 1) ^ 2 / (2 * Sigma)))) ∧
    (algorithmChoice ParabolicAlgorithmChoice Sigma ≠ CONTACTPOINT →
      doOneDimensionLine doDilate traits m_UseImageSpacing image_scale Sigma
          ParabolicAlgorithmChoice LineBuf =
        DoLineIntAlg doDilate LineBuf (fun _ => 0) (fun _ => 0) (fun _ => 0)
          ((if m_UseImageSpacing then image_scale else 1) ^ 2 / (2 * Sigma))) := by
  constructor
  · intro h
    simp only [doOneDimensionLine]
    rw [if_pos h]
    congr 1
    cases doDilate with
    | true => simp only [if_true]; ring
    | false => simp only [Bool.false_eq_true, if_false]; ring
  · intro h
    simp only [doOneDimensionLine]
    rw [if_neg h]
    congr 1
    ring

theorem doOneDimensionLine_magnitude_witness :
    doOneDimensionLine false (⟨0, 255⟩ : PixelTraits ℚ) true 3 2 CONTACTPOINT [0, 10, 0] =
      DoLineCP false (⟨0, 255⟩ : PixelTraits ℚ) [0, 10, 0]
        (if false then (if true then (3 : ℚ) else 1) ^ 2 / (2 * 2)
          else -((if true then (3 : ℚ) else 1) ^ 2 / (2 * 2))) :=
  (doOneDimensionLine_magnitude false (⟨0, 255⟩ : PixelTraits ℚ) true 3 2 CONTACTPOINT
    [0, 10, 0]).1 (by decide!)

/-- C25, at the line `[0, -10^10]` with magnitude 1: in the iteration `q = 1` the intersection `s` computed at `k = 0` is at most `z[0] = -2^31`, so the test `s <= z[k]` of the pop loop holds at `k = 0`, the loop decrements `k` below 0, and the run of `DoLineIntAlg` leaves the index range of `v` and `z`. -/
theorem popLoop_below_zero :
    popLoop false (Function.update (Function.update (fun _ => (0 : ℚ)) 0 (0 / 1)) 1
        (precompute false [0, -10000000000] 1 1))
      (Function.update (fun _ => 0) 0 0)
      (Function.update (Function.update (fun _ => 0) 0 ((intNonpositiveMin : ℤ) : ℚ)) 1
        ((intMax : ℤ) : ℚ)) 1 1 = none ∧
    intersection false (Function.update (Function.update (fun _ => (0 : ℚ)) 0 (0 / 1)) 1
        (precompute false [0, -10000000000] 1 1)) (Function.update (fun _ => 0) 0 0) 1 0 ≤
      ((intNonpositiveMin : ℤ) : ℚ) ∧
    DoLineIntAlg false ([0, -10000000000] : List ℚ) (fun _ => 0) (fun _ => 0) (fun _ => 0) 1 =
      none := by
  refine ⟨by decide!, by decide!, by decide!⟩

/-! ## Tie-breaking and index safety of the contact point algorithm -/

theorem cpBetter_refl (doDilate : Bool) (a : α) : cpBetter doDilate a a := by
  cases doDilate <;> simp [cpBetter]

theorem cpBetter_trans (doDilate : Bool) (a b c : α) (h1 : cpBetter doDilate a b)
    (h2 : cpBetter doDilate b c) : cpBetter doDilate a c := by
  cases doDilate with
  | true =>
    simp only [cpBetter, if_true, ge_iff_le] at h1 h2 ⊢
    exact le_trans h2 h1
  | false =>
    simp only [cpBetter, Bool.false_eq_true, if_false] at h1 h2 ⊢
    exact le_trans h1 h2

theorem cpBetter_total (doDilate : Bool) (a b : α) (h : ¬ cpBetter doDilate a b) :
    cpBetter doDilate b a := by
  cases doDilate with
  | true =>
    simp only [cpBetter, if_true, ge_iff_le, not_le] at h ⊢
    exact le_of_lt h
  | false =>
    simp only [cpBetter, Bool.false_eq_true, if_false, not_le] at h ⊢
    exact le_of_lt h

theorem cpInner_succ_pos (doDilate : Bool) (buf : List α) (m : α) (pos : ℕ) (dir : ℤ) (n : ℕ)
    (kr : ℤ) (B : α) (nc : ℤ)
    (h0 : 0 ≤ (pos : ℤ) + kr ∧ (pos : ℤ) + kr < (buf.length : ℤ))
    (hT : cpBetter doDilate (cpT buf m pos kr) B) :
    cpInner doDilate buf m pos dir (n + 1) kr (B, nc) =
      cpInner doDilate buf m pos dir n (kr + dir) (cpT buf m pos kr, kr) := by
  simp only [cpBetter, cpT] at hT
  simp only [cpInner, cpT]
  rw [if_pos h0, if_pos hT]

theorem cpInner_succ_neg (doDilate : Bool) (buf : List α) (m : α) (pos : ℕ) (dir : ℤ) (n : ℕ)
    (kr : ℤ) (B : α) (nc : ℤ)
    (h0 : 0 ≤ (pos : ℤ) + kr ∧ (pos : ℤ) + kr < (buf.length : ℤ))
    (hT : ¬ cpBetter doDilate (cpT buf m pos kr) B) :
    cpInner doDilate buf m pos dir (n + 1) kr (B, nc) =
      cpInner doDilate buf m pos dir n (kr + dir) (B, nc) := by
  simp only [cpBetter, cpT] at hT
  simp only [cpInner, cpT]
  rw [if_pos h0, if_neg hT]

theorem cpInner_succ_none (doDilate : Bool) (buf : List α) (m : α) (pos : ℕ) (dir : ℤ) (n : ℕ)
    (kr : ℤ) (B : α) (nc : ℤ)
    (h0 : ¬ (0 ≤ (pos : ℤ) + kr ∧ (pos : ℤ) + kr < (buf.length : ℤ))) :
    cpInner doDilate buf m pos dir (n + 1) kr (B, nc) = none := by
  simp only [cpInner]
  rw [if_neg h0]

theorem cpInner_last (doDilate : Bool) (buf : List α) (m : α) (pos : ℕ) (dir : ℤ) :
    ∀ n kr B nc B' nc', cpInner doDilate buf m pos dir n kr (B, nc) = some (B', nc') →
      cpBetter doDilate B' B ∧
      ((B' = B ∧ nc' = nc ∧
          ∀ t : ℕ, t < n → ¬ cpBetter doDilate (cpT buf m pos (kr + (t : ℤ) * dir)) B) ∨
        ∃ t : ℕ, t < n ∧ nc' = kr + (t : ℤ) * dir ∧
          B' = cpT buf m pos (kr + (t : ℤ) * dir) ∧
          (∀ u : ℕ, u < n → cpBetter doDilate B' (cpT buf m pos (kr + (u : ℤ) * dir))) ∧
          (∀ u : ℕ, t < u → u < n →
            ¬ cpBetter doDilate (cpT buf m pos (kr + (u : ℤ) * dir)) B')) := by
  intro n
  induction n with
  | zero =>
    intro kr B nc B' nc' h
    simp only [cpInner, Option.some.injEq, Prod.mk.injEq] at h
    obtain ⟨h1, h2⟩ := h
    subst h1; subst h2
    refine ⟨cpBetter_refl _ _, Or.inl ⟨rfl, rfl, ?_⟩⟩
    intro t ht; exact absurd ht (Nat.not_lt_zero _)
  | succ n ih =>
    intro kr B nc B' nc' h
    have hshift : ∀ t : ℕ, kr + dir + (t : ℤ) * dir = kr + ((t + 1 : ℕ) : ℤ) * dir := by
      intro t; push_cast; ring
    have hzero : kr + ((0 : ℕ) : ℤ) * dir = kr := by simp
    by_cases h0 : 0 ≤ (pos : ℤ) + kr ∧ (pos : ℤ) + kr < (buf.length : ℤ)
    · by_cases hT : cpBetter doDilate (cpT buf m pos kr) B
      · rw [cpInner_succ_pos doDilate buf m pos dir n kr B nc h0 hT] at h
        obtain ⟨hb, hd⟩ := ih (kr + dir) (cpT buf m pos kr) kr B' nc' h
        refine ⟨cpBetter_trans _ _ _ _ hb hT, Or.inr ?_⟩
        rcases hd with ⟨h1, h2, h3⟩ | ⟨t, ht, h1, h2, h3, h4⟩
        · refine ⟨0, Nat.succ_pos _, by rw [hzero]; exact h2, by rw [hzero]; exact h1, ?_, ?_⟩
          · intro u hu
            cases u with
            | zero => rw [hzero, h1]; exact cpBetter_refl _ _
            | succ u =>
              rw [← hshift u, h1]
              exact cpBetter_total _ _ _ (h3 u (by omega))
          · intro u hu0 hu
            cases u with
            | zero => exact absurd hu0 (lt_irrefl _)
            | succ u =>
              rw [← hshift u, h1]
              exact h3 u (by omega)
        · refine ⟨t + 1, by omega, by rw [← hshift t]; exact h1,
            by rw [← hshift t]; exact h2, ?_, ?_⟩
          · intro u hu
            cases u with
            | zero => rw [hzero]; exact hb
            | succ u =>
              rw [← hshift u]
              exact h3 u (by omega)
          · intro u hu0 hu
            cases u with
            | zero => exact absurd hu0 (Nat.not_lt_zero _)
            | succ u =>
              rw [← hshift u]
              exact h4 u (by omega) (by omega)
      · rw [cpInner_succ_neg doDilate buf m pos dir n kr B nc h0 hT] at h
        obtain ⟨hb, hd⟩ := ih (kr + dir) B nc B' nc' h
        refine ⟨hb, ?_⟩
        rcases hd with ⟨h1, h2, h3⟩ | ⟨t, ht, h1, h2, h3, h4⟩
        · refine Or.inl ⟨h1, h2, ?_⟩
          intro u hu
          cases u with
          | zero => rw [hzero]; exact hT
          | succ u =>
            rw [← hshift u]
            exact h3 u (by omega)
        · refine Or.inr ⟨t + 1, by omega, by rw [← hshift t]; exact h1,
            by rw [← hshift t]; exact h2, ?_, ?_⟩
          · intro u hu
            cases u with
            | zero =>
              rw [hzero]
              exact cpBetter_trans _ _ _ _ hb (cpBetter_total _ _ _ hT)
            | succ u =>
              rw [← hshift u]
              exact h3 u (by omega)
          · intro u hu0 hu
            cases u with
            | zero => exact absurd hu0 (Nat.not_lt_zero _)
            | succ u =>
              rw [← hshift u]
              exact h4 u (by omega) (by omega)
    · rw [cpInner_succ_none doDilate buf m pos dir n kr B nc h0] at h
      exact absurd h (by simp)

theorem cpInner_some (doDilate : Bool) (buf : List α) (m : α) (pos : ℕ) (dir : ℤ) :
    ∀ n kr B nc,
      (∀ t : ℕ, t < n → 0 ≤ (pos : ℤ) + (kr + (t : ℤ) * dir) ∧
        (pos : ℤ) + (kr + (t : ℤ) * dir) < (buf.length : ℤ)) →
      ∃ B' nc', cpInner doDilate buf m pos dir n kr (B, nc) = some (B', nc') ∧
        (nc' = nc ∨ ∃ t : ℕ, t < n ∧ nc' = kr + (t : ℤ) * dir) := by
  intro n
  induction n with
  | zero =>
    intro kr B nc _
    exact ⟨B, nc, rfl, Or.inl rfl⟩
  | succ n ih =>
    intro kr B nc hidx
    have h0 := hidx 0 (Nat.succ_pos _)
    simp only [Nat.cast_zero, zero_mul, add_zero] at h0
    have hshift : ∀ t : ℕ, kr + dir + (t : ℤ) * dir = kr + ((t + 1 : ℕ) : ℤ) * dir := by
      intro t; push_cast; ring
    have hidx' : ∀ t : ℕ, t < n → 0 ≤ (pos : ℤ) + (kr + dir + (t : ℤ) * dir) ∧
        (pos : ℤ) + (kr + dir + (t : ℤ) * dir) < (buf.length : ℤ) := by
      intro t ht
      rw [hshift t]
      exact hidx (t + 1) (by omega)
    by_cases hT : cpBetter doDilate (cpT buf m pos kr) B
    · rw [cpInner_succ_pos doDilate buf m pos dir n kr B nc h0 hT]
      obtain ⟨B', nc', hrun, hd⟩ := ih (kr + dir) (cpT buf m pos kr) kr hidx'
      refine ⟨B', nc', hrun, Or.inr ?_⟩
      rcases hd with h1 | ⟨t, ht, h1⟩
      · exact ⟨0, Nat.succ_pos _, by simpa using h1⟩
      · exact ⟨t + 1, by omega, by rw [← hshift t]; exact h1⟩
    · rw [cpInner_succ_neg doDilate buf m pos dir n kr B nc h0 hT]
      obtain ⟨B', nc', hrun, hd⟩ := ih (kr + dir) B nc hidx'
      refine ⟨B', nc', hrun, ?_⟩
      rcases hd with h1 | ⟨t, ht, h1⟩
      · exact Or.inl h1
      · exact Or.inr ⟨t + 1, by omega, by rw [← hshift t]; exact h1⟩

theorem cpSweep1_some (doDilate : Bool) (extreme : α) (L : List α) (m : α) :
    ∀ n pos koffset newcontact, pos + n = L.length →
      -(pos : ℤ) ≤ koffset → koffset ≤ 0 → -(pos : ℤ) ≤ newcontact → newcontact ≤ 0 →
      ∃ out, cpSweep1 doDilate extreme L m n pos koffset newcontact = some out ∧
        out.length = n := by
  intro n
  induction n with
  | zero =>
    intro pos koffset newcontact _ _ _ _ _
    exact ⟨[], rfl, rfl⟩
  | succ n ih =>
    intro pos koffset newcontact hlen hk1 hk2 hn1 hn2
    obtain ⟨B', nc', hrun, hd⟩ := cpInner_some doDilate L m pos 1 (1 - koffset).toNat koffset
      extreme newcontact (by
        intro t ht
        have h1 : ((1 - koffset).toNat : ℤ) = 1 - koffset := Int.toNat_of_nonneg (by omega)
        have h2 : (t : ℤ) < 1 - koffset := by
          rw [← h1]
          exact_mod_cast ht
        have h3 : (L.length : ℤ) = (pos : ℤ) + ((n : ℤ) + 1) := by
          rw [← hlen]; push_cast; ring
        constructor <;> omega)
    have hnc : -(pos : ℤ) ≤ nc' ∧ nc' ≤ 0 := by
      rcases hd with h | ⟨t, ht, h⟩
      · rw [h]; exact ⟨hn1, hn2⟩
      · have h1 : ((1 - koffset).toNat : ℤ) = 1 - koffset := Int.toNat_of_nonneg (by omega)
        have h2 : (t : ℤ) < 1 - koffset := by
          rw [← h1]
          exact_mod_cast ht
        rw [h]
        constructor <;> omega
    obtain ⟨rest, hrest, hrlen⟩ := ih (pos + 1) (nc' - 1) nc' (by omega)
      (by push_cast; omega) (by omega) (by push_cast; omega) hnc.2
    refine ⟨B' :: rest, ?_, by simp [hrlen]⟩
    simp only [cpSweep1]
    rw [hrun]
    simp only
    rw [hrest]

theorem cpSweep2_some (doDilate : Bool) (extreme : α) (tmp : List α) (m : α) :
    ∀ n koffset newcontact, n ≤ tmp.length →
      0 ≤ koffset → koffset ≤ (tmp.length : ℤ) - (n : ℤ) →
      0 ≤ newcontact → newcontact ≤ (tmp.length : ℤ) - (n : ℤ) →
      ∃ out, cpSweep2 doDilate extreme tmp m n koffset newcontact = some out ∧
        out.length = n := by
  intro n
  induction n with
  | zero =>
    intro koffset newcontact _ _ _ _ _
    exact ⟨[], rfl, rfl⟩
  | succ pos ih =>
    intro koffset newcontact hlen hk1 hk2 hn1 hn2
    push_cast at hk2 hn2
    have h1 : ((koffset + 1).toNat : ℤ) = koffset + 1 := Int.toNat_of_nonneg (by omega)
    obtain ⟨B', nc', hrun, hd⟩ := cpInner_some doDilate tmp m pos (-1) (koffset + 1).toNat
      koffset extreme newcontact (by
        intro t ht
        have h2 : (t : ℤ) < koffset + 1 := by
          rw [← h1]
          exact_mod_cast ht
        constructor <;> omega)
    have hnc : 0 ≤ nc' ∧ nc' ≤ (tmp.length : ℤ) - (pos : ℤ) - 1 := by
      rcases hd with h | ⟨t, ht, h⟩
      · rw [h]; exact ⟨hn1, by omega⟩
      · have h2 : (t : ℤ) < koffset + 1 := by
          rw [← h1]
          exact_mod_cast ht
        rw [h]
        constructor <;> omega
    obtain ⟨front, hfront, hflen⟩ := ih (nc' + 1) nc' (by omega) (by omega) (by omega)
      hnc.1 (by omega)
    refine ⟨front ++ [B'], ?_, by simp [hflen]⟩
    simp only [cpSweep2]
    rw [hrun]
    simp only
    rw [hfront]

/-- C29, index safety of the contact point kernel: for every line, also the empty one, every magnitude, either mode and every pair of extreme values, no read `LineBuf[pos + krange]` or `tmpLineBuf[pos + krange]` of `DoLineCP` leaves its buffer: the run returns a line of the length of the input. -/
theorem DoLineCP_index_safe (doDilate : Bool) (traits : PixelTraits α) (LineBuf : List α)
    (magnitude : α) :
    ∃ out, DoLineCP doDilate traits LineBuf magnitude = some out ∧
      out.length = LineBuf.length := by
  obtain ⟨tmp, htmp, htlen⟩ := cpSweep1_some doDilate
    (if doDilate then traits.NonpositiveMin else traits.max) LineBuf magnitude LineBuf.length
    0 0 0 (by simp) (by simp) (le_refl _) (by simp) (le_refl _)
  obtain ⟨out, hout, holen⟩ := cpSweep2_some doDilate
    (if doDilate then traits.NonpositiveMin else traits.max) tmp magnitude LineBuf.length
    0 0 (by rw [htlen]) (le_refl _) (by rw [htlen]; simp) (le_refl _) (by rw [htlen]; simp)
  refine ⟨out, ?_, holen⟩
  simp only [DoLineCP]
  rw [htmp]
  exact hout

/-- C26, counterexample: at position 1 of the first sweep on the line `[1, 0]` with magnitude 1 (dilation), the offsets -1 and 0 both give `T = 0`; offset -1 is scanned first and the inner loop records the contact point 0.  The same in erosion mode on `[-1, 0]` with magnitude -1. -/
theorem cpInner_tie_not_first :
    cpT ([1, 0] : List ℚ) 1 1 (-1) = 0 ∧ cpT ([1, 0] : List ℚ) 1 1 0 = 0 ∧
    cpInner true ([1, 0] : List ℚ) 1 1 1 2 (-1) (-100, 0) = some (0, 0) ∧
    cpT ([-1, 0] : List ℚ) (-1) 1 (-1) = 0 ∧ cpT ([-1, 0] : List ℚ) (-1) 1 0 = 0 ∧
    cpInner false ([-1, 0] : List ℚ) (-1) 1 1 2 (-1) (100, 0) = some (0, 0) := by
  refine ⟨by decide!, by decide!, by decide!, by decide!, by decide!, by decide!⟩

/-- C26, amended: when an inner loop of `DoLineCP` (either sweep, either mode) returns `BaseVal` and `newcontact`, then either no offset of the window has passed the comparison and both are unchanged, or `newcontact` is an offset of the window whose `T` is `BaseVal`, no offset of the window has a better `T`, and no offset scanned after it passes the comparison with `BaseVal`: among the offsets that attain the extremal value, the last one scanned is recorded. -/
theorem cpInner_tie_last (doDilate : Bool) (buf : List α) (m : α) (pos : ℕ) (dir : ℤ) (n : ℕ)
    (kr : ℤ) (B : α) (nc : ℤ) (B' : α) (nc' : ℤ)
    (hrun : cpInner doDilate buf m pos dir n kr (B, nc) = some (B', nc')) :
    cpBetter doDilate B' B ∧
    ((B' = B ∧ nc' = nc ∧
        ∀ t : ℕ, t < n → ¬ cpBetter doDilate (cpT buf m pos (kr + (t : ℤ) * dir)) B) ∨
      ∃ t : ℕ, t < n ∧ nc' = kr + (t : ℤ) * dir ∧
        B' = cpT buf m pos (kr + (t : ℤ) * dir) ∧
        (∀ u : ℕ, u < n → cpBetter doDilate B' (cpT buf m pos (kr + (u : ℤ) * dir))) ∧
        (∀ u : ℕ, t < u → u < n →
          ¬ cpBetter doDilate (cpT buf m pos (kr + (u : ℤ) * dir)) B')) := by
  have h := cpInner_last doDilate buf m pos dir n kr B nc B' nc' hrun
  exact ⟨h.1, h.2⟩

theorem cpInner_tie_last_witness :
    cpBetter true (0 : ℚ) (-100) ∧
    (((0 : ℚ) = -100 ∧ (0 : ℤ) = 0 ∧
        ∀ t : ℕ, t < 2 →
          ¬ cpBetter true (cpT ([1, 0] : List ℚ) 1 1 (-1 + (t : ℤ) * 1)) (-100)) ∨
      ∃ t : ℕ, t < 2 ∧ (0 : ℤ) = -1 + (t : ℤ) * 1 ∧
        (0 : ℚ) = cpT ([1, 0] : List ℚ) 1 1 (-1 + (t : ℤ) * 1) ∧
        (∀ u : ℕ, u < 2 →
          cpBetter true (0 : ℚ) (cpT ([1, 0] : List ℚ) 1 1 (-1 + (u : ℤ) * 1))) ∧
        (∀ u : ℕ, t < u → u < 2 →
          ¬ cpBetter true (cpT ([1, 0] : List ℚ) 1 1 (-1 + (u : ℤ) * 1)) (0 : ℚ))) :=
  cpInner_tie_last true ([1, 0] : List ℚ) 1 1 1 2 (-1) (-100) 0 0 0 (by decide!)

/-! ## The envelope invariant after every iteration -/

theorem mainLoop_erode_prefix {L : List α} {m : α} :
    ∀ n q st, EnvInv L m q st →
      (∀ q', q ≤ q' → q' < q + n → (intNonpositiveMin : α) <
        (precompute false L m q' - precompute false L m 0) /
          (2 * ((q' : α) - ((0 : ℕ) : α)))) →
      ∃ st', mainLoop false L m n q st = some st' ∧ EnvInv L m (q + n) st' := by
  intro n
  induction n with
  | zero =>
    intro q st hinv _
    exact ⟨st, rfl, hinv⟩
  | succ n ih =>
    intro q st hinv hsent
    obtain ⟨st1, hstep, hinv1⟩ := mainStep_erode hinv (hsent q (le_refl _) (by omega))
    obtain ⟨st2, hloop, hinv2⟩ := ih (q + 1) st1 hinv1
      (fun q' h1 h2 => hsent q' (by omega) (by omega))
    refine ⟨st2, ?_, ?_⟩
    · simp only [mainLoop]
      rw [hstep]
      exact hloop
    · have h3 : q + (n + 1) = q + 1 + n := by omega
      rw [h3]; exact hinv2

theorem mainLoop_erode_shape (x : α) (t : List α) (F : ℕ → α) (v : ℕ → ℕ) (z : ℕ → α) (m : α)
    (hm : 0 < m)
    (hsent : ∀ q, 1 ≤ q → q < (x :: t).length →
      -(2 : α) ^ 31 <
        ((x :: t).getD q 0 - (x :: t).getD 0 0) / (2 * m * (q : α)) + (q : α) / 2)
    (n : ℕ) (hn : n < (x :: t).length) :
    ∃ st, mainLoop false (x :: t) m n 1
        { k := 0
          F := Function.update F 0 (x / m)
          v := Function.update v 0 0
          z := Function.update (Function.update z 0 ((intNonpositiveMin : ℤ) : α)) 1
            ((intMax : ℤ) : α) } = some st ∧
      EnvInv (x :: t) m (1 + n) st := by
  refine mainLoop_erode_prefix n 1 _ (envInv_init x t F v z m) ?_
  intro q hq hqn
  rw [sentinel_form hm q hq, intNonpositiveMin_cast]
  exact hsent q hq (by omega)

/-- C27, envelope invariant of the intersection algorithm: for a non-empty line, a magnitude `m > 0` and either mode, when no intersection with the parabola at 0 reaches the `z[0]` sentinel, the main loop reaches the end of every iteration `q = n < N` and there `k <= q`, `v[0] = 0`, `v[k] = q`, `v[0..k]` and `z[0..k]` are strictly increasing, `z[0]` is the lower sentinel and `z[k + 1]` the upper sentinel; hence `k + 1 <= N` and `v[i] < N` for every `i <= k`. -/
theorem mainLoop_envelope_invariant (doDilate : Bool) (x : α) (t : List α) (F : ℕ → α)
    (v : ℕ → ℕ) (z : ℕ → α) (m : α) (hm : 0 < m)
    (hsent : ∀ q, 1 ≤ q → q < (x :: t).length →
      -(2 : α) ^ 31 <
        (if doDilate then (x :: t).getD 0 0 - (x :: t).getD q 0
          else (x :: t).getD q 0 - (x :: t).getD 0 0) / (2 * m * (q : α)) + (q : α) / 2)
    (n : ℕ) (hn : n < (x :: t).length) :
    ∃ st, mainLoop doDilate (x :: t) m n 1
        { k := 0
          F := Function.update F 0 (x / m)
          v := Function.update v 0 0
          z := Function.update (Function.update z 0 ((intNonpositiveMin : ℤ) : α)) 1
            ((intMax : ℤ) : α) } = some st ∧
      st.k ≤ n ∧ st.v 0 = 0 ∧ st.v st.k = n ∧
      (∀ i, i < st.k → st.v i < st.v (i + 1)) ∧
      (∀ i, i < st.k → st.z i < st.z (i + 1)) ∧
      st.z 0 = ((intNonpositiveMin : ℤ) : α) ∧ st.z (st.k + 1) = ((intMax : ℤ) : α) ∧
      st.k + 1 ≤ (x :: t).length ∧ (∀ i, i ≤ st.k → st.v i < (x :: t).length) := by
  cases doDilate with
  | false =>
    simp only [Bool.false_eq_true, if_false] at hsent
    obtain ⟨st, hst, hinv⟩ := mainLoop_erode_shape x t F v z m hm hsent n hn
    have hk := hinv.k_lt
    have hv := hinv.v_top
    refine ⟨st, hst, by omega, hinv.v_zero, by omega, hinv.v_strict, hinv.z_strict,
      hinv.z_zero, hinv.z_top, by omega, ?_⟩
    intro i hi
    have := hinv.v_lt i hi
    omega
  | true =>
    simp only [if_true] at hsent
    have hcons : negLine (x :: t) = -x :: negLine t := rfl
    have hlen : (negLine (x :: t)).length = (x :: t).length := length_negLine _
    have hsent' : ∀ q, 1 ≤ q → q < (-x :: negLine t).length →
        -(2 : α) ^ 31 <
          ((-x :: negLine t).getD q 0 - (-x :: negLine t).getD 0 0) / (2 * m * (q : α)) +
            (q : α) / 2 := by
      intro q hq hqN
      rw [← hcons] at hqN ⊢
      rw [hlen] at hqN
      rw [getD_negLine, getD_negLine]
      have h2 : -(x :: t).getD q 0 - -(x :: t).getD 0 0 =
          (x :: t).getD 0 0 - (x :: t).getD q 0 := by ring
      rw [h2]
      exact hsent q hq hqN
    obtain ⟨st, hst, hinv⟩ := mainLoop_erode_shape (-x) (negLine t) F v z m hm hsent' n
      (by rw [← hcons, hlen]; exact hn)
    have hrel : DualRel 1
        ({ k := 0
           F := Function.update F 0 (-x / m)
           v := Function.update v 0 0
           z := Function.update (Function.update z 0 ((intNonpositiveMin : ℤ) : α)) 1
             ((intMax : ℤ) : α) } : EnvState α)
        { k := 0
          F := Function.update F 0 (x / m)
          v := Function.update v 0 0
          z := Function.update (Function.update z 0 ((intNonpositiveMin : ℤ) : α)) 1
            ((intMax : ℤ) : α) } := by
      constructor
      · rfl
      · rfl
      · rfl
      · intro j hj
        have : j = 0 := by omega
        subst this
        simp [neg_div]
      · intro i hi
        change i ≤ 0 at hi
        have : i = 0 := by omega
        subst this
        simp
    have hneg : negLine (-x :: negLine t) = x :: t := by
      rw [← hcons, negLine_negLine]
    rcases mainLoop_dual (-x :: negLine t) m n 1 _ _ hrel with
      ⟨h1, _⟩ | ⟨st1, st1', h1, h2, hrel1⟩
    · rw [hst] at h1
      exact absurd h1 (by simp)
    · rw [hst] at h1
      have hst1 : st = st1 := Option.some.inj h1
      subst hst1
      rw [hneg] at h2
      have hk := hinv.k_lt
      have hv := hinv.v_top
      have hlen' : (x :: t).length = (-x :: negLine t).length := by
        rw [← hcons, hlen]
      refine ⟨st1', h2, ?_⟩
      rw [hrel1.k_eq, hrel1.v_eq, hrel1.z_eq]
      refine ⟨by omega, hinv.v_zero, by omega, hinv.v_strict, hinv.z_strict,
        hinv.z_zero, hinv.z_top, by omega, ?_⟩
      intro i hi
      have := hinv.v_lt i hi
      omega

theorem mainLoop_envelope_invariant_witness :
    ∃ st, mainLoop false ([3, 0, 5] : List ℚ) (1 / 2) 2 1
        { k := 0
          F := Function.update (fun _ => 0) 0 (3 / (1 / 2))
          v := Function.update (fun _ => 0) 0 0
          z := Function.update (Function.update (fun _ => 0) 0 ((intNonpositiveMin : ℤ) : ℚ)) 1
            ((intMax : ℤ) : ℚ) } = some st ∧
      st.k ≤ 2 ∧ st.v 0 = 0 ∧ st.v st.k = 2 ∧
      (∀ i, i < st.k → st.v i < st.v (i + 1)) ∧
      (∀ i, i < st.k → st.z i < st.z (i + 1)) ∧
      st.z 0 = ((intNonpositiveMin : ℤ) : ℚ) ∧ st.z (st.k + 1) = ((intMax : ℤ) : ℚ) ∧
      st.k + 1 ≤ ([3, 0, 5] : List ℚ).length ∧
      (∀ i, i ≤ st.k → st.v i < ([3, 0, 5] : List ℚ).length) :=
  mainLoop_envelope_invariant false 3 [0, 5] (fun _ => 0) (fun _ => 0) (fun _ => 0) (1 / 2)
    (by norm_num)
    (by
      intro q hq hlt
      have hlt' : q < 3 := hlt
      interval_cases q <;> norm_num)
    2 (by decide)

/-! ## The region splitter of the open/close filter -/

theorem splitAxisLoop_some {D : ℕ} (size : Fin D → ℕ) (cur : Fin D) :
    ∀ (s : ℕ) (hs : s < D) (a : Fin D), splitAxisLoop size cur s hs = some a →
      a.val ≤ s ∧ size a ≠ 1 ∧ a ≠ cur ∧
      ∀ b : Fin D, a.val < b.val → b.val ≤ s → size b = 1 ∨ b = cur := by
  intro s
  induction s with
  | zero =>
    intro hs a h
    simp only [splitAxisLoop] at h
    by_cases hc : size ⟨0, hs⟩ = 1 ∨ 0 = cur.val
    · rw [if_pos hc] at h
      exact absurd h (by simp)
    · rw [if_neg hc] at h
      have ha : a = ⟨0, hs⟩ := (Option.some.inj h).symm
      subst ha
      refine ⟨le_refl _, fun h1 => hc (Or.inl h1), fun h1 => hc (Or.inr ?_), ?_⟩
      · rw [← h1]
      · intro b hb1 hb2
        exact absurd hb1 (by simp only [not_lt]; exact hb2)
  | succ s ih =>
    intro hs a h
    simp only [splitAxisLoop] at h
    by_cases hc : size ⟨s + 1, hs⟩ = 1 ∨ s + 1 = cur.val
    · rw [if_pos hc] at h
      obtain ⟨h1, h2, h3, h4⟩ := ih (Nat.lt_of_succ_lt hs) a h
      refine ⟨by omega, h2, h3, ?_⟩
      intro b hb1 hb2
      by_cases hb : b.val = s + 1
      · have hbe : b = ⟨s + 1, hs⟩ := Fin.ext hb
        rcases hc with hc | hc
        · left; rw [hbe]; exact hc
        · right; exact Fin.ext (by rw [hb, hc])
      · exact h4 b hb1 (by omega)
    · rw [if_neg hc] at h
      have ha : a = ⟨s + 1, hs⟩ := (Option.some.inj h).symm
      subst ha
      refine ⟨le_refl _, fun h1 => hc (Or.inl h1), fun h1 => hc (Or.inr ?_), ?_⟩
      · rw [← h1]
      · intro b hb1 hb2
        exact absurd hb1 (by simp only [not_lt]; exact hb2)

theorem splitAxisLoop_none {D : ℕ} (size : Fin D → ℕ) (cur : Fin D) :
    ∀ (s : ℕ) (hs : s < D), splitAxisLoop size cur s hs = none →
      ∀ b : Fin D, b.val ≤ s → size b = 1 ∨ b = cur := by
  intro s
  induction s with
  | zero =>
    intro hs h b hb
    simp only [splitAxisLoop] at h
    have hbe : b = ⟨0, hs⟩ := Fin.ext (by simp only; omega)
    by_cases hc : size ⟨0, hs⟩ = 1 ∨ 0 = cur.val
    · rcases hc with hc | hc
      · left; rw [hbe]; exact hc
      · right; exact Fin.ext (by rw [hbe]; exact hc)
    · rw [if_neg hc] at h
      exact absurd h (by simp)
  | succ s ih =>
    intro hs h b hb
    simp only [splitAxisLoop] at h
    by_cases hc : size ⟨s + 1, hs⟩ = 1 ∨ s + 1 = cur.val
    · rw [if_pos hc] at h
      by_cases hbs : b.val = s + 1
      · have hbe : b = ⟨s + 1, hs⟩ := Fin.ext hbs
        rcases hc with hc | hc
        · left; rw [hbe]; exact hc
        · right; exact Fin.ext (by rw [hbs, hc])
      · exact ih (Nat.lt_of_succ_lt hs) h b (by omega)
    · rw [if_neg hc] at h
      exact absurd h (by simp)

theorem ceil_div_spec (a b : ℕ) (hb : 0 < b) :
    a ≤ Nat.ceil ((a : ℚ) / (b : ℚ)) * b ∧ Nat.ceil ((a : ℚ) / (b : ℚ)) * b < a + b := by
  have hb' : (0 : ℚ) < (b : ℚ) := by exact_mod_cast hb
  have h1 : (a : ℚ) / (b : ℚ) ≤ (Nat.ceil ((a : ℚ) / (b : ℚ)) : ℚ) := Nat.le_ceil _
  have h2 : (Nat.ceil ((a : ℚ) / (b : ℚ)) : ℚ) < (a : ℚ) / (b : ℚ) + 1 :=
    Nat.ceil_lt_add_one (by positivity)
  constructor
  · have h3 : (a : ℚ) ≤ (Nat.ceil ((a : ℚ) / (b : ℚ)) : ℚ) * (b : ℚ) :=
      (div_le_iff₀ hb').mp h1
    exact_mod_cast h3
  · have h4 : (a : ℚ) / (b : ℚ) + 1 = ((a : ℚ) + (b : ℚ)) / (b : ℚ) := by
      field_simp
    rw [h4, lt_div_iff₀ hb'] at h2
    exact_mod_cast h2

theorem split_counts (e num : ℕ) (he : 1 ≤ e) (hnum : 1 ≤ num) :
    1 ≤ Nat.ceil ((e : ℚ) / (num : ℚ)) ∧
    1 ≤ Nat.ceil ((e : ℚ) / (Nat.ceil ((e : ℚ) / (num : ℚ)) : ℚ)) ∧
    Nat.ceil ((e : ℚ) / (Nat.ceil ((e : ℚ) / (num : ℚ)) : ℚ)) ≤ num ∧
    e ≤ Nat.ceil ((e : ℚ) / (Nat.ceil ((e : ℚ) / (num : ℚ)) : ℚ)) *
      Nat.ceil ((e : ℚ) / (num : ℚ)) ∧
    Nat.ceil ((e : ℚ) / (Nat.ceil ((e : ℚ) / (num : ℚ)) : ℚ)) *
      Nat.ceil ((e : ℚ) / (num : ℚ)) < e + Nat.ceil ((e : ℚ) / (num : ℚ)) := by
  obtain ⟨hv1, hv2⟩ := ceil_div_spec e num hnum
  generalize Nat.ceil ((e : ℚ) / (num : ℚ)) = v at hv1 hv2 ⊢
  have hv : 1 ≤ v := by
    rcases Nat.eq_zero_or_pos v with h | h
    · rw [h] at hv1
      omega
    · exact h
  obtain ⟨hn1, hn2⟩ := ceil_div_spec e v hv
  generalize Nat.ceil ((e : ℚ) / (v : ℚ)) = n at hn1 hn2 ⊢
  have hn : 1 ≤ n := by
    rcases Nat.eq_zero_or_pos n with h | h
    · rw [h] at hn1
      omega
    · exact h
  refine ⟨hv, hn, ?_, hn1, hn2⟩
  by_contra hcon
  have h1 : num + 1 ≤ n := by omega
  have h2 : (num + 1) * v ≤ n * v := Nat.mul_le_mul_right v h1
  have h3 : (num + 1) * v = v * num + v := by ring
  omega

theorem split_interval_cover (e v n : ℕ) (hv : 1 ≤ v) (hn1 : e ≤ n * v) (t : ℤ)
    (ht0 : 0 ≤ t) (hte : t < (e : ℤ)) :
    ∃ i, i < n ∧ ((i * v : ℕ) : ℤ) ≤ t ∧
      t < ((i * v : ℕ) : ℤ) + ((if i + 1 < n then v else e - i * v : ℕ) : ℤ) := by
  obtain ⟨T, hT⟩ := Int.eq_ofNat_of_zero_le ht0
  subst hT
  have hTe : T < e := by exact_mod_cast hte
  have h1 : T / v * v ≤ T := Nat.div_mul_le_self T v
  have h2 : T < (T / v + 1) * v := by
    have := Nat.lt_succ_iff.mpr (le_refl (T / v))
    exact (Nat.div_lt_iff_lt_mul hv).mp this
  have h3 : T / v < n := (Nat.div_lt_iff_lt_mul hv).mpr (lt_of_lt_of_le hTe hn1)
  refine ⟨T / v, h3, by exact_mod_cast h1, ?_⟩
  have h4 : (T / v + 1) * v = T / v * v + v := by ring
  by_cases hlast : T / v + 1 < n
  · rw [if_pos hlast]
    have : T < T / v * v + v := by omega
    exact_mod_cast this
  · rw [if_neg hlast]
    have : T < T / v * v + (e - T / v * v) := by omega
    exact_mod_cast this

theorem split_interval_sub (e v n i : ℕ) (hn2 : n * v < e + v) (hi : i < n) (t : ℤ)
    (h1 : ((i * v : ℕ) : ℤ) ≤ t)
    (h2 : t < ((i * v : ℕ) : ℤ) + ((if i + 1 < n then v else e - i * v : ℕ) : ℤ)) :
    0 ≤ t ∧ t < (e : ℤ) := by
  have hle : (i + 1) * v ≤ n * v := Nat.mul_le_mul_right v (by omega)
  have h4 : (i + 1) * v = i * v + v := by ring
  have hiv : i * v < e := by omega
  constructor
  · have : (0 : ℤ) ≤ ((i * v : ℕ) : ℤ) := Int.natCast_nonneg _
    omega
  · by_cases hlast : i + 1 < n
    · rw [if_pos hlast] at h2
      have hle2 : (i + 2) * v ≤ n * v := Nat.mul_le_mul_right v (by omega)
      have h5 : (i + 2) * v = i * v + v + v := by ring
      have h6 : i * v + v < e := by omega
      omega
    · rw [if_neg hlast] at h2
      have h6 : i * v + (e - i * v) = e := by omega
      omega

theorem split_interval_disjoint (e v n i j : ℕ) (hij : i < j) (hj : j < n) (t : ℤ)
    (h2 : t < ((i * v : ℕ) : ℤ) + ((if i + 1 < n then v else e - i * v : ℕ) : ℤ))
    (h3 : ((j * v : ℕ) : ℤ) ≤ t) : False := by
  rw [if_pos (by omega)] at h2
  have hle : (i + 1) * v ≤ j * v := Nat.mul_le_mul_right v (by omega)
  have h4 : (i + 1) * v = i * v + v := by ring
  omega

theorem SplitRequestedRegion_eq {D : ℕ} (R : ImageRegion (D + 1)) (cur : Fin (D + 1))
    (i num : ℕ) (a : Fin (D + 1))
    (hax : splitAxisLoop R.size cur D (Nat.lt_succ_self D) = some a)
    (he : 1 ≤ R.size a) (he32 : R.size a < 2 ^ 32) (hnum : 1 ≤ num) :
    ParabolicOpenCloseImageFilter.SplitRequestedRegion R cur i num =
      some (splitCount (R.size a) num,
        if i < splitCount (R.size a) num then splitPiece R a num i else R) := by
  obtain ⟨hv, hn, hnnum, hn1, hn2⟩ := split_counts (R.size a) num he hnum
  have h232 : (2 : ℕ) ^ 32 = 4294967296 := by norm_num
  have hguard : ¬ (num = 0 ∨ R.size a = 0) := by omega
  unfold ParabolicOpenCloseImageFilter.SplitRequestedRegion
  rw [hax]
  simp only
  rw [if_neg hguard]
  simp only [splitCount, splitExtent, splitPiece]
  generalize hvdef : Nat.ceil ((R.size a : ℚ) / (num : ℚ)) = v at hv hn hnnum hn1 hn2 ⊢
  generalize hndef : Nat.ceil ((R.size a : ℚ) / (v : ℚ)) = n at hn hnnum hn1 hn2 ⊢
  have hnv1 : n - 1 ≤ (n - 1) * v := Nat.le_mul_of_pos_right _ hv
  have hnv2 : (n - 1) * v + v = n * v := by
    have h : n = n - 1 + 1 := by omega
    conv_rhs => rw [h]
    ring
  have hne : n ≤ R.size a := by omega
  have hmax : (n + (2 ^ 32 - 1)) % 2 ^ 32 = n - 1 := by
    rw [h232] at he32 ⊢
    omega
  have hret : (n - 1 + 1) % 2 ^ 32 = n := by
    rw [h232] at he32 ⊢
    omega
  rw [hmax, hret]
  by_cases h1 : i < n - 1
  · have hle : (i + 2) * v ≤ n * v := Nat.mul_le_mul_right v (by omega)
    have h5 : (i + 2) * v = i * v + v + v := by ring
    have hmod : i * v % 2 ^ 32 = i * v := Nat.mod_eq_of_lt (by omega)
    rw [if_pos h1, if_neg (by omega), if_pos (by omega), if_pos (by omega), hmod]
  · by_cases h2 : i = n - 1
    · have hle : (i + 1) * v ≤ n * v := Nat.mul_le_mul_right v (by omega)
      have h5 : (i + 1) * v = i * v + v := by ring
      have hmod : i * v % 2 ^ 32 = i * v := Nat.mod_eq_of_lt (by omega)
      rw [if_neg h1, if_pos h2, if_pos (by omega), if_neg (by omega), hmod]
    · rw [if_neg h1, if_neg h2, if_neg (by omega)]

theorem isInside_update {D : ℕ} (R : ImageRegion D) (a : Fin D) (lo : ℤ) (s : ℕ)
    (x : Fin D → ℤ) :
    ImageRegion.IsInside
        { index := Function.update R.index a lo, size := Function.update R.size a s } x ↔
      (∀ d, d ≠ a → R.index d ≤ x d ∧ x d < R.index d + (R.size d : ℤ)) ∧
        lo ≤ x a ∧ x a < lo + (s : ℤ) := by
  unfold ImageRegion.IsInside
  constructor
  · intro h
    refine ⟨?_, ?_⟩
    · intro d hd
      have := h d
      simp only [Function.update_noteq hd] at this
      exact this
    · have := h a
      simp only [Function.update_same] at this
      exact this
  · rintro ⟨h1, h2⟩ d
    by_cases hd : d = a
    · subst hd
      simp only [Function.update_same]
      exact h2
    · simp only [Function.update_noteq hd]
      exact h1 d hd

theorem isInside_split {D : ℕ} (R : ImageRegion D) (a : Fin D) (x : Fin D → ℤ) :
    R.IsInside x ↔
      (∀ d, d ≠ a → R.index d ≤ x d ∧ x d < R.index d + (R.size d : ℤ)) ∧
        R.index a ≤ x a ∧ x a < R.index a + (R.size a : ℤ) := by
  unfold ImageRegion.IsInside
  constructor
  · intro h
    exact ⟨fun d _ => h d, h a⟩
  · rintro ⟨h1, h2⟩ d
    by_cases hd : d = a
    · subst hd; exact h2
    · exact h1 d hd

/-- C22, the splitter partitions the region: when the loop of `SplitRequestedRegion` stops at the axis `a`, of extent `1 <= e < 2^32`, and `num >= 1`, the returned piece count is `n = ceil(e / ceil(e / num))` for every `i`, with `1 <= n <= num`; for `i < n` the split region is the requested region cut along `a` to the `i`-th piece, of extent at least 1: `ceil(e / num)` for `i < n - 1` and the remainder for `i = n - 1`; an index is inside the requested region exactly when it is inside one of the `n` pieces, and it is inside one piece at most. -/
theorem SplitRequestedRegion_partition {D : ℕ} (R : ImageRegion (D + 1)) (cur : Fin (D + 1))
    (num : ℕ) (a : Fin (D + 1))
    (hax : splitAxisLoop R.size cur D (Nat.lt_succ_self D) = some a)
    (he : 1 ≤ R.size a) (he32 : R.size a < 2 ^ 32) (hnum : 1 ≤ num) :
    1 ≤ splitCount (R.size a) num ∧ splitCount (R.size a) num ≤ num ∧
    (∀ i, ∃ piece, ParabolicOpenCloseImageFilter.SplitRequestedRegion R cur i num =
      some (splitCount (R.size a) num, piece)) ∧
    (∀ i, i < splitCount (R.size a) num →
      ParabolicOpenCloseImageFilter.SplitRequestedRegion R cur i num =
        some (splitCount (R.size a) num, splitPiece R a num i) ∧
      1 ≤ (splitPiece R a num i).size a ∧
      (i + 1 < splitCount (R.size a) num →
        (splitPiece R a num i).size a = splitExtent (R.size a) num) ∧
      (i + 1 = splitCount (R.size a) num →
        (splitPiece R a num i).size a = R.size a - i * splitExtent (R.size a) num)) ∧
    (∀ x, R.IsInside x ↔
      ∃ i, i < splitCount (R.size a) num ∧ (splitPiece R a num i).IsInside x) ∧
    (∀ x i j, i < splitCount (R.size a) num → j < splitCount (R.size a) num →
      (splitPiece R a num i).IsInside x → (splitPiece R a num j).IsInside x → i = j) := by
  obtain ⟨hv, hn, hnnum, hn1, hn2⟩ := split_counts (R.size a) num he hnum
  have hv' : 1 ≤ splitExtent (R.size a) num := hv
  have hn' : 1 ≤ splitCount (R.size a) num := hn
  have hn1' : R.size a ≤ splitCount (R.size a) num * splitExtent (R.size a) num := hn1
  have hn2' : splitCount (R.size a) num * splitExtent (R.size a) num <
      R.size a + splitExtent (R.size a) num := hn2
  have hin : ∀ i x, (splitPiece R a num i).IsInside x ↔
      (∀ d, d ≠ a → R.index d ≤ x d ∧ x d < R.index d + (R.size d : ℤ)) ∧
        ((i * splitExtent (R.size a) num : ℕ) : ℤ) ≤ x a - R.index a ∧
        x a - R.index a < ((i * splitExtent (R.size a) num : ℕ) : ℤ) +
          ((if i + 1 < splitCount (R.size a) num then splitExtent (R.size a) num
            else R.size a - i * splitExtent (R.size a) num : ℕ) : ℤ) := by
    intro i x
    unfold splitPiece
    rw [isInside_update]
    constructor
    · rintro ⟨h1, h2, h3⟩
      exact ⟨h1, by omega, by omega⟩
    · rintro ⟨h1, h2, h3⟩
      exact ⟨h1, by omega, by omega⟩
  refine ⟨hn', hnnum, ?_, ?_, ?_, ?_⟩
  · intro i
    exact ⟨_, SplitRequestedRegion_eq R cur i num a hax he he32 hnum⟩
  · intro i hi
    refine ⟨?_, ?_, ?_, ?_⟩
    · rw [SplitRequestedRegion_eq R cur i num a hax he he32 hnum, if_pos hi]
    · have hle : (i + 1) * splitExtent (R.size a) num ≤
          splitCount (R.size a) num * splitExtent (R.size a) num :=
        Nat.mul_le_mul_right _ (by omega)
      have h5 : (i + 1) * splitExtent (R.size a) num =
          i * splitExtent (R.size a) num + splitExtent (R.size a) num := by ring
      simp only [splitPiece, Function.update_same]
      split
      · exact hv'
      · omega
    · intro h
      simp only [splitPiece, Function.update_same]
      rw [if_pos h]
    · intro h
      simp only [splitPiece, Function.update_same]
      rw [if_neg (by omega)]
  · intro x
    rw [isInside_split R a x]
    constructor
    · rintro ⟨h1, h2, h3⟩
      obtain ⟨i, hi, h4, h5⟩ := split_interval_cover (R.size a) _ _ hv' hn1'
        (x a - R.index a) (by omega) (by omega)
      exact ⟨i, hi, (hin i x).mpr ⟨h1, h4, h5⟩⟩
    · rintro ⟨i, hi, hx⟩
      obtain ⟨h1, h4, h5⟩ := (hin i x).mp hx
      obtain ⟨h6, h7⟩ := split_interval_sub (R.size a) _ _ i hn2' hi (x a - R.index a) h4 h5
      exact ⟨h1, by omega, by omega⟩
  · intro x i j hi hj hxi hxj
    obtain ⟨_, h4, h5⟩ := (hin i x).mp hxi
    obtain ⟨_, h6, h7⟩ := (hin j x).mp hxj
    rcases Nat.lt_trichotomy i j with h | h | h
    · exact absurd (split_interval_disjoint (R.size a) _ _ i j h hj _ h5 h6) id
    · exact h
    · exact absurd (split_interval_disjoint (R.size a) _ _ j i h hi _ h7 h4) id

theorem SplitRequestedRegion_partition_witness :
    1 ≤ splitCount (tenBySeven.size 1) 3 ∧ splitCount (tenBySeven.size 1) 3 ≤ 3 ∧
    (∀ i, ∃ piece, ParabolicOpenCloseImageFilter.SplitRequestedRegion tenBySeven 0 i 3 =
      some (splitCount (tenBySeven.size 1) 3, piece)) ∧
    (∀ x, tenBySeven.IsInside x ↔
      ∃ i, i < splitCount (tenBySeven.size 1) 3 ∧ (splitPiece tenBySeven 1 3 i).IsInside x) :=
  ⟨(SplitRequestedRegion_partition tenBySeven 0 3 1 (by decide) (by decide) (by decide)
      (by decide)).1,
   (SplitRequestedRegion_partition tenBySeven 0 3 1 (by decide) (by decide) (by decide)
      (by decide)).2.1,
   (SplitRequestedRegion_partition tenBySeven 0 3 1 (by decide) (by decide) (by decide)
      (by decide)).2.2.1,
   (SplitRequestedRegion_partition tenBySeven 0 3 1 (by decide) (by decide) (by decide)
      (by decide)).2.2.2.2.1⟩

theorem SplitRequestedRegion_off_axis {D : ℕ} (R : ImageRegion (D + 1)) (cur : Fin (D + 1))
    (i num : ℕ) (a : Fin (D + 1))
    (hax : splitAxisLoop R.size cur D (Nat.lt_succ_self D) = some a)
    (n : ℕ) (piece : ImageRegion (D + 1))
    (h : ParabolicOpenCloseImageFilter.SplitRequestedRegion R cur i num = some (n, piece))
    (d : Fin (D + 1)) (hd : d ≠ a) :
    piece.index d = R.index d ∧ piece.size d = R.size d := by
  unfold ParabolicOpenCloseImageFilter.SplitRequestedRegion at h
  rw [hax] at h
  simp only at h
  by_cases hguard : num = 0 ∨ R.size a = 0
  · rw [if_pos hguard] at h
    exact absurd h (by simp)
  · rw [if_neg hguard] at h
    have hp := (Prod.mk.inj (Option.some.inj h)).2
    rw [← hp]
    split_ifs <;> simp [Function.update_noteq hd]

theorem SplitRequestedRegion_serial {D : ℕ} (R : ImageRegion (D + 1)) (cur : Fin (D + 1))
    (i num : ℕ) (hax : splitAxisLoop R.size cur D (Nat.lt_succ_self D) = none) :
    ParabolicOpenCloseImageFilter.SplitRequestedRegion R cur i num = some (1, R) := by
  unfold ParabolicOpenCloseImageFilter.SplitRequestedRegion
  rw [hax]

/-- C23, at the requested region of 2 x 0 voxels with the pass axis 0: the loop of `SplitRequestedRegion` stops at axis 1, whose extent is 0, although no axis other than 0 has an extent above 1; the function does not return 1 with the whole region, it goes on to divide by the extent 0 and has no defined result. -/
theorem SplitRequestedRegion_axis_not :
    splitAxisLoop emptyRegion.size 0 1 (Nat.lt_succ_self 1) = some 1 ∧
    emptyRegion.size 1 = 0 ∧
    (∀ b : Fin 2, b ≠ 0 → ¬ 1 < emptyRegion.size b) ∧
    ParabolicOpenCloseImageFilter.SplitRequestedRegion emptyRegion 0 0 1 = none ∧
    ParabolicOpenCloseImageFilter.SplitRequestedRegion emptyRegion 0 0 1 ≠
      some (1, emptyRegion) := by
  have hax : splitAxisLoop emptyRegion.size 0 1 (Nat.lt_succ_self 1) = some 1 := by decide
  have hnone : ParabolicOpenCloseImageFilter.SplitRequestedRegion emptyRegion 0 0 1 = none := by
    unfold ParabolicOpenCloseImageFilter.SplitRequestedRegion
    rw [hax]
    simp only
    rw [if_pos (Or.inr (by decide))]
  refine ⟨hax, by decide, by decide, hnone, ?_⟩
  rw [hnone]
  simp

/-- What the loop of `SplitRequestedRegion` tests: it stops at the highest axis that is different from the pass axis and whose extent is not 1, the split region differs from the requested region along that axis only, and when the loop finds no axis the function returns 1 with the requested region. -/
theorem SplitRequestedRegion_axis {D : ℕ} (R : ImageRegion (D + 1)) (cur : Fin (D + 1))
    (i num : ℕ) :
    (∀ a, splitAxisLoop R.size cur D (Nat.lt_succ_self D) = some a →
      a ≠ cur ∧ R.size a ≠ 1 ∧ (∀ b, a < b → R.size b = 1 ∨ b = cur) ∧
      ∀ n piece, ParabolicOpenCloseImageFilter.SplitRequestedRegion R cur i num =
          some (n, piece) →
        ∀ d, d ≠ a → piece.index d = R.index d ∧ piece.size d = R.size d) ∧
    (splitAxisLoop R.size cur D (Nat.lt_succ_self D) = none →
      (∀ b, R.size b = 1 ∨ b = cur) ∧
      ParabolicOpenCloseImageFilter.SplitRequestedRegion R cur i num = some (1, R)) ∧
    (∀ n piece, ParabolicOpenCloseImageFilter.SplitRequestedRegion R cur i num =
        some (n, piece) →
      piece.index cur = R.index cur ∧ piece.size cur = R.size cur) := by
  refine ⟨?_, ?_, ?_⟩
  · intro a hax
    obtain ⟨_, h2, h3, h4⟩ := splitAxisLoop_some R.size cur D (Nat.lt_succ_self D) a hax
    refine ⟨h3, h2, ?_, ?_⟩
    · intro b hb
      exact h4 b hb (Nat.lt_succ_iff.mp b.isLt)
    · intro n piece h d hd
      exact SplitRequestedRegion_off_axis R cur i num a hax n piece h d hd
  · intro hax
    refine ⟨?_, SplitRequestedRegion_serial R cur i num hax⟩
    intro b
    exact splitAxisLoop_none R.size cur D (Nat.lt_succ_self D) hax b
      (Nat.lt_succ_iff.mp b.isLt)
  · intro n piece h
    cases hax : splitAxisLoop R.size cur D (Nat.lt_succ_self D) with
    | none =>
      rw [SplitRequestedRegion_serial R cur i num hax] at h
      have hp := (Prod.mk.inj (Option.some.inj h)).2
      rw [← hp]
      exact ⟨rfl, rfl⟩
    | some a =>
      obtain ⟨_, _, h3, _⟩ := splitAxisLoop_some R.size cur D (Nat.lt_succ_self D) a hax
      exact SplitRequestedRegion_off_axis R cur i num a hax n piece h cur (Ne.symm h3)

theorem SplitRequestedRegion_axis_witness :
    ((1 : Fin 2) ≠ 0 ∧ tenBySeven.size 1 ≠ 1 ∧
      (∀ b : Fin 2, 1 < b → tenBySeven.size b = 1 ∨ b = 0) ∧
      ∀ n piece, ParabolicOpenCloseImageFilter.SplitRequestedRegion tenBySeven 0 2 3 =
          some (n, piece) →
        ∀ d, d ≠ 1 → piece.index d = tenBySeven.index d ∧ piece.size d = tenBySeven.size d) ∧
    ((∀ b : Fin 2, tenByOne.size b = 1 ∨ b = 0) ∧
      ParabolicOpenCloseImageFilter.SplitRequestedRegion tenByOne 0 2 3 = some (1, tenByOne)) :=
  ⟨(SplitRequestedRegion_axis tenBySeven 0 2 3).1 1 (by decide),
   (SplitRequestedRegion_axis tenByOne 0 2 3).2.1 (by decide)⟩

/-! ## `MaxDist` and the radicands of the combiner -/

theorem roundDouble_values :
    roundDouble (9 / 5) = 8106479329266893 / 4503599627370496 ∧
    roundDouble (7 / 10) = 3152519739159347 / 4503599627370496 ∧
    roundDouble (1 / 10) = 3602879701896397 / 36028797018963968 ∧
    roundDouble 61 = 61 ∧ roundDouble (-3) = -3 ∧
    roundDouble 9007199254740993 = 9007199254740992 ∧
    roundDouble 9007199254740995 = 9007199254740996 := by
  refine ⟨by decide!, by decide!, by decide!, by decide!, by decide!, by decide!, by decide!⟩

theorem intersectionFl_id (doDilate : Bool) (F : ℕ → α) (v : ℕ → ℕ) (q k : ℕ) :
    intersectionFl id doDilate F v q k = intersection doDilate F v q k := by
  simp [intersectionFl, intersection]

theorem popLoopFl_id (doDilate : Bool) (F : ℕ → α) (v : ℕ → ℕ) (z : ℕ → α) (q : ℕ) :
    ∀ k, popLoopFl id doDilate F v z q k = popLoop doDilate F v z q k := by
  intro k
  induction k with
  | zero => rfl
  | succ k ih => simp only [popLoopFl, popLoop, intersectionFl_id, ih]

theorem precomputeFl_id (doDilate : Bool) (L : List α) (m : α) (q : ℕ) :
    precomputeFl id doDilate L m q = precompute doDilate L m q := by
  simp [precomputeFl, precompute]

theorem mainStepFl_id (doDilate : Bool) (L : List α) (m : α) (q : ℕ) (st : EnvState α) :
    mainStepFl id doDilate L m q st = mainStep doDilate L m q st := by
  simp only [mainStepFl, mainStep, precomputeFl_id, popLoopFl_id]

theorem mainLoopFl_id (doDilate : Bool) (L : List α) (m : α) :
    ∀ n q st, mainLoopFl id doDilate L m n q st = mainLoop doDilate L m n q st := by
  intro n
  induction n with
  | zero => intro q st; rfl
  | succ n ih =>
    intro q st
    simp only [mainLoopFl, mainLoop, mainStepFl_id]
    cases mainStep doDilate L m q st with
    | none => rfl
    | some st' => exact ih (q + 1) st'

theorem emitFl_id (doDilate : Bool) (m : α) (F : ℕ → α) (v : ℕ → ℕ) (q k : ℕ) :
    emitFl id doDilate m F v q k = emit doDilate m F v q k := by
  simp [emitFl, emit]

theorem reconstructFl_id (doDilate : Bool) (m : α) (N : ℕ) (F : ℕ → α) (v : ℕ → ℕ)
    (z : ℕ → α) :
    ∀ n q k, reconstructFl id doDilate m N F v z n q k = reconstruct doDilate m N F v z n q k := by
  intro n
  induction n with
  | zero => intro q k; rfl
  | succ n ih =>
    intro q k
    simp only [reconstructFl, reconstruct, emitFl_id, ih]

theorem DoLineIntAlgFl_id (doDilate : Bool) (L : List α) (F : ℕ → α) (v : ℕ → ℕ) (z : ℕ → α)
    (m : α) : DoLineIntAlgFl id doDilate L F v z m = DoLineIntAlg doDilate L F v z m := by
  cases L with
  | nil => rfl
  | cons x t =>
    simp only [DoLineIntAlgFl, DoLineIntAlg, mainLoopFl_id, id_eq]
    cases mainLoop doDilate (x :: t) m ((x :: t).length - 1) 1 _ with
    | none => rfl
    | some st => exact reconstructFl_id doDilate m _ st.F st.v st.z _ 0 0

/-- C15, counterexample: in `double` arithmetic with the magnitude 1.8 the dilation of the line `[61]` is `60.99999999999999`, below 61, and the erosion of the line `[15]` is `15.000000000000002`, above 15; the kernel returns `(L[0] / m) * m` with both operations rounded. -/
theorem DoLineIntAlgFl_not_extensive :
    DoLineIntAlgFl roundDouble true [61] (fun _ => 0) (fun _ => 0) (fun _ => 0)
        (roundDouble (9 / 5)) = some [8584986789675007 / 140737488355328] ∧
    ¬ ((61 : ℚ) ≤ 8584986789675007 / 140737488355328) ∧
    DoLineIntAlgFl roundDouble false [15] (fun _ => 0) (fun _ => 0) (fun _ => 0)
        (roundDouble (9 / 5)) = some [8444249301319681 / 562949953421312] ∧
    ¬ ((8444249301319681 / 562949953421312 : ℚ) ≤ 15) := by
  refine ⟨by decide!, by norm_num, by decide!, by norm_num⟩

/-- C16, counterexample: in `double` arithmetic with the magnitude 0.7 and `L = [0, 0, 1, 3] <= M = [1, 0, 1, 3]`, both runs return, and at position 1 the dilation of `L` is `0.30000000000000016` and the dilation of `M` is `0.3`: the dilation of `L` is not at most the dilation of `M`. -/
theorem DoLineIntAlgFl_dilate_not_monotone :
    (∀ q, q < 4 → ([0, 0, 1, 3] : List ℚ).getD q 0 ≤ ([1, 0, 1, 3] : List ℚ).getD q 0) ∧
    DoLineIntAlgFl roundDouble true [0, 0, 1, 3] (fun _ => 0) (fun _ => 0) (fun _ => 0)
        (roundDouble (7 / 10)) =
      some [0, 2702159776422299 / 9007199254740992, 2589569785738035 / 1125899906842624,
        6755399441055743 / 2251799813685248] ∧
    DoLineIntAlgFl roundDouble true [1, 0, 1, 3] (fun _ => 0) (fun _ => 0) (fun _ => 0)
        (roundDouble (7 / 10)) =
      some [1, 5404319552844595 / 18014398509481984, 2589569785738035 / 1125899906842624,
        6755399441055743 / 2251799813685248] ∧
    ¬ ((2702159776422299 / 9007199254740992 : ℚ) ≤ 5404319552844595 / 18014398509481984) := by
  refine ⟨?_, by decide!, by decide!, by norm_num⟩
  intro q hq
  interval_cases q <;> norm_num

/-- Erosion in `double` arithmetic is not monotone: with the magnitude 0.7 and `L = [-1, 0, -1, -3] <= M = [0, 0, -1, -3]`, at position 1 the erosion of `L` is `-0.3` and the erosion of `M` is `-0.30000000000000016`. -/
theorem DoLineIntAlgFl_erode_not_monotone :
    (∀ q, q < 4 → ([-1, 0, -1, -3] : List ℚ).getD q 0 ≤ ([0, 0, -1, -3] : List ℚ).getD q 0) ∧
    DoLineIntAlgFl roundDouble false [-1, 0, -1, -3] (fun _ => 0) (fun _ => 0) (fun _ => 0)
        (roundDouble (7 / 10)) =
      some [-1, -(5404319552844595 / 18014398509481984),
        -(2589569785738035 / 1125899906842624), -(6755399441055743 / 2251799813685248)] ∧
    DoLineIntAlgFl roundDouble false [0, 0, -1, -3] (fun _ => 0) (fun _ => 0) (fun _ => 0)
        (roundDouble (7 / 10)) =
      some [0, -(2702159776422299 / 9007199254740992),
        -(2589569785738035 / 1125899906842624), -(6755399441055743 / 2251799813685248)] ∧
    ¬ (-(5404319552844595 / 18014398509481984 : ℚ) ≤
      -(2702159776422299 / 9007199254740992)) := by
  refine ⟨?_, by decide!, by decide!, by norm_num⟩
  intro q hq
  interval_cases q <;> norm_num

/-! ## The split axis for regions without an empty axis -/

theorem SplitRequestedRegion_axis_nonempty {D : ℕ} (R : ImageRegion (D + 1))
    (cur : Fin (D + 1)) (i num : ℕ) (hne : ∀ d, 1 ≤ R.size d) :
    (∀ a, splitAxisLoop R.size cur D (Nat.lt_succ_self D) = some a →
      a ≠ cur ∧ 1 < R.size a ∧ (∀ b, a < b → ¬ (b ≠ cur ∧ 1 < R.size b)) ∧
      ∀ n piece, ParabolicOpenCloseImageFilter.SplitRequestedRegion R cur i num =
          some (n, piece) →
        ∀ d, d ≠ a → piece.index d = R.index d ∧ piece.size d = R.size d) ∧
    (splitAxisLoop R.size cur D (Nat.lt_succ_self D) = none →
      (∀ b, ¬ (b ≠ cur ∧ 1 < R.size b)) ∧
      ParabolicOpenCloseImageFilter.SplitRequestedRegion R cur i num = some (1, R)) := by
  constructor
  · intro a hax
    obtain ⟨_, h2, h3, h4⟩ := splitAxisLoop_some R.size cur D (Nat.lt_succ_self D) a hax
    have ha := hne a
    refine ⟨h3, by omega, ?_, ?_⟩
    · rintro b hb ⟨hb1, hb2⟩
      rcases h4 b hb (Nat.lt_succ_iff.mp b.isLt) with h | h
      · omega
      · exact hb1 h
    · intro n piece h d hd
      exact SplitRequestedRegion_off_axis R cur i num a hax n piece h d hd
  · intro hax
    refine ⟨?_, SplitRequestedRegion_serial R cur i num hax⟩
    rintro b ⟨hb1, hb2⟩
    rcases splitAxisLoop_none R.size cur D (Nat.lt_succ_self D) hax b
      (Nat.lt_succ_iff.mp b.isLt) with h | h
    · omega
    · exact hb1 h

end itk
